import Mathlib

/-! # SenseRank: page-rank over word senses (opencog/nlp/wsd/SenseRank.cc)

A shallow embedding of `SenseRank.cc`.  The C++ object mutates its own
scratch fields (`edge_sum`, `rank_sum`, `converge`, `randy`, `next_sense`)
and the truth values held in the atom table; here every member function is a
function on an explicit `State` record that carries those fields.

Numbers: `double` and `float` arithmetic is idealised as exact arithmetic
over `ℚ` (the cast `(float) rank_sum` is the identity), so statements are
about the real-number algorithm the code implements, not about IEEE
rounding.  Division is the field division of `ℚ` (so `x / 0 = 0`, where IEEE
arithmetic gives an infinity or a NaN).

Atoms: sense links and edges are both atoms of the one table that
`TLB::getAtom` reads, so a single map `tv` holds the truth value of every
handle.  An edge atom is not a sense link; where a statement about edge
weights needs this, it says so as a hypothesis.

Loops: the unbounded `do ... while` loop of `start_sense` is given a fuel
argument and returns `none` when the fuel runs out; every function that may
run it returns an `Option`.

Ghost state: the field `trace` logs the calls of `start_sense`, `rank_sense`
and `pick_random_edge`.  No function reads it.
-/

namespace Wsd

/-- Atoms are referred to by `Handle`; `TLB::getAtom` resolves a handle. -/
abbrev Handle := Nat

/-- Modelled from the spec: the (mean, confidence) pair that the score store
keeps for an atom (`SimpleTruthValue.h` is not among the sources). -/
structure TruthValue where
  mean : ℚ
  confidence : ℚ
deriving DecidableEq

/-- Ghost record of the member-function calls made so far; it is read by no
function of the program and only lets theorems speak about which calls
happened. -/
inductive Call where
  | start_sense (sense_link_h : Handle)
  | rank_sense (sense_link_h : Handle)
  | pick_random_edge (h : Handle)
deriving DecidableEq

/-- The atom table, the C library random source and the fields of the
`SenseRank` object. -/
structure State where
  /-- Truth value of every atom: `TLB::getAtom(h)->getTruthValue()`. -/
  tv : Handle → TruthValue
  /-- Edges visited by `foreach_sense_edge`, in order: (other sense, edge atom). -/
  sense_edges : Handle → List (Handle × Handle)
  /-- Pairs visited by `foreach_word_sense_of_inst`: (word sense, sense link). -/
  word_senses : Handle → List (Handle × Handle)
  /-- Word instances visited by `foreach_word_instance`. -/
  word_instances : Handle → List Handle
  /-- Parses visited by `foreach_parse`. -/
  parses : Handle → List Handle
  /-- The constant `RAND_MAX` of the C library. -/
  RAND_MAX : Nat
  /-- The values successive calls of `rand()` return. -/
  rand_seq : Nat → Nat
  /-- How many times `rand()` has been called. -/
  rand_pos : Nat
  damping_factor : ℚ
  convergence_damper : ℚ
  convergence_limit : ℚ
  converge : ℚ
  edge_sum : ℚ
  rank_sum : ℚ
  randy : ℚ
  next_sense : Handle
  /-- Ghost call log. -/
  trace : List Call

/-- Edge weight: `edge->getTruthValue().getMean()`. -/
def State.weight (s : State) (hedge : Handle) : ℚ := (s.tv hedge).mean

/-- The constructor `SenseRank::SenseRank`. -/
def SenseRank (s : State) : State :=
  let N : ℚ := 30
  { s with
    damping_factor := 90 / 100
    convergence_damper := 1 / N
    convergence_limit := 3 / 100 }

/-- Modelled from the spec: the visitor traversals of `ForeachWord.h` (not
among the sources) call the visitor on each element in order and stop as soon
as the visitor returns `true`. -/
def foreach_visit {α σ : Type} (cb : σ → α → σ × Bool) : List α → σ → σ × Bool
  | [], s => (s, false)
  | x :: xs, s =>
    let r := cb s x
    if r.2 then (r.1, true) else foreach_visit cb xs r.1

/-- The same traversal for a visitor that may fail to return (fuel). -/
def foreach_visit_fuel {α σ : Type} (cb : σ → α → Option (σ × Bool)) :
    List α → σ → Option (σ × Bool)
  | [], s => some (s, false)
  | x :: xs, s =>
    match cb s x with
    | none => none
    | some r => if r.2 then some (r.1, true) else foreach_visit_fuel cb xs r.1

/-- The call `foreach_sense_edge(h, cb, this)`. -/
def foreach_sense_edge (s : State) (h : Handle)
    (cb : State → Handle → Handle → State × Bool) : State × Bool :=
  foreach_visit (fun st p => cb st p.1 p.2) (s.sense_edges h) s

/-- The visitor `SenseRank::inner_sum`. -/
def inner_sum (s : State) (_sense_c_h hedge_bc : Handle) : State × Bool :=
  let weight_to_b := (s.tv hedge_bc).mean
  ({ s with edge_sum := s.edge_sum + weight_to_b }, false)

/-- The visitor `SenseRank::outer_sum`. -/
def outer_sum (s : State) (sense_b_h hedge : Handle) : State × Bool :=
  let weight_ab := (s.tv hedge).mean
  let s1 := { s with edge_sum := 0 }
  let s2 := (foreach_sense_edge s1 sense_b_h inner_sum).1
  let t_ab := weight_ab / s2.edge_sum
  let p_b := (s2.tv sense_b_h).mean
  let weight := t_ab * p_b
  ({ s2 with rank_sum := s2.rank_sum + weight }, false)

/-- The member function `SenseRank::rank_sense`. -/
def rank_sense (s : State) (sense_link_h : Handle) : State :=
  let s1 := { s with rank_sum := 0 }
  let s2 := (foreach_sense_edge s1 sense_link_h outer_sum).1
  let s3 := { s2 with rank_sum := s2.rank_sum * s2.damping_factor }
  let s4 := { s3 with rank_sum := s3.rank_sum + (1 - s3.damping_factor) }
  let old_rank := (s4.tv sense_link_h).mean
  let s5 := { s4 with converge := s4.converge * (1 - s4.convergence_damper) }
  let s6 := { s5 with
    converge := s5.converge + s5.convergence_damper * |s5.rank_sum - old_rank| }
  let stv : TruthValue := ⟨s6.rank_sum, 1⟩
  let stv : TruthValue := { stv with confidence := (s6.tv sense_link_h).confidence }
  { s6 with
    tv := Function.update s6.tv sense_link_h stv
    trace := s6.trace ++ [Call.rank_sense sense_link_h] }

/-- The visitor `SenseRank::random_sum`. -/
def random_sum (s : State) (h hedge : Handle) : State × Bool :=
  let s1 := { s with next_sense := h }
  let weight_to_b := (s1.tv hedge).mean
  let s2 := { s1 with edge_sum := s1.edge_sum + weight_to_b }
  if s2.randy < s2.edge_sum then (s2, true) else (s2, false)

/-- The member function `SenseRank::pick_random_edge`; the result is the new
state and the returned handle. -/
def pick_random_edge (s : State) (h : Handle) : State × Handle :=
  let s1 := { s with
    randy := (s.rand_seq s.rand_pos : ℚ) / (s.RAND_MAX : ℚ)
    rand_pos := s.rand_pos + 1
    trace := s.trace ++ [Call.pick_random_edge h] }
  let s2 := { s1 with edge_sum := 0 }
  let s3 := (foreach_sense_edge s2 h inner_sum).1
  let s4 := { s3 with randy := s3.randy * s3.edge_sum }
  let s5 := { s4 with edge_sum := 0 }
  let s6 := (foreach_sense_edge s5 h random_sum).1
  (s6, s6.next_sense)

/-- The `do { rank_sense; pick_random_edge } while (convergence_limit < converge)`
loop of `start_sense`, with fuel. -/
def walk_loop : Nat → State → Handle → Option State
  | 0, _, _ => none
  | n + 1, s, sense_link_h =>
    let s1 := rank_sense s sense_link_h
    let r := pick_random_edge s1 sense_link_h
    if r.1.convergence_limit < r.1.converge then walk_loop n r.1 r.2 else some r.1

/-- The visitor `SenseRank::start_sense`. -/
def start_sense (fuel : Nat) (s : State) (_word_sense_h sense_link_h : Handle) :
    Option (State × Bool) :=
  let s0 := { s with trace := s.trace ++ [Call.start_sense sense_link_h] }
  let s1 := { s0 with edge_sum := 0 }
  let s2 := (foreach_sense_edge s1 sense_link_h inner_sum).1
  if s2.edge_sum < 1 / 10 ^ 10 then some (s2, false)
  else
    match walk_loop fuel s2 sense_link_h with
    | none => none
    | some s3 => some (s3, false)

/-- The visitor `SenseRank::start_word`. -/
def start_word (fuel : Nat) (s : State) (h : Handle) : Option (State × Bool) :=
  match foreach_visit_fuel (fun st p => start_sense fuel st p.1 p.2) (s.word_senses h) s with
  | none => none
  | some r => some (r.1, false)

/-- The member function `SenseRank::rank_parse`. -/
def rank_parse (fuel : Nat) (s : State) (h : Handle) : Option State :=
  match foreach_visit_fuel (start_word fuel) (s.word_instances h) s with
  | none => none
  | some r => some r.1

/-- The visitor `SenseRank::rank_parse_f`. -/
def rank_parse_f (fuel : Nat) (s : State) (h : Handle) : Option (State × Bool) :=
  match rank_parse fuel s h with
  | none => none
  | some s1 => some (s1, false)

/-- The visitor `SenseRank::init_senses`. -/
def init_senses (s : State) (_word_sense_h sense_link_h : Handle) : State × Bool :=
  let stv : TruthValue := ⟨1, 9 / 10⟩
  ({ s with tv := Function.update s.tv sense_link_h stv }, false)

/-- The visitor `SenseRank::init_word`. -/
def init_word (s : State) (h : Handle) : State × Bool :=
  let s1 := (foreach_visit (fun st p => init_senses st p.1 p.2) (s.word_senses h) s).1
  (s1, false)

/-- The member function `SenseRank::init_parse`. -/
def init_parse (s : State) (h : Handle) : State :=
  let s1 := { s with converge := 1 }
  (foreach_visit init_word (s1.word_instances h) s1).1

/-- The member function `SenseRank::rank_sentence`. -/
def rank_sentence (fuel : Nat) (s : State) (h : Handle) : Option State :=
  match foreach_visit_fuel (rank_parse_f fuel) (s.parses h) s with
  | none => none
  | some r => some r.1

/-- The second `for` loop of `rank_document`. -/
def rank_document_rank (fuel : Nat) : List Handle → State → Option State
  | [], s => some s
  | i :: rest, s =>
    match rank_parse fuel s i with
    | none => none
    | some s1 => rank_document_rank fuel rest s1

/-- The member function `SenseRank::rank_document`. -/
def rank_document (fuel : Nat) (s : State) (parse_list : List Handle) : Option State :=
  let s1 := parse_list.foldl init_parse s
  rank_document_rank fuel parse_list s1

/-! ## Specification-side quantities -/

/-- The sum of the weights of all edges in the edge list of `b`
(the normalizer `sum_c w_cb`). -/
def edge_weight_sum (s : State) (b : Handle) : ℚ :=
  ((s.sense_edges b).map (fun p => s.weight p.2)).sum

/-- The sum over the edges `(b, w)` of `a` of `(w / edge_sum(b)) * mean(b)`. -/
def rank_sum_spec (s : State) (a : Handle) : ℚ :=
  ((s.sense_edges a).map
    (fun p => s.weight p.2 / edge_weight_sum s p.1 * (s.tv p.1).mean)).sum


/-- The senses on which `rank_sense` was called, in call order. -/
def rank_calls (t : List Call) : List Handle :=
  t.filterMap (fun c => match c with
    | Call.rank_sense h => some h
    | _ => none)

/-- The senses on which `start_sense` was called, in call order. -/
def start_calls (t : List Call) : List Handle :=
  t.filterMap (fun c => match c with
    | Call.start_sense h => some h
    | _ => none)

/-- The senses on which `pick_random_edge` was called, in call order. -/
def pick_calls (t : List Call) : List Handle :=
  t.filterMap (fun c => match c with
    | Call.pick_random_edge h => some h
    | _ => none)

/-- What no function of `SenseRank.cc` changes: the graph structure, the
random source, the three parameters, and the confidence of every atom. -/
structure Frame (s t : State) : Prop where
  sense_edges : t.sense_edges = s.sense_edges
  word_senses : t.word_senses = s.word_senses
  word_instances : t.word_instances = s.word_instances
  parses : t.parses = s.parses
  RAND_MAX : t.RAND_MAX = s.RAND_MAX
  rand_seq : t.rand_seq = s.rand_seq
  damping_factor : t.damping_factor = s.damping_factor
  convergence_damper : t.convergence_damper = s.convergence_damper
  convergence_limit : t.convergence_limit = s.convergence_limit
  confidence : ∀ x, (t.tv x).confidence = (s.tv x).confidence

/-- The shape of the symmetric two-sense graph: senses `1` and `2` with score
(1, 9/10), joined in both directions by the edge atom `3` of weight 1, the
constructor's parameters, and a random source that always returns 0. -/
structure TwoNodeLike (s : State) : Prop where
  tv1 : s.tv 1 = ⟨1, 9 / 10⟩
  tv2 : s.tv 2 = ⟨1, 9 / 10⟩
  w3 : s.weight 3 = 1
  e1 : s.sense_edges 1 = [(2, 3)]
  e2 : s.sense_edges 2 = [(1, 3)]
  damping : s.damping_factor = 9 / 10
  damper : s.convergence_damper = 1 / 30
  limit : s.convergence_limit = 3 / 100
  rand0 : s.rand_seq = fun _ => 0
  words : s.word_instances 30 = [20]
  senses : s.word_senses 20 = [(11, 1), (12, 2)]

/-! ## Concrete graphs -/

/-- Two senses `1` and `2` joined by the edge atom `3` of weight 1 in both
directions, all sense means `1`, confidences `9/10`; one word instance `20`
with the two senses, in parse `30`.  The parameters are those of the
constructor, with accumulator `c`. -/
def two_node (c : ℚ) : State :=
  SenseRank
    { tv := fun h => if h = 3 then ⟨1, 1⟩ else ⟨1, 9 / 10⟩
      sense_edges := fun h => if h = 1 then [(2, 3)] else if h = 2 then [(1, 3)] else []
      word_senses := fun h => if h = 20 then [(11, 1), (12, 2)] else []
      word_instances := fun h => if h = 30 then [20] else []
      parses := fun h => if h = 40 then [30] else []
      RAND_MAX := 2147483647
      rand_seq := fun _ => 0
      rand_pos := 0
      damping_factor := 0
      convergence_damper := 0
      convergence_limit := 0
      converge := c
      edge_sum := 0
      rank_sum := 0
      randy := 0
      next_sense := 0
      trace := [] }

/-- The draw of `pick_random_edge`: `rand() / RAND_MAX` times the total edge
weight of `h`. -/
def random_draw (s : State) (h : Handle) : ℚ :=
  (s.rand_seq s.rand_pos : ℚ) / (s.RAND_MAX : ℚ) * edge_weight_sum s h

/-- The state in which `pick_random_edge` starts its `random_sum` traversal:
`randy` holds the draw and `edge_sum` has been reset. -/
def selection_state (s : State) (h : Handle) : State :=
  { s with
    randy := random_draw s h
    rand_pos := s.rand_pos + 1
    trace := s.trace ++ [Call.pick_random_edge h]
    edge_sum := 0 }

/-- The sum of the first `k` edge weights of the list `l`, read in state `s`. -/
def cum_list (s : State) (l : List (Handle × Handle)) (k : Nat) : ℚ :=
  ((l.take k).map (fun p => s.weight p.2)).sum

/-- The sum `w_1 + ... + w_k` of the first `k` edge weights of sense `h`. -/
def cum_weight (s : State) (h : Handle) (k : Nat) : ℚ :=
  cum_list s (s.sense_edges h) k

/-- The traversal of `pick_random_edge s h` selects the edge at (0-based)
position `k`: the visitor `random_sum` returns `false` on every edge before
position `k` and `true` on the edge at position `k`. -/
def selects (s : State) (h : Handle) (k : Nat) : Prop :=
  (foreach_visit (fun st p => random_sum st p.1 p.2) ((s.sense_edges h).take k)
      (selection_state s h)).2 = false ∧
    (foreach_visit (fun st p => random_sum st p.1 p.2) ((s.sense_edges h).take (k + 1))
      (selection_state s h)).2 = true

instance (s : State) (h : Handle) (k : Nat) : Decidable (selects s h k) := by
  unfold selects
  infer_instance

/-- Sense `1` with three edges, to senses `2`, `3`, `4`, of weights 1, 2, 3
(edge atoms `5`, `6`, `7`); `rand()` returns `n`. -/
def three_edges (n : Nat) : State :=
  SenseRank
    { tv := fun h => if h = 5 then ⟨1, 1⟩ else if h = 6 then ⟨2, 1⟩ else
        if h = 7 then ⟨3, 1⟩ else ⟨1, 9 / 10⟩
      sense_edges := fun h => if h = 1 then [(2, 5), (3, 6), (4, 7)] else []
      word_senses := fun _ => []
      word_instances := fun _ => []
      parses := fun _ => []
      RAND_MAX := 2147483647
      rand_seq := fun _ => n
      rand_pos := 0
      damping_factor := 0
      convergence_damper := 0
      convergence_limit := 0
      converge := 1
      edge_sum := 0
      rank_sum := 0
      randy := 0
      next_sense := 0
      trace := [] }

/-- The sense links of all word instances of parse `P`, in traversal order. -/
def parse_sense_links (s : State) (P : Handle) : List Handle :=
  (s.word_instances P).flatMap (fun w => (s.word_senses w).map Prod.snd)

/-- The two-sense graph with arbitrary scores on its senses: every atom but
the edge atom `3` has mean `1/4` and confidence `1/5`, the accumulator is
`1/2`. -/
def unranked : State :=
  { two_node (1 / 2) with tv := fun h => if h = 3 then ⟨1, 1⟩ else ⟨1 / 4, 1 / 5⟩ }

/-- The accumulator update of `rank_sense` (the two assignments
`converge *= (1.0-convergence_damper); converge += convergence_damper * delta`)
as a function of the damper, the accumulator and the delta. -/
def converge_update (damper c d : ℚ) : ℚ :=
  c * (1 - damper) + damper * d

/-- The accumulator after feeding the deltas `ds`, in order, from `c`. -/
def converge_run (damper c : ℚ) (ds : List ℚ) : ℚ :=
  ds.foldl (converge_update damper) c

/-- The state in which the loop of `start_sense` is entered: the call is
logged and `edge_sum` holds the edge-weight sum of the start sense. -/
def walk_start (s : State) (h : Handle) : State :=
  { s with
    trace := s.trace ++ [Call.start_sense h]
    edge_sum := edge_weight_sum s h }

/-- The weight `w_ab` joining `a` to `b`: the total weight of the edges to `b`
in the edge list of `a` (with at most one edge per pair, the weight of that
edge; 0 when there is none). -/
def pair_weight (s : State) (a b : Handle) : ℚ :=
  (((s.sense_edges a).filter (fun p => p.1 = b)).map (fun p => s.weight p.2)).sum

/-- The entry `t_ab = w_ab / (sum_c w_cb)` of the transition matrix: the
weight joining `a` to `b`, divided by the edge-weight sum of `b`. -/
def transition (s : State) (a b : Handle) : ℚ :=
  pair_weight s a b / edge_weight_sum s b

/-- Sense `a` is at a fixed point of the update in state `s`: its mean equals
`damping_factor * S + (1 - damping_factor)` for its current neighbour sum. -/
def Stationary (s : State) (a : Handle) : Prop :=
  (s.tv a).mean = rank_sum_spec s a * s.damping_factor + (1 - s.damping_factor)

/-- A graph with two components and three parses.  Senses `1` and `2` form
the symmetric pair (edge atom `3`, weight 1).  Senses `4`, `5`, `6` form a
directed component: `4` has one edge to `5` (atom `7`, weight 1), `5` has
edges to `4` (atom `8`, weight 1/2) and to `6` (atom `9`, weight 1/2), and `6`
has a loop (atom `10`, weight 25/29).  Word `20` has the senses `1`, `2`;
word `21` has the senses `4`, `5`, `6`.  Parse `30` is word `20`, parse `31`
is word `21`, parse `33` is both words.  The means of `4` and `5` are `x4` and
`x5`, every other sense has the prior score.  The sequence of `rand()` has
period 105: it returns 1073741824 at its fourth call and at every 105th call
after it, and 0 otherwise. -/
def two_parses (x4 x5 : ℚ) : State :=
  SenseRank
    { tv := fun h =>
        if h = 4 then ⟨x4, 9 / 10⟩ else if h = 5 then ⟨x5, 9 / 10⟩
        else if h = 8 ∨ h = 9 then ⟨1 / 2, 1⟩ else if h = 10 then ⟨25 / 29, 1⟩
        else if h = 3 ∨ h = 7 then ⟨1, 1⟩ else ⟨1, 9 / 10⟩
      sense_edges := fun h =>
        if h = 1 then [(2, 3)] else if h = 2 then [(1, 3)] else if h = 4 then [(5, 7)]
        else if h = 5 then [(4, 8), (6, 9)] else if h = 6 then [(6, 10)] else []
      word_senses := fun h =>
        if h = 20 then [(11, 1), (12, 2)]
        else if h = 21 then [(14, 4), (15, 5), (16, 6)] else []
      word_instances := fun h =>
        if h = 30 then [20] else if h = 31 then [21] else if h = 33 then [20, 21] else []
      parses := fun h => if h = 40 then [30, 31] else []
      RAND_MAX := 2147483647
      rand_seq := fun n => if n % 105 = 3 then 1073741824 else 0
      rand_pos := 0
      damping_factor := 0
      convergence_damper := 0
      convergence_limit := 0
      converge := 1
      edge_sum := 0
      rank_sum := 0
      randy := 0
      next_sense := 0
      trace := [] }

/-- State `s` has the graph, parameters and random source of `two_parses` and
the truth values of `two_parses x4 x5`. -/
structure TwoParsesLike (s : State) (x4 x5 : ℚ) : Prop where
  tv : s.tv = (two_parses x4 x5).tv
  frame : Frame (two_parses 1 1) s

/-- The state `s` with the truth-value store replaced by `f`. -/
def set_tv (s : State) (f : Handle → TruthValue) : State :=
  { s with tv := f }

/-- Two runs that differ only in truth values of atoms in `Z`: `t` is `s` but
for the truth values, which agree outside `Z`; the graph of `s` is that of the
base state `s0`, and outside `X` the truth values of `s` are those of `s0`. -/
structure Agree (Z X : Handle → Prop) (s0 s t : State) : Prop where
  same : t = set_tv s t.tv
  off : ∀ x, ¬ Z x → t.tv x = s.tv x
  sense_edges : s.sense_edges = s0.sense_edges
  word_senses : s.word_senses = s0.word_senses
  word_instances : s.word_instances = s0.word_instances
  kept : ∀ x, ¬ X x → s.tv x = s0.tv x

/-- Sense `1` with two edges, to senses `2` and `3`, of weights 1 and 0 (edge
atoms `5`, `6`); `rand()` returns `n`. -/
def last_zero (n : Nat) : State :=
  SenseRank
    { tv := fun h => if h = 5 then ⟨1, 1⟩ else if h = 6 then ⟨0, 1⟩ else ⟨1, 9 / 10⟩
      sense_edges := fun h => if h = 1 then [(2, 5), (3, 6)] else []
      word_senses := fun _ => []
      word_instances := fun _ => []
      parses := fun _ => []
      RAND_MAX := 2147483647
      rand_seq := fun _ => n
      rand_pos := 0
      damping_factor := 0
      convergence_damper := 0
      convergence_limit := 0
      converge := 1
      edge_sum := 0
      rank_sum := 0
      randy := 0
      next_sense := 0
      trace := [] }

/-! ## Traversal lemmas -/

theorem foreach_visit_nil {α σ : Type} (cb : σ → α → σ × Bool) (s : σ) :
    foreach_visit cb [] s = (s, false) := rfl

theorem foreach_visit_cons_false {α σ : Type} (cb : σ → α → σ × Bool) (x : α)
    (xs : List α) (s : σ) (h : (cb s x).2 = false) :
    foreach_visit cb (x :: xs) s = foreach_visit cb xs (cb s x).1 := by
  simp [foreach_visit, h]

theorem foreach_visit_cons_true {α σ : Type} (cb : σ → α → σ × Bool) (x : α)
    (xs : List α) (s : σ) (h : (cb s x).2 = true) :
    foreach_visit cb (x :: xs) s = ((cb s x).1, true) := by
  simp [foreach_visit, h]

theorem foreach_inner_sum (l : List (Handle × Handle)) (s : State) :
    foreach_visit (fun st p => inner_sum st p.1 p.2) l s =
      ({ s with edge_sum := s.edge_sum + (l.map (fun p => s.weight p.2)).sum }, false) := by
  induction l generalizing s with
  | nil => simp [foreach_visit]
  | cons x xs ih =>
    rw [foreach_visit_cons_false _ _ _ _ rfl, ih]
    simp [inner_sum, State.weight, add_assoc]

theorem foreach_sense_edge_inner_sum (s : State) (h : Handle) :
    foreach_sense_edge s h inner_sum =
      ({ s with edge_sum := s.edge_sum + edge_weight_sum s h }, false) := by
  unfold foreach_sense_edge edge_weight_sum
  exact foreach_inner_sum _ s

theorem outer_sum_eq (s : State) (b hedge : Handle) :
    outer_sum s b hedge =
      ({ s with
          edge_sum := edge_weight_sum s b
          rank_sum := s.rank_sum + s.weight hedge / edge_weight_sum s b * (s.tv b).mean },
        false) := by
  unfold outer_sum
  simp [foreach_sense_edge_inner_sum, edge_weight_sum, State.weight]

theorem foreach_outer_sum (l : List (Handle × Handle)) (s : State) :
    ∃ e, foreach_visit (fun st p => outer_sum st p.1 p.2) l s =
      ({ s with
          edge_sum := e
          rank_sum := s.rank_sum +
            (l.map (fun p => s.weight p.2 / edge_weight_sum s p.1 * (s.tv p.1).mean)).sum },
        false) := by
  induction l generalizing s with
  | nil => exact ⟨s.edge_sum, by simp [foreach_visit]⟩
  | cons x xs ih =>
    rw [foreach_visit_cons_false _ _ _ _ (by simp [outer_sum_eq])]
    obtain ⟨e, he⟩ := ih (outer_sum s x.1 x.2).1
    refine ⟨e, ?_⟩
    rw [he]
    simp [outer_sum_eq, State.weight, edge_weight_sum, add_assoc]

theorem foreach_sense_edge_outer_sum (s : State) (a : Handle) :
    ∃ e, foreach_sense_edge s a outer_sum =
      ({ s with edge_sum := e, rank_sum := s.rank_sum + rank_sum_spec s a }, false) := by
  unfold foreach_sense_edge rank_sum_spec
  exact foreach_outer_sum _ s

/-- The state `rank_sense` returns, in closed form (up to the scratch value
left in `edge_sum`). -/
theorem rank_sense_eq (s : State) (a : Handle) :
    ∃ e, rank_sense s a =
      { s with
        edge_sum := e
        rank_sum := rank_sum_spec s a * s.damping_factor + (1 - s.damping_factor)
        converge := s.converge * (1 - s.convergence_damper) +
          s.convergence_damper *
            |rank_sum_spec s a * s.damping_factor + (1 - s.damping_factor) - (s.tv a).mean|
        tv := Function.update s.tv a
          ⟨rank_sum_spec s a * s.damping_factor + (1 - s.damping_factor), (s.tv a).confidence⟩
        trace := s.trace ++ [Call.rank_sense a] } := by
  obtain ⟨e, he⟩ := foreach_sense_edge_outer_sum { s with rank_sum := 0 } a
  refine ⟨e, ?_⟩
  unfold rank_sense
  simp only [he]
  simp [rank_sum_spec, edge_weight_sum, State.weight]

/-! ## The rank update -/

/-- C1: `rank_sense a` stores as the new mean of `a` the value
`damping_factor * S + (1 - damping_factor)`, where `S` is the sum over the
edges `(b, w)` of `a`, in iteration order, of `(w / edge_sum b) * mean b`, and
`edge_sum b` is the sum of the weights of the edges in the edge list of `b`,
all read from the state before the call. -/
theorem rank_sense_stores_damped_sum (s : State) (a : Handle) :
    ((rank_sense s a).tv a).mean =
      s.damping_factor *
          ((s.sense_edges a).map
            (fun p => s.weight p.2 / ((s.sense_edges p.1).map (fun q => s.weight q.2)).sum *
              (s.tv p.1).mean)).sum +
        (1 - s.damping_factor) := by
  obtain ⟨e, he⟩ := rank_sense_eq s a
  rw [he]
  simp [rank_sum_spec, edge_weight_sum, mul_comm]

/-- C2: one call of `rank_sense a` replaces the convergence accumulator `c` by
`c * (1 - convergence_damper) + convergence_damper * |new_rank - old_rank|`,
where `old_rank` is the mean of `a` before the call and `new_rank` the mean
stored by the call. -/
theorem rank_sense_converge_update (s : State) (a : Handle) :
    (rank_sense s a).converge =
      s.converge * (1 - s.convergence_damper) +
        s.convergence_damper * |((rank_sense s a).tv a).mean - (s.tv a).mean| := by
  obtain ⟨e, he⟩ := rank_sense_eq s a
  rw [he]
  simp

/-! ## Edge selection: frame -/

theorem random_sum_fst (s : State) (h hedge : Handle) :
    (random_sum s h hedge).1 =
      { s with next_sense := h, edge_sum := s.edge_sum + s.weight hedge } := by
  unfold random_sum
  by_cases hc : s.randy < s.edge_sum + (s.tv hedge).mean <;> simp [hc, State.weight]

theorem random_sum_snd (s : State) (h hedge : Handle) :
    (random_sum s h hedge).2 = decide (s.randy < s.edge_sum + s.weight hedge) := by
  unfold random_sum
  by_cases hc : s.randy < s.edge_sum + (s.tv hedge).mean <;> simp [hc, State.weight]

theorem foreach_random_sum_frame (l : List (Handle × Handle)) (s : State) :
    ∃ e ns b, foreach_visit (fun st p => random_sum st p.1 p.2) l s =
      ({ s with edge_sum := e, next_sense := ns }, b) := by
  induction l generalizing s with
  | nil => exact ⟨s.edge_sum, s.next_sense, false, rfl⟩
  | cons x xs ih =>
    cases hb : (random_sum s x.1 x.2).2 with
    | true =>
      rw [foreach_visit_cons_true _ _ _ _ hb, random_sum_fst]
      exact ⟨_, _, true, rfl⟩
    | false =>
      rw [foreach_visit_cons_false _ _ _ _ hb, random_sum_fst]
      obtain ⟨e, ns, b, he⟩ := ih { s with next_sense := x.1, edge_sum := s.edge_sum + s.weight x.2 }
      exact ⟨e, ns, b, by rw [he]⟩

/-- The state `pick_random_edge` returns, up to the scratch value left in
`edge_sum` and the handle chosen. -/
theorem pick_random_edge_frame (s : State) (h : Handle) :
    ∃ e ns, pick_random_edge s h =
      ({ s with
          randy := (s.rand_seq s.rand_pos : ℚ) / (s.RAND_MAX : ℚ) * edge_weight_sum s h
          rand_pos := s.rand_pos + 1
          trace := s.trace ++ [Call.pick_random_edge h]
          edge_sum := e
          next_sense := ns }, ns) := by
  unfold pick_random_edge
  simp only [foreach_sense_edge_inner_sum]
  unfold foreach_sense_edge
  obtain ⟨e, ns, b, he⟩ := foreach_random_sum_frame (s.sense_edges h)
    { s with
      randy := (s.rand_seq s.rand_pos : ℚ) / (s.RAND_MAX : ℚ) * (0 + edge_weight_sum s h)
      rand_pos := s.rand_pos + 1
      trace := s.trace ++ [Call.pick_random_edge h]
      edge_sum := 0 }
  refine ⟨e, ns, ?_⟩
  simp only [edge_weight_sum, State.weight] at he ⊢
  rw [he]
  simp

/-- One pass of the loop body: `rank_sense` then `pick_random_edge`. -/
theorem walk_body_frame (s : State) (h : Handle) :
    ∃ e rs ry ns tv, pick_random_edge (rank_sense s h) h =
      ({ s with
          tv := tv
          converge := (rank_sense s h).converge
          rank_sum := rs
          randy := ry
          rand_pos := s.rand_pos + 1
          trace := s.trace ++ [Call.rank_sense h, Call.pick_random_edge h]
          edge_sum := e
          next_sense := ns }, ns) ∧
      ∀ x, (tv x).confidence = (s.tv x).confidence := by
  obtain ⟨e, ns, hp⟩ := pick_random_edge_frame (rank_sense s h) h
  obtain ⟨e1, hr⟩ := rank_sense_eq s h
  refine ⟨e, (rank_sense s h).rank_sum,
    ((rank_sense s h).rand_seq (rank_sense s h).rand_pos : ℚ) / ((rank_sense s h).RAND_MAX : ℚ) *
      edge_weight_sum (rank_sense s h) h, ns, (rank_sense s h).tv, ?_, ?_⟩
  · rw [hp]
    rw [hr]
    simp
  · intro x
    rw [hr]
    by_cases hx : x = h
    · subst hx
      simp
    · simp [Function.update_noteq hx]

/-! ## The walk -/

theorem Frame.refl (s : State) : Frame s s :=
  ⟨rfl, rfl, rfl, rfl, rfl, rfl, rfl, rfl, rfl, fun _ => rfl⟩

theorem Frame.trans {s t u : State} (h1 : Frame s t) (h2 : Frame t u) : Frame s u :=
  ⟨h2.sense_edges.trans h1.sense_edges, h2.word_senses.trans h1.word_senses,
    h2.word_instances.trans h1.word_instances, h2.parses.trans h1.parses,
    h2.RAND_MAX.trans h1.RAND_MAX, h2.rand_seq.trans h1.rand_seq,
    h2.damping_factor.trans h1.damping_factor,
    h2.convergence_damper.trans h1.convergence_damper,
    h2.convergence_limit.trans h1.convergence_limit,
    fun x => (h2.confidence x).trans (h1.confidence x)⟩

theorem rank_calls_append (t u : List Call) :
    rank_calls (t ++ u) = rank_calls t ++ rank_calls u := by
  simp [rank_calls, List.filterMap_append]

theorem start_calls_append (t u : List Call) :
    start_calls (t ++ u) = start_calls t ++ start_calls u := by
  simp [start_calls, List.filterMap_append]

theorem pick_calls_append (t u : List Call) :
    pick_calls (t ++ u) = pick_calls t ++ pick_calls u := by
  simp [pick_calls, List.filterMap_append]

/-- What one pass of the loop body does to the observable parts of the state. -/
theorem walk_body_props (s : State) (h : Handle) :
    Frame s (pick_random_edge (rank_sense s h) h).1 ∧
      (pick_random_edge (rank_sense s h) h).1.trace =
        s.trace ++ [Call.rank_sense h, Call.pick_random_edge h] ∧
      (pick_random_edge (rank_sense s h) h).1.rand_pos = s.rand_pos + 1 ∧
      (pick_random_edge (rank_sense s h) h).1.converge = (rank_sense s h).converge := by
  obtain ⟨e, rs, ry, ns, tv, hb, hc⟩ := walk_body_frame s h
  rw [hb]
  exact ⟨⟨rfl, rfl, rfl, rfl, rfl, rfl, rfl, rfl, rfl, hc⟩, rfl, rfl, rfl⟩

theorem walk_loop_succ (n : Nat) (s : State) (h : Handle) :
    walk_loop (n + 1) s h =
      if (pick_random_edge (rank_sense s h) h).1.convergence_limit <
          (pick_random_edge (rank_sense s h) h).1.converge then
        walk_loop n (pick_random_edge (rank_sense s h) h).1 (pick_random_edge (rank_sense s h) h).2
      else some (pick_random_edge (rank_sense s h) h).1 := rfl

/-- A walk that returns has kept the frame, has started no other walk, and has
called `rank_sense` first on its start sense. -/
theorem walk_loop_props (n : Nat) :
    ∀ (s : State) (h : Handle) (s' : State), walk_loop n s h = some s' →
      Frame s s' ∧ start_calls s'.trace = start_calls s.trace ∧
        ∃ l, rank_calls s'.trace = rank_calls s.trace ++ h :: l := by
  induction n with
  | zero => intro s h s' hw; simp [walk_loop] at hw
  | succ n ih =>
    intro s h s' hw
    rw [walk_loop_succ] at hw
    obtain ⟨hf, ht, -, -⟩ := walk_body_props s h
    split at hw
    · obtain ⟨hf2, hs2, l, hl⟩ := ih _ _ _ hw
      refine ⟨hf.trans hf2, ?_, (pick_random_edge (rank_sense s h) h).2 :: l, ?_⟩
      · rw [hs2, ht]
        simp [start_calls]
      · rw [hl, ht]
        simp [rank_calls]
    · cases hw
      refine ⟨hf, ?_, [], ?_⟩
      · rw [ht]
        simp [start_calls]
      · rw [ht]
        simp [rank_calls]

/-- The accumulator after one pass of the loop body, in closed form. -/
theorem walk_body_converge (s : State) (h : Handle) :
    (pick_random_edge (rank_sense s h) h).1.converge =
      s.converge * (1 - s.convergence_damper) +
        s.convergence_damper *
          |rank_sum_spec s h * s.damping_factor + (1 - s.damping_factor) - (s.tv h).mean| := by
  obtain ⟨-, -, -, hc⟩ := walk_body_props s h
  obtain ⟨e, he⟩ := rank_sense_eq s h
  rw [hc, he]

theorem two_node_rank_sum_spec (c : ℚ) (a : Handle) (ha : a = 1 ∨ a = 2) :
    rank_sum_spec (two_node c) a = 1 := by
  rcases ha with rfl | rfl <;>
    norm_num [rank_sum_spec, edge_weight_sum, State.weight, two_node, SenseRank]

theorem two_node_body_converge (c : ℚ) (a : Handle) (ha : a = 1 ∨ a = 2) :
    (pick_random_edge (rank_sense (two_node c) a) a).1.converge = c * (29 / 30) := by
  rw [walk_body_converge, two_node_rank_sum_spec c a ha]
  rcases ha with rfl | rfl <;> norm_num [two_node, SenseRank]

theorem two_node_body_limit (c : ℚ) (a : Handle) :
    (pick_random_edge (rank_sense (two_node c) a) a).1.convergence_limit = 3 / 100 := by
  rw [(walk_body_props (two_node c) a).1.convergence_limit]
  rfl

/-- C3 (as stated, refuted): on the two-sense graph with accumulator `9/290`
the first update leaves `converge = 3/100 = convergence_limit`, so
`converge < convergence_limit` does not hold, and yet the walk stops there:
it returns after exactly one rank update. -/
theorem walk_stops_at_limit :
    ∃ s', walk_loop 5 (two_node (9 / 290)) 1 = some s' ∧
      s'.converge = s'.convergence_limit ∧ ¬ s'.converge < s'.convergence_limit ∧
      rank_calls s'.trace = [1] := by
  have hc := two_node_body_converge (9 / 290) 1 (Or.inl rfl)
  have hl := two_node_body_limit (9 / 290) 1
  have heq : (pick_random_edge (rank_sense (two_node (9 / 290)) 1) 1).1.converge =
      (pick_random_edge (rank_sense (two_node (9 / 290)) 1) 1).1.convergence_limit := by
    rw [hc, hl]; norm_num
  refine ⟨(pick_random_edge (rank_sense (two_node (9 / 290)) 1) 1).1, ?_, heq, ?_, ?_⟩
  · rw [walk_loop_succ, if_neg (by rw [heq]; exact lt_irrefl _)]
  · rw [heq]; exact lt_irrefl _
  · rw [(walk_body_props (two_node (9 / 290)) 1).2.1]
    simp [rank_calls, two_node, SenseRank]

/-- C3 (amended): after each pass of the loop body (one `rank_sense` and one
`pick_random_edge`), the walk stops exactly when
`converge ≤ convergence_limit`; when `convergence_limit < converge` it goes on
with another pass from the handle just picked, so a walk that returns has then
made at least two rank updates. -/
theorem walk_loop_exit_condition (n : Nat) (s : State) (h : Handle) :
    ((pick_random_edge (rank_sense s h) h).1.converge ≤
        (pick_random_edge (rank_sense s h) h).1.convergence_limit →
      walk_loop (n + 1) s h = some (pick_random_edge (rank_sense s h) h).1 ∧
        rank_calls (pick_random_edge (rank_sense s h) h).1.trace = rank_calls s.trace ++ [h]) ∧
    ((pick_random_edge (rank_sense s h) h).1.convergence_limit <
        (pick_random_edge (rank_sense s h) h).1.converge →
      walk_loop (n + 1) s h =
          walk_loop n (pick_random_edge (rank_sense s h) h).1
            (pick_random_edge (rank_sense s h) h).2 ∧
        ∀ s', walk_loop (n + 1) s h = some s' →
          ∃ l, rank_calls s'.trace =
            rank_calls s.trace ++ h :: (pick_random_edge (rank_sense s h) h).2 :: l) := by
  obtain ⟨-, ht, -, -⟩ := walk_body_props s h
  constructor
  · intro hle
    refine ⟨?_, ?_⟩
    · rw [walk_loop_succ, if_neg (not_lt.mpr hle)]
    · rw [ht]
      simp [rank_calls]
  · intro hlt
    have hstep : walk_loop (n + 1) s h =
        walk_loop n (pick_random_edge (rank_sense s h) h).1
          (pick_random_edge (rank_sense s h) h).2 := by
      rw [walk_loop_succ, if_pos hlt]
    refine ⟨hstep, ?_⟩
    intro s' hs'
    rw [hstep] at hs'
    obtain ⟨-, -, l, hl⟩ := walk_loop_props n _ _ _ hs'
    refine ⟨l, ?_⟩
    rw [hl, ht]
    simp [rank_calls]

/-! ## The disconnected-sense guard -/

/-- The guard of `start_sense` in closed form: the visitor first sums the
edge weights of the start sense. -/
theorem start_sense_eq (fuel : Nat) (s : State) (ws h : Handle) :
    start_sense fuel s ws h =
      if edge_weight_sum s h < 1 / 10 ^ 10 then
        some ({ s with
          trace := s.trace ++ [Call.start_sense h]
          edge_sum := edge_weight_sum s h }, false)
      else
        match walk_loop fuel { s with
            trace := s.trace ++ [Call.start_sense h]
            edge_sum := edge_weight_sum s h } h with
        | none => none
        | some s3 => some (s3, false) := by
  unfold start_sense
  simp only [foreach_sense_edge_inner_sum]
  simp [edge_weight_sum, State.weight]

/-- C4: when the edge-weight sum of `h` is below `1e-10` (in particular when
the edge list of `h` is empty), `start_sense` on `h` returns, whatever the
fuel, without any rank update: the truth value (mean and confidence) of every
atom and the convergence accumulator are the same after the call as before,
no random draw is consumed, and neither `rank_sense` nor `pick_random_edge`
has been called. -/
theorem start_sense_skips_disconnected (fuel : Nat) (s : State) (ws h : Handle)
    (hd : edge_weight_sum s h < 1 / 10 ^ 10 ∨ s.sense_edges h = []) :
    ∃ s', start_sense fuel s ws h = some (s', false) ∧
      s'.tv = s.tv ∧ s'.converge = s.converge ∧ s'.rand_pos = s.rand_pos ∧
      rank_calls s'.trace = rank_calls s.trace ∧
      pick_calls s'.trace = pick_calls s.trace := by
  have hlt : edge_weight_sum s h < 1 / 10 ^ 10 := by
    rcases hd with hd | hd
    · exact hd
    · simp [edge_weight_sum, hd]
  refine ⟨{ s with
      trace := s.trace ++ [Call.start_sense h]
      edge_sum := edge_weight_sum s h }, ?_, rfl, rfl, rfl, ?_, ?_⟩
  · rw [start_sense_eq, if_pos hlt]
  · simp [rank_calls]
  · simp [pick_calls]

/-- Witness for C4: sense `5` of the two-sense graph has no edges. -/
theorem start_sense_skips_disconnected_witness :
    (two_node 1).sense_edges 5 = [] ∧
    ∃ s', start_sense 0 (two_node 1) 15 5 = some (s', false) ∧
      s'.tv = (two_node 1).tv ∧ s'.converge = (two_node 1).converge ∧
      s'.rand_pos = (two_node 1).rand_pos ∧
      rank_calls s'.trace = rank_calls (two_node 1).trace ∧
      pick_calls s'.trace = pick_calls (two_node 1).trace :=
  ⟨rfl, start_sense_skips_disconnected 0 (two_node 1) 15 5 (Or.inr rfl)⟩

/-! ## Edge selection: which edge is chosen -/

theorem cum_list_cons_succ (s : State) (x : Handle × Handle) (xs : List (Handle × Handle))
    (k : Nat) : cum_list s (x :: xs) (k + 1) = s.weight x.2 + cum_list s xs k := by
  simp [cum_list]

theorem cum_list_zero (s : State) (l : List (Handle × Handle)) : cum_list s l 0 = 0 := by
  simp [cum_list]

/-- The `random_sum` traversal stops at the first edge at which the running
sum exceeds `randy`, and leaves that edge's target in `next_sense`. -/
theorem foreach_random_sum_first_cross (l : List (Handle × Handle)) :
    ∀ (s : State) (k : Nat) (t : Handle), (l.map Prod.fst)[k]? = some t →
      (∀ j, j < k → s.edge_sum + cum_list s l (j + 1) ≤ s.randy) →
      s.randy < s.edge_sum + cum_list s l (k + 1) →
      foreach_visit (fun st p => random_sum st p.1 p.2) l s =
        ({ s with edge_sum := s.edge_sum + cum_list s l (k + 1), next_sense := t }, true) := by
  induction l with
  | nil => intro s k t ht; simp at ht
  | cons x xs ih =>
    intro s k t ht hbelow habove
    cases k with
    | zero =>
      have hx : x.1 = t := by simpa using ht
      have hstop : (random_sum s x.1 x.2).2 = true := by
        rw [random_sum_snd]
        simpa [cum_list] using habove
      rw [foreach_visit_cons_true _ _ _ _ hstop, random_sum_fst, hx]
      simp [cum_list]
    | succ k =>
      have hgo : (random_sum s x.1 x.2).2 = false := by
        rw [random_sum_snd]
        have h0 := hbelow 0 (Nat.succ_pos k)
        simpa [cum_list] using h0
      rw [foreach_visit_cons_false _ _ _ _ hgo, random_sum_fst]
      have ht2 : (xs.map Prod.fst)[k]? = some t := by simpa using ht
      rw [ih { s with next_sense := x.1, edge_sum := s.edge_sum + s.weight x.2 } k t ht2]
      · simp only [cum_list_cons_succ]
        simp [cum_list, State.weight, add_assoc]
      · intro j hj
        have := hbelow (j + 1) (Nat.succ_lt_succ hj)
        rw [cum_list_cons_succ] at this
        simpa [cum_list, State.weight, add_assoc] using this
      · rw [cum_list_cons_succ] at habove
        simpa [cum_list, State.weight, add_assoc] using habove

/-- The traversal asks to stop exactly when some running sum exceeds `randy`. -/
theorem foreach_random_sum_stop_iff (l : List (Handle × Handle)) :
    ∀ (s : State), (foreach_visit (fun st p => random_sum st p.1 p.2) l s).2 = true ↔
      ∃ j, j < l.length ∧ s.randy < s.edge_sum + cum_list s l (j + 1) := by
  induction l with
  | nil => intro s; simp [foreach_visit]
  | cons x xs ih =>
    intro s
    cases hb : (random_sum s x.1 x.2).2 with
    | true =>
      rw [foreach_visit_cons_true _ _ _ _ hb]
      rw [random_sum_snd] at hb
      simp only [true_iff]
      refine ⟨0, by simp, ?_⟩
      simpa [cum_list] using hb
    | false =>
      rw [foreach_visit_cons_false _ _ _ _ hb, random_sum_fst, ih]
      rw [random_sum_snd] at hb
      have hb' : s.edge_sum + s.weight x.2 ≤ s.randy := by simpa using hb
      constructor
      · rintro ⟨j, hj, hlt⟩
        refine ⟨j + 1, by simpa using hj, ?_⟩
        rw [cum_list_cons_succ]
        simpa [cum_list, State.weight, add_assoc] using hlt
      · rintro ⟨j, hj, hlt⟩
        cases j with
        | zero =>
          exfalso
          have : s.randy < s.edge_sum + s.weight x.2 := by simpa [cum_list] using hlt
          exact absurd this (not_lt.mpr hb')
        | succ j =>
          refine ⟨j, by simpa using hj, ?_⟩
          rw [cum_list_cons_succ] at hlt
          simpa [cum_list, State.weight, add_assoc] using hlt

theorem cum_list_nonneg (s : State) (l : List (Handle × Handle))
    (hw : ∀ p ∈ l, 0 ≤ s.weight p.2) (k : Nat) : 0 ≤ cum_list s l k := by
  unfold cum_list
  apply List.sum_nonneg
  intro x hx
  obtain ⟨p, hp, rfl⟩ := List.mem_map.mp hx
  exact hw p (List.mem_of_mem_take hp)

theorem cum_list_mono (l : List (Handle × Handle)) :
    ∀ (s : State), (∀ p ∈ l, 0 ≤ s.weight p.2) → ∀ i j, i ≤ j →
      cum_list s l i ≤ cum_list s l j := by
  induction l with
  | nil => intro s _ i j _; simp [cum_list]
  | cons x xs ih =>
    intro s hw i j hij
    cases i with
    | zero =>
      rw [cum_list_zero]
      exact cum_list_nonneg s _ hw j
    | succ i =>
      cases j with
      | zero => omega
      | succ j =>
        rw [cum_list_cons_succ, cum_list_cons_succ]
        have := ih s (fun p hp => hw p (List.mem_cons_of_mem _ hp)) i j (by omega)
        linarith

theorem cum_list_length (s : State) (l : List (Handle × Handle)) :
    cum_list s l l.length = (l.map (fun p => s.weight p.2)).sum := by
  simp [cum_list]

theorem cum_list_take (s : State) (l : List (Handle × Handle)) (k j : Nat) (hj : j ≤ k) :
    cum_list s (l.take k) j = cum_list s l j := by
  simp [cum_list, List.take_take, Nat.min_eq_left hj]

theorem cum_list_selection_state (s : State) (h : Handle) (l : List (Handle × Handle))
    (k : Nat) : cum_list (selection_state s h) l k = cum_list s l k := rfl

theorem pick_random_edge_eq (s : State) (h : Handle) :
    pick_random_edge s h =
      ((foreach_visit (fun st p => random_sum st p.1 p.2) (s.sense_edges h)
          (selection_state s h)).1,
        (foreach_visit (fun st p => random_sum st p.1 p.2) (s.sense_edges h)
          (selection_state s h)).1.next_sense) := by
  unfold pick_random_edge
  simp only [foreach_sense_edge_inner_sum]
  simp [foreach_sense_edge, selection_state, random_draw, edge_weight_sum, State.weight]

/-- Selecting position `k` means: `k` is the first position at which the
running sum exceeds the draw. -/
theorem selects_iff_first_cross (s : State) (h : Handle) (k : Nat)
    (hk : k < (s.sense_edges h).length) :
    selects s h k ↔
      (∀ j, j < k → cum_weight s h (j + 1) ≤ random_draw s h) ∧
        random_draw s h < cum_weight s h (k + 1) := by
  unfold selects
  rw [Bool.eq_false_iff, Ne, foreach_random_sum_stop_iff, foreach_random_sum_stop_iff]
  have hlen1 : ((s.sense_edges h).take k).length = k := by
    rw [List.length_take]; omega
  have hlen2 : ((s.sense_edges h).take (k + 1)).length = k + 1 := by
    rw [List.length_take]; omega
  have hss : (selection_state s h).randy = random_draw s h := rfl
  have hse : (selection_state s h).edge_sum = 0 := rfl
  simp only [hlen1, hlen2, hss, hse, zero_add, cum_list_selection_state]
  constructor
  · rintro ⟨hno, j, hj, hlt⟩
    have hall : ∀ i, i < k → cum_weight s h (i + 1) ≤ random_draw s h := by
      intro i hi
      by_contra hc
      apply hno
      refine ⟨i, hi, ?_⟩
      rw [cum_list_take _ _ _ _ (by omega)]
      exact not_le.mp hc
    refine ⟨hall, ?_⟩
    rw [cum_list_take _ _ _ _ (by omega)] at hlt
    by_cases hjk : j < k
    · exact absurd hlt (not_lt.mpr (hall j hjk))
    · have : j = k := by omega
      subst this
      exact hlt
  · rintro ⟨hall, hlt⟩
    refine ⟨?_, k, by omega, ?_⟩
    · rintro ⟨j, hj, hjlt⟩
      rw [cum_list_take _ _ _ _ (by omega)] at hjlt
      exact absurd hjlt (not_lt.mpr (hall j hj))
    · rw [cum_list_take _ _ _ _ (le_refl _)]
      exact hlt

/-- When position `k` is the first at which the running sum exceeds the draw,
`pick_random_edge` returns the target of the edge at position `k`. -/
theorem pick_random_edge_of_first_cross (s : State) (h : Handle) (k : Nat)
    (hk : k < (s.sense_edges h).length)
    (hall : ∀ j, j < k → cum_weight s h (j + 1) ≤ random_draw s h)
    (hlt : random_draw s h < cum_weight s h (k + 1)) :
    ((s.sense_edges h).map Prod.fst)[k]? = some (pick_random_edge s h).2 := by
  have hlen : k < ((s.sense_edges h).map Prod.fst).length := by simpa using hk
  have ht : ((s.sense_edges h).map Prod.fst)[k]? =
      some (((s.sense_edges h).map Prod.fst)[k]) := List.getElem?_eq_getElem hlen
  rw [pick_random_edge_eq]
  rw [foreach_random_sum_first_cross (s.sense_edges h) (selection_state s h) k _ ht]
  · exact ht
  · intro j hj
    have := hall j hj
    simpa [selection_state, cum_list_selection_state, cum_weight] using this
  · simpa [selection_state, cum_list_selection_state, cum_weight] using hlt

/-- Some position is the first at which the running sum exceeds a draw below
the total weight. -/
theorem exists_first_cross (s : State) (h : Handle)
    (hr0 : 0 ≤ random_draw s h) (hrT : random_draw s h < edge_weight_sum s h) :
    ∃ k, k < (s.sense_edges h).length ∧
      (∀ j, j < k → cum_weight s h (j + 1) ≤ random_draw s h) ∧
      random_draw s h < cum_weight s h (k + 1) := by
  have hpos : 0 < (s.sense_edges h).length := by
    rcases Nat.eq_zero_or_pos (s.sense_edges h).length with h0 | h0
    · have hnil : s.sense_edges h = [] := List.length_eq_zero.mp h0
      rw [edge_weight_sum, hnil] at hrT
      simp at hrT
      exact absurd hrT (not_lt.mpr hr0)
    · exact h0
  have hex : ∃ k, k < (s.sense_edges h).length ∧ random_draw s h < cum_weight s h (k + 1) := by
    refine ⟨(s.sense_edges h).length - 1, by omega, ?_⟩
    have : (s.sense_edges h).length - 1 + 1 = (s.sense_edges h).length := by omega
    rw [this, cum_weight, cum_list_length]
    exact hrT
  refine ⟨Nat.find hex, (Nat.find_spec hex).1, ?_, (Nat.find_spec hex).2⟩
  intro j hj
  have hmin := Nat.find_min hex hj
  have hjlen : j < (s.sense_edges h).length := lt_trans hj (Nat.find_spec hex).1
  by_contra hc
  exact hmin ⟨hjlen, not_le.mp hc⟩

theorem three_edges_edges (n : Nat) :
    (three_edges n).sense_edges 1 = [(2, 5), (3, 6), (4, 7)] := rfl

theorem three_edges_weights (n : Nat) :
    ((three_edges n).sense_edges 1).map (fun p => (three_edges n).weight p.2) = [1, 2, 3] := by
  simp [three_edges, SenseRank, State.weight]

theorem three_edges_nonneg (n : Nat) :
    ∀ p ∈ (three_edges n).sense_edges 1, 0 ≤ (three_edges n).weight p.2 := by
  intro p hp
  have h1 : (three_edges n).weight p.2 ∈
      ((three_edges n).sense_edges 1).map (fun p => (three_edges n).weight p.2) :=
    List.mem_map_of_mem _ hp
  rw [three_edges_weights] at h1
  simp at h1
  rcases h1 with h1 | h1 | h1 <;> rw [h1] <;> norm_num

theorem three_edges_total (n : Nat) : edge_weight_sum (three_edges n) 1 = 6 := by
  rw [edge_weight_sum, three_edges_weights]
  norm_num

theorem three_edges_draw (n : Nat) :
    random_draw (three_edges n) 1 = (n : ℚ) / 2147483647 * 6 := by
  rw [random_draw, three_edges_total]
  simp [three_edges, SenseRank]

/-- C5: for a sense with a non-empty edge list of non-negative weights with
total `T > 0` and a draw `r` with `0 ≤ r < T`, `pick_random_edge` returns the
target of the edge at the smallest position `k` whose running sum
`w_1 + ... + w_k` exceeds `r` (positions counted from 0 here, so the running
sum up to and including position `k` is `cum_weight s h (k + 1)`). -/
theorem pick_random_edge_first_exceeding (s : State) (h : Handle)
    (_hne : s.sense_edges h ≠ [])
    (_hw : ∀ p ∈ s.sense_edges h, 0 ≤ s.weight p.2)
    (_hT : 0 < edge_weight_sum s h)
    (hr0 : 0 ≤ random_draw s h) (hrT : random_draw s h < edge_weight_sum s h) :
    ∃ k, k < (s.sense_edges h).length ∧
      ((s.sense_edges h).map Prod.fst)[k]? = some (pick_random_edge s h).2 ∧
      random_draw s h < cum_weight s h (k + 1) ∧
      ∀ j, j < k → cum_weight s h (j + 1) ≤ random_draw s h := by
  obtain ⟨k, hk, hall, hlt⟩ := exists_first_cross s h hr0 hrT
  exact ⟨k, hk, pick_random_edge_of_first_cross s h k hk hall hlt, hlt, hall⟩

/-- Witness for C5: weights 1, 2, 3 and `rand() = 1073741823`, a draw just
below 3. -/
theorem pick_random_edge_first_exceeding_witness :
    ∃ k, k < ((three_edges 1073741823).sense_edges 1).length ∧
      (((three_edges 1073741823).sense_edges 1).map Prod.fst)[k]? =
        some (pick_random_edge (three_edges 1073741823) 1).2 ∧
      random_draw (three_edges 1073741823) 1 < cum_weight (three_edges 1073741823) 1 (k + 1) ∧
      ∀ j, j < k → cum_weight (three_edges 1073741823) 1 (j + 1) ≤
        random_draw (three_edges 1073741823) 1 :=
  pick_random_edge_first_exceeding (three_edges 1073741823) 1
    (by rw [three_edges_edges]; simp)
    (three_edges_nonneg _)
    (by rw [three_edges_total]; norm_num)
    (by rw [three_edges_draw]; norm_num)
    (by rw [three_edges_draw, three_edges_total]; norm_num)

theorem cum_weight_eq_take (s : State) (h : Handle) (k : Nat) :
    cum_weight s h k = (((s.sense_edges h).map (fun p => s.weight p.2)).take k).sum := by
  simp [cum_weight, cum_list, List.map_take]

theorem cum_weight_succ (s : State) (h : Handle) (k : Nat)
    (hk : k < (s.sense_edges h).length) :
    ((s.sense_edges h).map (fun p => s.weight p.2))[k]? =
      some (cum_weight s h (k + 1) - cum_weight s h k) := by
  have hlen : k < ((s.sense_edges h).map (fun p => s.weight p.2)).length := by simpa using hk
  rw [cum_weight_eq_take, cum_weight_eq_take, List.sum_take_succ _ _ hlen,
    List.getElem?_eq_getElem hlen]
  simp

/-- With non-negative weights, position `k` is selected exactly for the draws
in `[w_1 + ... + w_k, w_1 + ... + w_(k+1))` (positions from 0). -/
theorem selects_iff_interval (s : State) (h : Handle)
    (hw : ∀ p ∈ s.sense_edges h, 0 ≤ s.weight p.2)
    (hr0 : 0 ≤ random_draw s h) (k : Nat) (hk : k < (s.sense_edges h).length) :
    selects s h k ↔
      cum_weight s h k ≤ random_draw s h ∧ random_draw s h < cum_weight s h (k + 1) := by
  rw [selects_iff_first_cross s h k hk]
  constructor
  · rintro ⟨hall, hlt⟩
    refine ⟨?_, hlt⟩
    cases k with
    | zero => simpa [cum_weight, cum_list] using hr0
    | succ k => exact hall k (Nat.lt_succ_self k)
  · rintro ⟨hle, hlt⟩
    refine ⟨?_, hlt⟩
    intro j hj
    exact le_trans (cum_list_mono _ s hw (j + 1) k hj) hle

/-- C6: the next sense is chosen with probability proportional to edge weight.
For an edge list with non-negative weights and total `T > 0` and a draw `r`
in `[0, T)`, the edge at position `k` (from 0) is selected exactly when
`w_1 + ... + w_k ≤ r < w_1 + ... + w_(k+1)`; `pick_random_edge` then returns
that edge's target; the length of this interval is the weight of the edge, and
an edge of weight zero is selected for no such draw.  For weights 1, 2, 3 the
three edges are selected for `r` in `[0,1)`, `[1,3)`, `[3,6)` out of a draw
range of length 6. -/
theorem pick_random_edge_proportional (s : State) (h : Handle)
    (hw : ∀ p ∈ s.sense_edges h, 0 ≤ s.weight p.2)
    (_hT : 0 < edge_weight_sum s h)
    (hr0 : 0 ≤ random_draw s h) (_hrT : random_draw s h < edge_weight_sum s h) :
    (∀ k, k < (s.sense_edges h).length →
      (selects s h k ↔
        cum_weight s h k ≤ random_draw s h ∧ random_draw s h < cum_weight s h (k + 1)) ∧
      (selects s h k →
        ((s.sense_edges h).map Prod.fst)[k]? = some (pick_random_edge s h).2) ∧
      ((s.sense_edges h).map (fun p => s.weight p.2))[k]? =
        some (cum_weight s h (k + 1) - cum_weight s h k) ∧
      (cum_weight s h (k + 1) - cum_weight s h k = 0 → ¬ selects s h k)) ∧
    ((s.sense_edges h).map (fun p => s.weight p.2) = [1, 2, 3] →
      edge_weight_sum s h = 6 ∧
      (selects s h 0 ↔ 0 ≤ random_draw s h ∧ random_draw s h < 1) ∧
      (selects s h 1 ↔ 1 ≤ random_draw s h ∧ random_draw s h < 3) ∧
      (selects s h 2 ↔ 3 ≤ random_draw s h ∧ random_draw s h < 6)) := by
  constructor
  · intro k hk
    have hiff := selects_iff_interval s h hw hr0 k hk
    refine ⟨hiff, ?_, cum_weight_succ s h k hk, ?_⟩
    · intro hsel
      obtain ⟨hall, hlt⟩ := (selects_iff_first_cross s h k hk).mp hsel
      exact pick_random_edge_of_first_cross s h k hk hall hlt
    · intro hz hsel
      obtain ⟨hle, hlt⟩ := hiff.mp hsel
      linarith
  · intro h123
    have hlen : (s.sense_edges h).length = 3 := by
      have := congrArg List.length h123
      simpa using this
    have c0 : cum_weight s h 0 = 0 := by rw [cum_weight_eq_take, h123]; simp
    have c1 : cum_weight s h 1 = 1 := by rw [cum_weight_eq_take, h123]; simp
    have c2 : cum_weight s h 2 = 3 := by rw [cum_weight_eq_take, h123]; norm_num
    have c3 : cum_weight s h 3 = 6 := by rw [cum_weight_eq_take, h123]; norm_num
    refine ⟨?_, ?_, ?_, ?_⟩
    · rw [edge_weight_sum, h123]; norm_num
    · rw [selects_iff_interval s h hw hr0 0 (by omega), c0, c1]
    · rw [selects_iff_interval s h hw hr0 1 (by omega), c1, c2]
    · rw [selects_iff_interval s h hw hr0 2 (by omega), c2, c3]

/-- Witness for C6: weights 1, 2, 3 and `rand() = 1073741823`; the draw lies
in `[1, 3)` and the middle edge is selected. -/
theorem pick_random_edge_proportional_witness :
    selects (three_edges 1073741823) 1 1 ∧
      (((three_edges 1073741823).sense_edges 1).map Prod.fst)[1]? =
        some (pick_random_edge (three_edges 1073741823) 1).2 ∧
      edge_weight_sum (three_edges 1073741823) 1 = 6 :=
  have key := pick_random_edge_proportional (three_edges 1073741823) 1
    (three_edges_nonneg _)
    (by rw [three_edges_total]; norm_num)
    (by rw [three_edges_draw]; norm_num)
    (by rw [three_edges_draw, three_edges_total]; norm_num)
  have h123 := key.2 (three_edges_weights _)
  have hsel : selects (three_edges 1073741823) 1 1 :=
    h123.2.2.1.mpr (by rw [three_edges_draw]; norm_num)
  ⟨hsel, (key.1 1 (by rw [three_edges_edges]; simp)).2.1 hsel, h123.1⟩

/-! ## Starting the walks -/

/-- A call of `start_sense` that returns asks to go on, keeps the frame, and
adds exactly one entry, its own sense, to the started walks. -/
theorem start_sense_props (fuel : Nat) (s : State) (ws h : Handle) (r : State × Bool)
    (hr : start_sense fuel s ws h = some r) :
    r.2 = false ∧ Frame s r.1 ∧ start_calls r.1.trace = start_calls s.trace ++ [h] := by
  rw [start_sense_eq] at hr
  split at hr
  · cases hr
    refine ⟨rfl, ⟨rfl, rfl, rfl, rfl, rfl, rfl, rfl, rfl, rfl, fun _ => rfl⟩, ?_⟩
    simp [start_calls]
  · split at hr
    · cases hr
    · rename_i s3 hw
      cases hr
      obtain ⟨hf, hs, -⟩ := walk_loop_props fuel _ _ _ hw
      refine ⟨rfl, ?_, ?_⟩
      · exact ⟨hf.sense_edges, hf.word_senses, hf.word_instances, hf.parses, hf.RAND_MAX,
          hf.rand_seq, hf.damping_factor, hf.convergence_damper, hf.convergence_limit,
          hf.confidence⟩
      · rw [hs]
        simp [start_calls]

theorem foreach_start_sense_props (fuel : Nat) (l : List (Handle × Handle)) :
    ∀ (s : State) (r : State × Bool),
      foreach_visit_fuel (fun st p => start_sense fuel st p.1 p.2) l s = some r →
      r.2 = false ∧ Frame s r.1 ∧
        start_calls r.1.trace = start_calls s.trace ++ l.map Prod.snd := by
  induction l with
  | nil =>
    intro s r hr
    simp only [foreach_visit_fuel] at hr
    cases hr
    exact ⟨rfl, Frame.refl s, by simp⟩
  | cons x xs ih =>
    intro s r hr
    simp only [foreach_visit_fuel] at hr
    split at hr
    · cases hr
    · rename_i r1 h1
      obtain ⟨hb, hf, hs⟩ := start_sense_props fuel s x.1 x.2 r1 h1
      rw [hb] at hr
      simp only [Bool.false_eq_true, if_false] at hr
      obtain ⟨hb2, hf2, hs2⟩ := ih r1.1 r hr
      refine ⟨hb2, hf.trans hf2, ?_⟩
      rw [hs2, hs]
      simp

theorem start_word_props (fuel : Nat) (s : State) (w : Handle) (r : State × Bool)
    (hr : start_word fuel s w = some r) :
    r.2 = false ∧ Frame s r.1 ∧
      start_calls r.1.trace = start_calls s.trace ++ (s.word_senses w).map Prod.snd := by
  unfold start_word at hr
  split at hr
  · cases hr
  · rename_i r1 h1
    cases hr
    obtain ⟨-, hf, hs⟩ := foreach_start_sense_props fuel _ s r1 h1
    exact ⟨rfl, hf, hs⟩

theorem foreach_start_word_props (fuel : Nat) (l : List Handle) :
    ∀ (s : State) (r : State × Bool),
      foreach_visit_fuel (start_word fuel) l s = some r →
      Frame s r.1 ∧
        start_calls r.1.trace =
          start_calls s.trace ++ l.flatMap (fun w => (s.word_senses w).map Prod.snd) := by
  induction l with
  | nil =>
    intro s r hr
    simp only [foreach_visit_fuel] at hr
    cases hr
    exact ⟨Frame.refl s, by simp⟩
  | cons x xs ih =>
    intro s r hr
    simp only [foreach_visit_fuel] at hr
    split at hr
    · cases hr
    · rename_i r1 h1
      obtain ⟨hb, hf, hs⟩ := start_word_props fuel s x r1 h1
      rw [hb] at hr
      simp only [Bool.false_eq_true, if_false] at hr
      obtain ⟨hf2, hs2⟩ := ih r1.1 r hr
      refine ⟨hf.trans hf2, ?_⟩
      rw [hs2, hs, hf.word_senses]
      simp

/-- A call of `rank_parse` that returns keeps the frame and has called
`start_sense` on the sense links of the parse, in order. -/
theorem rank_parse_props (fuel : Nat) (s : State) (P : Handle) (s' : State)
    (hr : rank_parse fuel s P = some s') :
    Frame s s' ∧ start_calls s'.trace = start_calls s.trace ++ parse_sense_links s P := by
  unfold rank_parse at hr
  split at hr
  · cases hr
  · rename_i r1 h1
    cases hr
    exact foreach_start_word_props fuel _ s r1 h1

/-! ## Initialisation -/

theorem mem_parse_sense_links (s : State) (P h : Handle) :
    h ∈ parse_sense_links s P ↔
      ∃ w ∈ s.word_instances P, ∃ p ∈ s.word_senses w, p.2 = h := by
  simp [parse_sense_links, List.mem_flatMap]

theorem foreach_init_senses (l : List (Handle × Handle)) :
    ∀ (s : State), ∃ tv',
      foreach_visit (fun st p => init_senses st p.1 p.2) l s = ({ s with tv := tv' }, false) ∧
      (∀ p ∈ l, tv' p.2 = ⟨1, 9 / 10⟩) ∧
      (∀ h, (∀ p ∈ l, p.2 ≠ h) → tv' h = s.tv h) := by
  induction l with
  | nil => intro s; exact ⟨s.tv, rfl, by simp, fun _ _ => rfl⟩
  | cons x xs ih =>
    intro s
    rw [foreach_visit_cons_false _ _ _ _ rfl]
    obtain ⟨tv', he, hin, hout⟩ := ih (init_senses s x.1 x.2).1
    refine ⟨tv', ?_, ?_, ?_⟩
    · rw [he]; rfl
    · intro p hp
      by_cases hq : ∃ q ∈ xs, q.2 = p.2
      · obtain ⟨q, hq1, hq2⟩ := hq
        rw [← hq2]
        exact hin q hq1
      · have hne : ∀ q ∈ xs, q.2 ≠ p.2 := fun q hq1 hq2 => hq ⟨q, hq1, hq2⟩
        rw [hout p.2 hne]
        rcases List.mem_cons.mp hp with rfl | hp
        · simp [init_senses]
        · exact absurd rfl (hne p hp)
    · intro h hne
      rw [hout h (fun p hp => hne p (List.mem_cons_of_mem _ hp))]
      have hx : x.2 ≠ h := hne x (List.mem_cons_self _ _)
      simp [init_senses, Function.update_noteq (Ne.symm hx)]

theorem init_word_eq (s : State) (w : Handle) :
    ∃ tv', init_word s w = ({ s with tv := tv' }, false) ∧
      (∀ p ∈ s.word_senses w, tv' p.2 = ⟨1, 9 / 10⟩) ∧
      (∀ h, (∀ p ∈ s.word_senses w, p.2 ≠ h) → tv' h = s.tv h) := by
  obtain ⟨tv', he, hin, hout⟩ := foreach_init_senses (s.word_senses w) s
  refine ⟨tv', ?_, hin, hout⟩
  unfold init_word
  rw [he]

theorem foreach_init_word (l : List Handle) :
    ∀ (s : State), ∃ tv',
      foreach_visit init_word l s = ({ s with tv := tv' }, false) ∧
      (∀ w ∈ l, ∀ p ∈ s.word_senses w, tv' p.2 = ⟨1, 9 / 10⟩) ∧
      (∀ h, (∀ w ∈ l, ∀ p ∈ s.word_senses w, p.2 ≠ h) → tv' h = s.tv h) := by
  induction l with
  | nil => intro s; exact ⟨s.tv, rfl, by simp, fun _ _ => rfl⟩
  | cons x xs ih =>
    intro s
    obtain ⟨tv1, he1, hin1, hout1⟩ := init_word_eq s x
    rw [foreach_visit_cons_false _ _ _ _ (by rw [he1])]
    rw [he1]
    obtain ⟨tv', he, hin, hout⟩ := ih { s with tv := tv1 }
    refine ⟨tv', ?_, ?_, ?_⟩
    · rw [he]
    · intro w hw p hp
      by_cases hq : ∃ v ∈ xs, ∃ q ∈ s.word_senses v, q.2 = p.2
      · obtain ⟨v, hv, q, hq1, hq2⟩ := hq
        rw [← hq2]
        exact hin v hv q hq1
      · have hne : ∀ v ∈ xs, ∀ q ∈ s.word_senses v, q.2 ≠ p.2 :=
          fun v hv q hq1 hq2 => hq ⟨v, hv, q, hq1, hq2⟩
        rw [hout p.2 hne]
        rcases List.mem_cons.mp hw with rfl | hw
        · exact hin1 p hp
        · exact absurd rfl (hne w hw p hp)
    · intro h hne
      rw [hout h (fun v hv => hne v (List.mem_cons_of_mem _ hv))]
      exact hout1 h (hne x (List.mem_cons_self _ _))

/-- The state `init_parse` returns, in terms of what it stores. -/
theorem init_parse_eq (s : State) (P : Handle) :
    ∃ tv', init_parse s P = { s with converge := 1, tv := tv' } ∧
      (∀ h ∈ parse_sense_links s P, tv' h = ⟨1, 9 / 10⟩) ∧
      (∀ h, h ∉ parse_sense_links s P → tv' h = s.tv h) := by
  obtain ⟨tv', he, hin, hout⟩ := foreach_init_word (s.word_instances P) { s with converge := 1 }
  refine ⟨tv', ?_, ?_, ?_⟩
  · have hdef : init_parse s P =
        (foreach_visit init_word (s.word_instances P) { s with converge := 1 }).1 := rfl
    rw [hdef, he]
  · intro h hh
    obtain ⟨w, hw, p, hp, rfl⟩ := (mem_parse_sense_links s P h).mp hh
    exact hin w hw p hp
  · intro h hh
    apply hout
    intro w hw p hp hph
    exact hh ((mem_parse_sense_links s P h).mpr ⟨w, hw, p, hp, hph⟩)

/-- C7: after `init_parse P` every sense of every word instance of `P` has the
score (mean 1, confidence 9/10) and the convergence accumulator is 1; the
score of every atom that is the sense of no word instance of `P` is unchanged,
the edge lists are unchanged, and so is every edge weight (an edge atom is not
a sense of a word instance: senses and edges are different atoms of the
table). -/
theorem init_parse_sets_prior (s : State) (P : Handle) :
    (∀ w ∈ s.word_instances P, ∀ p ∈ s.word_senses w,
      (init_parse s P).tv p.2 = ⟨1, 9 / 10⟩) ∧
    (init_parse s P).converge = 1 ∧
    (∀ h, h ∉ parse_sense_links s P → (init_parse s P).tv h = s.tv h) ∧
    (init_parse s P).sense_edges = s.sense_edges ∧
    ((∀ b, ∀ p ∈ s.sense_edges b, p.2 ∉ parse_sense_links s P) →
      ∀ b, ∀ p ∈ s.sense_edges b, (init_parse s P).weight p.2 = s.weight p.2) := by
  obtain ⟨tv', he, hin, hout⟩ := init_parse_eq s P
  rw [he]
  refine ⟨?_, rfl, hout, rfl, ?_⟩
  · intro w hw p hp
    exact hin p.2 ((mem_parse_sense_links s P p.2).mpr ⟨w, hw, p, hp, rfl⟩)
  · intro hap b p hp
    simp only [State.weight]
    rw [hout p.2 (hap b p hp)]

theorem unranked_sense_links : parse_sense_links unranked 30 = [1, 2] := by
  simp [parse_sense_links, unranked, two_node, SenseRank]

theorem unranked_edge_atoms :
    ∀ b, ∀ p ∈ unranked.sense_edges b, p.2 = 3 := by
  intro b p hp
  simp only [unranked, two_node, SenseRank] at hp
  split at hp
  · simp at hp; rw [hp]
  · split at hp
    · simp at hp; rw [hp]
    · simp at hp

/-- Witness for C7: on the two-sense graph with scores (1/4, 1/5) and
accumulator 1/2, `init_parse` gives both senses the score (1, 9/10), resets
the accumulator to 1, and leaves the edge weight and the score of the
unrelated atom `5` alone. -/
theorem init_parse_sets_prior_witness :
    (unranked.tv 1).mean = 1 / 4 ∧ unranked.converge = 1 / 2 ∧
    (init_parse unranked 30).tv 1 = ⟨1, 9 / 10⟩ ∧
    (init_parse unranked 30).tv 2 = ⟨1, 9 / 10⟩ ∧
    (init_parse unranked 30).converge = 1 ∧
    (init_parse unranked 30).tv 5 = unranked.tv 5 ∧
    (init_parse unranked 30).weight 3 = unranked.weight 3 :=
  have key := init_parse_sets_prior unranked 30
  have hap : ∀ b, ∀ p ∈ unranked.sense_edges b, p.2 ∉ parse_sense_links unranked 30 := by
    intro b p hp
    rw [unranked_edge_atoms b p hp, unranked_sense_links]
    decide
  ⟨by simp [unranked], by simp [unranked, two_node, SenseRank],
    key.1 20 (by simp [unranked, two_node, SenseRank]) (11, 1)
      (by simp [unranked, two_node, SenseRank]),
    key.1 20 (by simp [unranked, two_node, SenseRank]) (12, 2)
      (by simp [unranked, two_node, SenseRank]),
    key.2.1,
    key.2.2.1 5 (by rw [unranked_sense_links]; decide),
    key.2.2.2.2 hap 1 (2, 3) (by simp [unranked, two_node, SenseRank])⟩

/-! ## Walk starts per parse -/

/-- C9 (as stated, refuted): parse `30` of the two-sense graph has the single
word instance `20`, with two candidate senses; `rank_parse` calls
`start_sense` on both of them, and each call walks (one rank update each). -/
theorem rank_parse_starts_both_senses :
    (two_node (9 / 290)).word_instances 30 = [20] ∧
    (rank_parse 1 (two_node (9 / 290)) 30).map (fun s => s.trace) =
      some [Call.start_sense 1, Call.rank_sense 1, Call.pick_random_edge 1,
        Call.start_sense 2, Call.rank_sense 2, Call.pick_random_edge 2] := by
  refine ⟨rfl, ?_⟩
  norm_num [rank_parse, start_word, start_sense, foreach_visit_fuel, walk_loop,
    pick_random_edge, random_sum, rank_sense, foreach_sense_edge, foreach_visit, outer_sum,
    inner_sum, two_node, SenseRank]

/-- C9 (amended): a call of `rank_parse` that returns has called `start_sense`
exactly once for every candidate sense of every word instance of the parse,
in traversal order: a word instance with `k` candidate senses gives `k`
calls. -/
theorem rank_parse_starts_every_sense (fuel : Nat) (s : State) (P : Handle) (s' : State)
    (hr : rank_parse fuel s P = some s') :
    start_calls s'.trace =
      start_calls s.trace ++
        (s.word_instances P).flatMap (fun w => (s.word_senses w).map Prod.snd) :=
  (rank_parse_props fuel s P s' hr).2

/-- Witness for C9 (amended): the two-sense graph, where `rank_parse` returns
after starting at sense `1` and at sense `2`. -/
theorem rank_parse_starts_every_sense_witness :
    ∃ s', rank_parse 1 (two_node (9 / 290)) 30 = some s' ∧
      start_calls s'.trace = [1, 2] := by
  have hex : ∃ s', rank_parse 1 (two_node (9 / 290)) 30 = some s' := by
    norm_num [rank_parse, start_word, start_sense, foreach_visit_fuel, walk_loop,
      pick_random_edge, random_sum, rank_sense, foreach_sense_edge, foreach_visit, outer_sum,
      inner_sum, two_node, SenseRank]
  obtain ⟨s', hs'⟩ := hex
  refine ⟨s', hs', ?_⟩
  have key := rank_parse_starts_every_sense 1 (two_node (9 / 290)) 30 s' hs'
  simpa [two_node, SenseRank, start_calls] using key

/-! ## The fixed point on a symmetric pair -/

/-- When the weighted neighbour sum of `a` is 1 and the mean of `a` is 1, the
update stores 1 again: no truth value changes. -/
theorem rank_sense_of_unit (s : State) (a : Handle)
    (h1 : rank_sum_spec s a = 1) (h2 : (s.tv a).mean = 1) :
    (rank_sense s a).tv = s.tv ∧
      (rank_sense s a).converge = s.converge * (1 - s.convergence_damper) := by
  obtain ⟨e, he⟩ := rank_sense_eq s a
  rw [he, h1, h2]
  constructor
  · funext x
    by_cases hx : x = a
    · subst hx
      cases hv : s.tv x with
      | mk m c =>
        rw [hv] at h2
        simp only [Function.update_same] 
        simp at h2
        simp [h2]
    · simp [Function.update_noteq hx]
  · simp

theorem rank_sum_spec_single (s : State) (A B eAB eBA : Handle)
    (hA : s.sense_edges A = [(B, eAB)]) (hB : s.sense_edges B = [(A, eBA)])
    (hwA : s.weight eAB = 1) (hwB : s.weight eBA = 1) (hmB : (s.tv B).mean = 1) :
    rank_sum_spec s A = 1 := by
  simp [rank_sum_spec, edge_weight_sum, hA, hB, hwA, hwB, hmB]

/-- C10: on the symmetric two-sense graph (the edge list of `A` is `[(B, 1)]`,
that of `B` is `[(A, 1)]`) with both means 1, for every damping factor,
`rank_sense` on `A` and on `B` stores
`damping_factor * 1 + (1 - damping_factor) = 1`, the delta is 0, and no truth
value changes: the all-ones assignment is a fixed point of the update. -/
theorem symmetric_pair_fixed_point (s : State) (A B eAB eBA : Handle)
    (hA : s.sense_edges A = [(B, eAB)]) (hB : s.sense_edges B = [(A, eBA)])
    (hwA : s.weight eAB = 1) (hwB : s.weight eBA = 1)
    (hmA : (s.tv A).mean = 1) (hmB : (s.tv B).mean = 1) :
    (((rank_sense s A).tv A).mean = s.damping_factor * 1 + (1 - s.damping_factor) ∧
      ((rank_sense s A).tv A).mean = 1 ∧
      |((rank_sense s A).tv A).mean - (s.tv A).mean| = 0 ∧
      (rank_sense s A).tv = s.tv) ∧
    (((rank_sense s B).tv B).mean = s.damping_factor * 1 + (1 - s.damping_factor) ∧
      ((rank_sense s B).tv B).mean = 1 ∧
      |((rank_sense s B).tv B).mean - (s.tv B).mean| = 0 ∧
      (rank_sense s B).tv = s.tv) := by
  have hsA := rank_sum_spec_single s A B eAB eBA hA hB hwA hwB hmB
  have hsB := rank_sum_spec_single s B A eBA eAB hB hA hwB hwA hmA
  have hfA := (rank_sense_of_unit s A hsA hmA).1
  have hfB := (rank_sense_of_unit s B hsB hmB).1
  refine ⟨⟨?_, ?_, ?_, hfA⟩, ⟨?_, ?_, ?_, hfB⟩⟩
  · rw [hfA, hmA]; ring
  · rw [hfA, hmA]
  · rw [hfA]; simp
  · rw [hfB, hmB]; ring
  · rw [hfB, hmB]
  · rw [hfB]; simp

/-- Witness for C10: the two-sense graph with the constructor's parameters. -/
theorem symmetric_pair_fixed_point_witness :
    ((rank_sense (two_node 1) 1).tv 1).mean = 1 ∧
      (rank_sense (two_node 1) 1).tv = (two_node 1).tv ∧
      ((rank_sense (two_node 1) 2).tv 2).mean = 1 ∧
      (rank_sense (two_node 1) 2).tv = (two_node 1).tv :=
  have key := symmetric_pair_fixed_point (two_node 1) 1 2 3 3 rfl rfl
    (by simp [State.weight, two_node, SenseRank])
    (by simp [State.weight, two_node, SenseRank])
    (by simp [two_node, SenseRank]) (by simp [two_node, SenseRank])
  ⟨key.1.2.1, key.1.2.2.2, key.2.2.1, key.2.2.2.2⟩

/-! ## Walks on the symmetric two-sense graph -/

theorem two_node_like (c : ℚ) : TwoNodeLike (two_node c) where
  tv1 := by simp [two_node, SenseRank]
  tv2 := by simp [two_node, SenseRank]
  w3 := by simp [State.weight, two_node, SenseRank]
  e1 := rfl
  e2 := rfl
  damping := by norm_num [two_node, SenseRank]
  damper := by norm_num [two_node, SenseRank]
  limit := rfl
  rand0 := rfl
  words := rfl
  senses := rfl

theorem walk_body_tv (s : State) (h : Handle) :
    (pick_random_edge (rank_sense s h) h).1.tv = (rank_sense s h).tv := by
  obtain ⟨e, ns, hp⟩ := pick_random_edge_frame (rank_sense s h) h
  rw [hp]

/-- One pass of the loop body on the two-sense graph: the shape is kept, the
accumulator is multiplied by 29/30, and the walk moves to the other sense. -/
theorem two_node_body (s : State) (a b : Handle) (hs : TwoNodeLike s)
    (hab : (a = 1 ∧ b = 2) ∨ (a = 2 ∧ b = 1)) :
    TwoNodeLike (pick_random_edge (rank_sense s a) a).1 ∧
      (pick_random_edge (rank_sense s a) a).1.converge = s.converge * (29 / 30) ∧
      (pick_random_edge (rank_sense s a) a).2 = b := by
  have hea : s.sense_edges a = [(b, 3)] := by
    rcases hab with ⟨rfl, rfl⟩ | ⟨rfl, rfl⟩
    · exact hs.e1
    · exact hs.e2
  have heb : s.sense_edges b = [(a, 3)] := by
    rcases hab with ⟨rfl, rfl⟩ | ⟨rfl, rfl⟩
    · exact hs.e2
    · exact hs.e1
  have hma : (s.tv a).mean = 1 := by
    rcases hab with ⟨rfl, rfl⟩ | ⟨rfl, rfl⟩
    · rw [hs.tv1]
    · rw [hs.tv2]
  have hmb : (s.tv b).mean = 1 := by
    rcases hab with ⟨rfl, rfl⟩ | ⟨rfl, rfl⟩
    · rw [hs.tv2]
    · rw [hs.tv1]
  have hspec := rank_sum_spec_single s a b 3 3 hea heb hs.w3 hs.w3 hmb
  obtain ⟨htv, hconv⟩ := rank_sense_of_unit s a hspec hma
  obtain ⟨hf, -, -, hc⟩ := walk_body_props s a
  have htv2 : (pick_random_edge (rank_sense s a) a).1.tv = s.tv := by
    rw [walk_body_tv, htv]
  obtain ⟨e, he⟩ := rank_sense_eq s a
  have hedges : (rank_sense s a).sense_edges a = [(b, 3)] := by rw [he]; exact hea
  have hw3 : (rank_sense s a).weight 3 = 1 := by
    simp only [State.weight]
    rw [htv]
    exact hs.w3
  have hdraw : random_draw (rank_sense s a) a = 0 := by
    have hrs : (rank_sense s a).rand_seq = s.rand_seq := by rw [he]
    simp [random_draw, hrs, hs.rand0]
  have hcum : cum_weight (rank_sense s a) a 1 = 1 := by
    simp [cum_weight, cum_list, hedges, hw3]
  have hpick := pick_random_edge_of_first_cross (rank_sense s a) a 0
    (by rw [hedges]; simp) (fun j hj => absurd hj (Nat.not_lt_zero j))
    (by rw [hdraw, hcum]; norm_num)
  rw [hedges] at hpick
  refine ⟨⟨?_, ?_, ?_, ?_, ?_, ?_, ?_, ?_, ?_, ?_, ?_⟩, ?_, ?_⟩
  · rw [htv2]; exact hs.tv1
  · rw [htv2]; exact hs.tv2
  · simp only [State.weight]; rw [htv2]; exact hs.w3
  · rw [hf.sense_edges]; exact hs.e1
  · rw [hf.sense_edges]; exact hs.e2
  · rw [hf.damping_factor]; exact hs.damping
  · rw [hf.convergence_damper]; exact hs.damper
  · rw [hf.convergence_limit]; exact hs.limit
  · rw [hf.rand_seq]; exact hs.rand0
  · rw [hf.word_instances]; exact hs.words
  · rw [hf.word_senses]; exact hs.senses
  · rw [hc, hconv, hs.damper]; norm_num
  · simpa using hpick.symm

/-- On the two-sense graph a walk started with accumulator `c` makes exactly
`n + 1` passes when `n + 1` is the first number of passes after which
`c * (29/30) ^ (n + 1) ≤ 3/100`, provided the fuel allows that many. -/
theorem two_node_walk (n : Nat) :
    ∀ (s : State) (a b : Handle), TwoNodeLike s →
      ((a = 1 ∧ b = 2) ∨ (a = 2 ∧ b = 1)) →
      (0 < n → 3 / 100 < s.converge * (29 / 30) ^ n) →
      s.converge * (29 / 30) ^ (n + 1) ≤ 3 / 100 →
      ∀ fuel, n + 1 ≤ fuel →
        ∃ s', walk_loop fuel s a = some s' ∧ TwoNodeLike s' ∧
          s'.converge = s.converge * (29 / 30) ^ (n + 1) ∧
          (rank_calls s'.trace).length = (rank_calls s.trace).length + (n + 1) := by
  induction n with
  | zero =>
    intro s a b hs hab _ hle fuel hfuel
    obtain ⟨hs1, hc1, -⟩ := two_node_body s a b hs hab
    obtain ⟨m, rfl⟩ : ∃ m, fuel = m + 1 := ⟨fuel - 1, by omega⟩
    refine ⟨(pick_random_edge (rank_sense s a) a).1, ?_, hs1, ?_, ?_⟩
    · rw [walk_loop_succ, if_neg]
      rw [hs1.limit, hc1]
      simpa using hle
    · rw [hc1]; simp
    · rw [(walk_body_props s a).2.1]
      simp [rank_calls]
  | succ n ih =>
    intro s a b hs hab hgt hle fuel hfuel
    obtain ⟨hs1, hc1, hnext⟩ := two_node_body s a b hs hab
    obtain ⟨m, rfl⟩ : ∃ m, fuel = m + 1 := ⟨fuel - 1, by omega⟩
    have hgt' := hgt (Nat.succ_pos n)
    have hpow : (0 : ℚ) < (29 / 30) ^ (n + 1) := by positivity
    have hcpos : 0 < s.converge := by
      by_contra hc
      have : s.converge * (29 / 30) ^ (n + 1) ≤ 0 :=
        mul_nonpos_of_nonpos_of_nonneg (not_lt.mp hc) hpow.le
      linarith
    have hpow1 : ((29 : ℚ) / 30) ^ n ≤ 1 := pow_le_one₀ (by norm_num) (by norm_num)
    have hcont : (pick_random_edge (rank_sense s a) a).1.convergence_limit <
        (pick_random_edge (rank_sense s a) a).1.converge := by
      rw [hs1.limit, hc1]
      have h1 : s.converge * (29 / 30) ^ (n + 1) ≤ s.converge * (29 / 30) := by
        rw [pow_succ]
        have := mul_le_mul_of_nonneg_left hpow1 (mul_nonneg hcpos.le (by norm_num : (0:ℚ) ≤ 29 / 30))
        nlinarith
      linarith
    have hab' : (b = 1 ∧ a = 2) ∨ (b = 2 ∧ a = 1) := by
      rcases hab with ⟨h1, h2⟩ | ⟨h1, h2⟩
      · exact Or.inr ⟨h2, h1⟩
      · exact Or.inl ⟨h2, h1⟩
    obtain ⟨s', hw, hs', hc', hl'⟩ := ih (pick_random_edge (rank_sense s a) a).1 b a hs1 hab'
      (by intro _; rw [hc1]; rw [pow_succ] at hgt'; linarith)
      (by rw [hc1]; rw [pow_succ] at hle; linarith)
      m (by omega)
    refine ⟨s', ?_, hs', ?_, ?_⟩
    · rw [walk_loop_succ, if_pos hcont, hnext]
      exact hw
    · rw [hc', hc1]; ring
    · rw [hl', (walk_body_props s a).2.1]
      simp [rank_calls]
      omega

/-- A call of `start_sense` on a sense of the two-sense graph walks (the edge
weight sum is 1) and returns after `n + 1` passes. -/
theorem two_node_start_sense (n : Nat) (s : State) (ws a b : Handle) (hs : TwoNodeLike s)
    (hab : (a = 1 ∧ b = 2) ∨ (a = 2 ∧ b = 1))
    (hgt : 0 < n → 3 / 100 < s.converge * (29 / 30) ^ n)
    (hle : s.converge * (29 / 30) ^ (n + 1) ≤ 3 / 100)
    (fuel : Nat) (hfuel : n + 1 ≤ fuel) :
    ∃ s', start_sense fuel s ws a = some (s', false) ∧ TwoNodeLike s' ∧
      s'.converge = s.converge * (29 / 30) ^ (n + 1) ∧
      (rank_calls s'.trace).length = (rank_calls s.trace).length + (n + 1) := by
  have hsum : edge_weight_sum s a = 1 := by
    rcases hab with ⟨rfl, rfl⟩ | ⟨rfl, rfl⟩
    · simp [edge_weight_sum, hs.e1, hs.w3]
    · simp [edge_weight_sum, hs.e2, hs.w3]
  have hs0 : TwoNodeLike { s with
      trace := s.trace ++ [Call.start_sense a]
      edge_sum := edge_weight_sum s a } :=
    ⟨hs.tv1, hs.tv2, hs.w3, hs.e1, hs.e2, hs.damping, hs.damper, hs.limit, hs.rand0,
      hs.words, hs.senses⟩
  obtain ⟨s', hw, hs', hc', hl'⟩ := two_node_walk n _ a b hs0 hab hgt hle fuel hfuel
  refine ⟨s', ?_, hs', hc', ?_⟩
  · rw [start_sense_eq, if_neg (by rw [hsum]; norm_num), hw]
  · rw [hl']
    simp [rank_calls]

/-- The whole of `rank_parse` on parse `30` of the two-sense graph: the walk
from sense `1` makes `n + 1` passes, the walk from sense `2` one more. -/
theorem two_node_rank_parse (n : Nat) (s : State) (hs : TwoNodeLike s)
    (hgt : 0 < n → 3 / 100 < s.converge * (29 / 30) ^ n)
    (hle : s.converge * (29 / 30) ^ (n + 1) ≤ 3 / 100)
    (fuel : Nat) (hfuel : n + 1 ≤ fuel) :
    ∃ s', rank_parse fuel s 30 = some s' ∧ TwoNodeLike s' ∧
      s'.converge = s.converge * (29 / 30) ^ (n + 2) ∧
      (rank_calls s'.trace).length = (rank_calls s.trace).length + (n + 2) := by
  obtain ⟨s1, h1, hs1, hc1, hl1⟩ :=
    two_node_start_sense n s 11 1 2 hs (Or.inl ⟨rfl, rfl⟩) hgt hle fuel hfuel
  have hle2 : s1.converge * (29 / 30) ^ (0 + 1) ≤ 3 / 100 := by
    rw [hc1] at *
    by_cases hc : 0 ≤ s.converge * (29 / 30) ^ (n + 1)
    · nlinarith
    · have := not_le.mp hc
      nlinarith
  obtain ⟨s2, h2, hs2, hc2, hl2⟩ :=
    two_node_start_sense 0 s1 12 2 1 hs1 (Or.inr ⟨rfl, rfl⟩)
      (fun h => absurd h (Nat.lt_irrefl 0)) hle2 fuel (by omega)
  refine ⟨s2, ?_, hs2, ?_, ?_⟩
  · simp only [rank_parse, hs.words, foreach_visit_fuel, start_word, hs.senses, h1, h2,
      Bool.false_eq_true, if_false]
  · rw [hc2, hc1]; ring
  · rw [hl2, hl1]; omega

/-! ## What the rank update leaves alone -/

theorem init_parse_unranked_like :
    TwoNodeLike (init_parse unranked 30) ∧ (init_parse unranked 30).converge = 1 := by
  obtain ⟨tv', he, hin, hout⟩ := init_parse_eq unranked 30
  rw [he]
  refine ⟨⟨?_, ?_, ?_, rfl, rfl, ?_, ?_, rfl, rfl, rfl, rfl⟩, rfl⟩
  · exact hin 1 (by rw [unranked_sense_links]; decide)
  · exact hin 2 (by rw [unranked_sense_links]; decide)
  · simp only [State.weight]
    rw [hout 3 (by rw [unranked_sense_links]; decide)]
    simp [unranked]
  · norm_num [unranked, two_node, SenseRank]
  · norm_num [unranked, two_node, SenseRank]

theorem init_parse_unranked_returns :
    ∃ s', rank_parse 104 (init_parse unranked 30) 30 = some s' := by
  obtain ⟨hs, hc⟩ := init_parse_unranked_like
  obtain ⟨s', h, -⟩ := two_node_rank_parse 103 _ hs
    (by intro _; rw [hc]; norm_num) (by rw [hc]; norm_num) 104 (le_refl _)
  exact ⟨s', h⟩

/-- C8: `rank_sense a` changes only the stored mean of `a`: the confidence of
`a` is the same after the call as before, the truth value (mean and
confidence) of every other atom is unchanged, the edge lists are unchanged, and
so is every edge weight (`a`, a sense, is not an edge atom).  Consequently a
walk (`start_sense`), and all the walks of `rank_parse`, leave the confidence
of every atom as it was; after `init_parse` it stays 9/10 on the senses of the
parse. -/
theorem rank_sense_changes_only_mean (s : State) (a : Handle) :
    ((rank_sense s a).tv a).confidence = (s.tv a).confidence ∧
    (∀ h, h ≠ a → (rank_sense s a).tv h = s.tv h) ∧
    (rank_sense s a).sense_edges = s.sense_edges ∧
    ((∀ b, ∀ p ∈ s.sense_edges b, p.2 ≠ a) →
      ∀ b, ∀ p ∈ s.sense_edges b, (rank_sense s a).weight p.2 = s.weight p.2) ∧
    (∀ fuel ws h r, start_sense fuel s ws h = some r →
      ∀ x, (r.1.tv x).confidence = (s.tv x).confidence) ∧
    (∀ fuel P s', rank_parse fuel s P = some s' →
      ∀ x, (s'.tv x).confidence = (s.tv x).confidence) ∧
    (∀ fuel P s', rank_parse fuel (init_parse s P) P = some s' →
      ∀ h ∈ parse_sense_links s P, (s'.tv h).confidence = 9 / 10) := by
  obtain ⟨e, he⟩ := rank_sense_eq s a
  have hother : ∀ h, h ≠ a → (rank_sense s a).tv h = s.tv h := by
    intro h hne
    rw [he]
    simp [Function.update_noteq hne]
  refine ⟨?_, hother, ?_, ?_, ?_, ?_, ?_⟩
  · rw [he]; simp
  · rw [he]
  · intro hap b p hp
    simp only [State.weight]
    rw [hother p.2 (hap b p hp)]
  · intro fuel ws h r hr
    exact (start_sense_props fuel s ws h r hr).2.1.confidence
  · intro fuel P s' hr
    exact (rank_parse_props fuel s P s' hr).1.confidence
  · intro fuel P s' hr h hh
    rw [(rank_parse_props fuel _ P s' hr).1.confidence h]
    obtain ⟨tv', hi, hin, -⟩ := init_parse_eq s P
    rw [hi]
    simp only
    rw [hin h hh]

/-- Witness for C8: one update on the two-sense graph, and the 105 updates
that `rank_parse` makes there after `init_parse`. -/
theorem rank_sense_changes_only_mean_witness :
    (rank_sense (two_node 1) 1).weight 3 = (two_node 1).weight 3 ∧
    ∃ s', rank_parse 104 (init_parse unranked 30) 30 = some s' ∧
      (s'.tv 1).confidence = 9 / 10 ∧
      (s'.tv 1).confidence = ((init_parse unranked 30).tv 1).confidence := by
  obtain ⟨s', hs'⟩ := init_parse_unranked_returns
  refine ⟨?_, s', hs', ?_, ?_⟩
  · refine (rank_sense_changes_only_mean (two_node 1) 1).2.2.2.1 ?_ 1 (2, 3) ?_
    · intro b p hp
      simp only [two_node, SenseRank] at hp
      split at hp
      · simp at hp; rw [hp]; decide
      · split at hp
        · simp at hp; rw [hp]; decide
        · simp at hp
    · simp [two_node, SenseRank]
  · exact (rank_sense_changes_only_mean unranked 1).2.2.2.2.2.2 104 30 s' hs' 1
      (by rw [unranked_sense_links]; decide)
  · exact (rank_sense_changes_only_mean (init_parse unranked 30) 1).2.2.2.2.2.1 104 30 s' hs' 1

/-- Witness for C3 (amended): with accumulator `9/290` the first pass ends at
the limit and the walk returns after one update; with accumulator `27/841`
the first pass ends at `9/290`, above the limit, and the walk makes a second
update before it returns. -/
theorem walk_loop_exit_condition_witness :
    (walk_loop 1 (two_node (9 / 290)) 1 =
        some (pick_random_edge (rank_sense (two_node (9 / 290)) 1) 1).1 ∧
      rank_calls (pick_random_edge (rank_sense (two_node (9 / 290)) 1) 1).1.trace =
        rank_calls (two_node (9 / 290)).trace ++ [1]) ∧
    ∃ s', walk_loop 2 (two_node (27 / 841)) 1 = some s' ∧
      ∃ l, rank_calls s'.trace =
        rank_calls (two_node (27 / 841)).trace ++
          1 :: (pick_random_edge (rank_sense (two_node (27 / 841)) 1) 1).2 :: l := by
  refine ⟨(walk_loop_exit_condition 0 (two_node (9 / 290)) 1).1
      (by rw [two_node_body_converge _ 1 (Or.inl rfl), two_node_body_limit]; norm_num), ?_⟩
  obtain ⟨s', hs', -⟩ := two_node_walk 1 (two_node (27 / 841)) 1 2 (two_node_like _)
    (Or.inl ⟨rfl, rfl⟩) (by intro _; norm_num [two_node, SenseRank])
    (by norm_num [two_node, SenseRank]) 2 (le_refl _)
  exact ⟨s', hs', ((walk_loop_exit_condition 1 (two_node (27 / 841)) 1).2
    (by rw [two_node_body_converge _ 1 (Or.inl rfl), two_node_body_limit]; norm_num)).2 s' hs'⟩

/-! ## The convergence accumulator -/

/-- The accumulator that `rank_sense` leaves is `converge_update` applied to
the delta of the call. -/
theorem rank_sense_converge_eq (s : State) (a : Handle) :
    (rank_sense s a).converge =
      converge_update s.convergence_damper s.converge
        |((rank_sense s a).tv a).mean - (s.tv a).mean| := by
  obtain ⟨e, he⟩ := rank_sense_eq s a
  rw [he]
  simp [converge_update]

theorem converge_update_le (damper c d D : ℚ) (h0 : 0 ≤ damper) (h1 : damper ≤ 1)
    (hd : d ≤ D) : converge_update damper c d ≤ max c D := by
  unfold converge_update
  have hc : c ≤ max c D := le_max_left _ _
  have hD : d ≤ max c D := le_trans hd (le_max_right _ _)
  have h2 : 0 ≤ 1 - damper := by linarith
  nlinarith [mul_le_mul_of_nonneg_right hc h2, mul_le_mul_of_nonneg_left hD h0]

theorem converge_update_nonneg (damper c d : ℚ) (h0 : 0 ≤ damper) (h1 : damper ≤ 1)
    (hc : 0 ≤ c) (hd : 0 ≤ d) : 0 ≤ converge_update damper c d := by
  unfold converge_update
  have h2 : 0 ≤ 1 - damper := by linarith
  nlinarith [mul_nonneg hc h2, mul_nonneg h0 hd]

theorem converge_run_bounds (damper D : ℚ) (h0 : 0 ≤ damper) (h1 : damper ≤ 1)
    (ds : List ℚ) :
    ∀ c, (∀ d ∈ ds, 0 ≤ d ∧ d ≤ D) →
      converge_run damper c ds ≤ max c D ∧ (0 ≤ c → 0 ≤ converge_run damper c ds) := by
  induction ds with
  | nil => intro c _; exact ⟨le_max_left _ _, fun h => h⟩
  | cons d ds ih =>
    intro c hds
    have hd := hds d (List.mem_cons_self _ _)
    have ih' := ih (converge_update damper c d)
      (fun x hx => hds x (List.mem_cons_of_mem _ hx))
    have hstep := converge_update_le damper c d D h0 h1 hd.2
    refine ⟨?_, ?_⟩
    · show converge_run damper (converge_update damper c d) ds ≤ max c D
      refine le_trans ih'.1 ?_
      exact max_le hstep (le_max_right _ _)
    · intro hc
      exact ih'.2 (converge_update_nonneg damper c d h0 h1 hc hd.1)

/-- C12: for a damper `alpha` with `0 ≤ alpha ≤ 1`, any initial accumulator
`c0` and any finite sequence of deltas `d_i` with `0 ≤ d_i ≤ D`, the
accumulator obtained by applying `c := c*(1-alpha) + alpha*d_i` in turn is at
most `max c0 D`, and it is non-negative when `c0` is. -/
theorem converge_run_le_max (damper c0 D : ℚ) (ds : List ℚ)
    (h0 : 0 ≤ damper) (h1 : damper ≤ 1) (hds : ∀ d ∈ ds, 0 ≤ d ∧ d ≤ D) :
    converge_run damper c0 ds ≤ max c0 D ∧ (0 ≤ c0 → 0 ≤ converge_run damper c0 ds) :=
  converge_run_bounds damper D h0 h1 ds c0 hds

/-- Witness for C12: the constructor's damper, accumulator 1 and the deltas
1/2, 0, 1/10. -/
theorem converge_run_le_max_witness :
    converge_run (1 / 30) 1 [1 / 2, 0, 1 / 10] ≤ max 1 (1 / 2) ∧
      (0 ≤ (1 : ℚ) → 0 ≤ converge_run (1 / 30) 1 [1 / 2, 0, 1 / 10]) :=
  converge_run_le_max (1 / 30) 1 (1 / 2) [1 / 2, 0, 1 / 10] (by norm_num) (by norm_num)
    (by
      intro d hd
      simp at hd
      rcases hd with rfl | rfl | rfl <;> norm_num)

theorem converge_run_replicate (damper c d : ℚ) (n : Nat) :
    converge_run damper c (List.replicate n d) = d + (c - d) * (1 - damper) ^ n := by
  induction n generalizing c with
  | zero => simp [converge_run]
  | succ n ih =>
    have hstep : converge_run damper c (List.replicate (n + 1) d) =
        converge_run damper (converge_update damper c d) (List.replicate n d) := by
      simp [converge_run, List.replicate_succ]
    rw [hstep, ih]
    unfold converge_update
    ring

/-- C13 (as stated, refuted): with damper 1/30, accumulator 1 and the constant
delta 1/10, no number of steps brings the accumulator below 3/100. -/
theorem constant_delta_never_converges :
    ¬ ∃ n, converge_run (1 / 30) 1 (List.replicate n (1 / 10)) < 3 / 100 := by
  rintro ⟨n, hn⟩
  rw [converge_run_replicate] at hn
  have hpow : (0 : ℚ) < (1 - 1 / 30) ^ n := by positivity
  nlinarith

/-- C13 (amended): with damper 1/30 and accumulator 1, after `n` steps of
constant delta 1/10 the accumulator is `1/10 + (9/10) * (29/30)^n`: it
decreases at every step and stays above 1/10, hence above the limit 3/100,
for every `n`. -/
theorem constant_delta_accumulator (n : Nat) :
    converge_run (1 / 30) 1 (List.replicate n (1 / 10)) = 1 / 10 + 9 / 10 * (29 / 30) ^ n ∧
    converge_run (1 / 30) 1 (List.replicate (n + 1) (1 / 10)) <
      converge_run (1 / 30) 1 (List.replicate n (1 / 10)) ∧
    1 / 10 < converge_run (1 / 30) 1 (List.replicate n (1 / 10)) ∧
    3 / 100 < converge_run (1 / 30) 1 (List.replicate n (1 / 10)) := by
  have hpow : (0 : ℚ) < (29 / 30) ^ n := by positivity
  have h1 : converge_run (1 / 30) 1 (List.replicate n (1 / 10)) =
      1 / 10 + 9 / 10 * (29 / 30) ^ n := by
    rw [converge_run_replicate]; norm_num
  have h2 : converge_run (1 / 30) 1 (List.replicate (n + 1) (1 / 10)) =
      1 / 10 + 9 / 10 * (29 / 30) ^ (n + 1) := by
    rw [converge_run_replicate]; norm_num
  refine ⟨h1, ?_, ?_, ?_⟩
  · rw [h1, h2, pow_succ]; nlinarith
  · rw [h1]; nlinarith
  · rw [h1]; nlinarith

/-! ## The do-while shape of the walk -/

theorem start_sense_connected (fuel : Nat) (s : State) (ws h : Handle)
    (hconn : ¬ edge_weight_sum s h < 1 / 10 ^ 10) :
    start_sense fuel s ws h =
      match walk_loop fuel (walk_start s h) h with
      | none => none
      | some s3 => some (s3, false) := by
  rw [start_sense_eq, if_neg hconn]
  rfl

theorem rank_sense_mean_eq (s : State) (a : Handle) :
    ((rank_sense s a).tv a).mean =
      rank_sum_spec s a * s.damping_factor + (1 - s.damping_factor) := by
  obtain ⟨e, he⟩ := rank_sense_eq s a
  rw [he]
  simp

/-- A walk that returns has called `pick_random_edge` first on its start
sense, and has consumed at least one random draw. -/
theorem walk_loop_pick_calls (n : Nat) :
    ∀ (s : State) (h : Handle) (s' : State), walk_loop n s h = some s' →
      (∃ l, pick_calls s'.trace = pick_calls s.trace ++ h :: l) ∧
        s.rand_pos + 1 ≤ s'.rand_pos := by
  induction n with
  | zero => intro s h s' hw; simp [walk_loop] at hw
  | succ n ih =>
    intro s h s' hw
    rw [walk_loop_succ] at hw
    obtain ⟨-, ht, hp, -⟩ := walk_body_props s h
    split at hw
    · obtain ⟨⟨l, hl⟩, hpos⟩ := ih _ _ _ hw
      refine ⟨⟨(pick_random_edge (rank_sense s h) h).2 :: l, ?_⟩, ?_⟩
      · rw [hl, ht]
        simp [pick_calls]
      · rw [hp] at hpos
        omega
    · cases hw
      refine ⟨⟨[], ?_⟩, ?_⟩
      · rw [ht]
        simp [pick_calls]
      · rw [hp]

/-- C20: the walk is a do-while loop.  For a start sense whose edge-weight sum
is at least `1e-10`, a call of `start_sense` that returns has made at least
one rank update, the first of them on the start sense, and at least one edge
selection (one random draw), whatever the accumulator was on entry.  When the
accumulator on entry is `c ≤ convergence_limit` and the first delta `d`
satisfies `c*(1-alpha) + alpha*d ≤ convergence_limit`, the call returns (for
any fuel of at least one pass) after exactly one rank update and one edge
selection. -/
theorem start_sense_do_while (fuel : Nat) (s : State) (ws h : Handle)
    (hconn : ¬ edge_weight_sum s h < 1 / 10 ^ 10) :
    (∀ r, start_sense fuel s ws h = some r →
      (∃ l, rank_calls r.1.trace = rank_calls s.trace ++ h :: l) ∧
      (∃ l, pick_calls r.1.trace = pick_calls s.trace ++ h :: l) ∧
      s.rand_pos + 1 ≤ r.1.rand_pos) ∧
    (s.converge ≤ s.convergence_limit →
      converge_update s.convergence_damper s.converge
          |((rank_sense s h).tv h).mean - (s.tv h).mean| ≤ s.convergence_limit →
      ∃ s', start_sense (fuel + 1) s ws h = some (s', false) ∧
        rank_calls s'.trace = rank_calls s.trace ++ [h] ∧
        pick_calls s'.trace = pick_calls s.trace ++ [h] ∧
        s'.rand_pos = s.rand_pos + 1) := by
  constructor
  · intro r hr
    rw [start_sense_eq, if_neg hconn] at hr
    split at hr
    · cases hr
    · rename_i s3 hw
      cases hr
      obtain ⟨-, -, l, hl⟩ := walk_loop_props fuel _ _ _ hw
      obtain ⟨⟨l', hl'⟩, hpos⟩ := walk_loop_pick_calls fuel _ _ _ hw
      refine ⟨⟨l, ?_⟩, ⟨l', ?_⟩, hpos⟩
      · rw [hl]; simp [rank_calls]
      · rw [hl']; simp [pick_calls]
  · intro _ hle
    rw [rank_sense_mean_eq] at hle
    obtain ⟨hf, ht, hp, -⟩ := walk_body_props (walk_start s h) h
    have hconv := walk_body_converge (walk_start s h) h
    have hstop : ¬ (pick_random_edge (rank_sense (walk_start s h) h) h).1.convergence_limit <
        (pick_random_edge (rank_sense (walk_start s h) h) h).1.converge := by
      rw [hf.convergence_limit, hconv]
      exact not_lt.mpr hle
    refine ⟨(pick_random_edge (rank_sense (walk_start s h) h) h).1, ?_, ?_, ?_, ?_⟩
    · rw [start_sense_connected _ _ _ _ hconn, walk_loop_succ, if_neg hstop]
    · rw [ht]; simp [rank_calls, walk_start]
    · rw [ht]; simp [pick_calls, walk_start]
    · rw [hp]; rfl

/-- Witness for C20: the two-sense graph entered with accumulator 1/100,
already below the limit; the call still makes one update and one selection. -/
theorem start_sense_do_while_witness :
    (two_node (1 / 100)).converge ≤ (two_node (1 / 100)).convergence_limit ∧
    ∃ s', start_sense 1 (two_node (1 / 100)) 11 1 = some (s', false) ∧
      rank_calls s'.trace = rank_calls (two_node (1 / 100)).trace ++ [1] ∧
      pick_calls s'.trace = pick_calls (two_node (1 / 100)).trace ++ [1] ∧
      s'.rand_pos = (two_node (1 / 100)).rand_pos + 1 := by
  have hc : (two_node (1 / 100)).converge ≤ (two_node (1 / 100)).convergence_limit := by
    norm_num [two_node, SenseRank]
  refine ⟨hc, (start_sense_do_while 0 (two_node (1 / 100)) 11 1 ?_).2 hc ?_⟩
  · norm_num [edge_weight_sum, State.weight, two_node, SenseRank]
  · rw [rank_sense_mean_eq, two_node_rank_sum_spec _ 1 (Or.inl rfl)]
    norm_num [converge_update, two_node, SenseRank]

/-! ## Where a walk writes -/

/-- A walk that returns has changed the truth value of no atom other than the
senses on which it called `rank_sense`. -/
theorem walk_loop_tv_frame (n : Nat) :
    ∀ (s : State) (h : Handle) (s' : State), walk_loop n s h = some s' →
      ∃ l, rank_calls s'.trace = rank_calls s.trace ++ l ∧
        ∀ x, x ∉ l → s'.tv x = s.tv x := by
  induction n with
  | zero => intro s h s' hw; simp [walk_loop] at hw
  | succ n ih =>
    intro s h s' hw
    rw [walk_loop_succ] at hw
    obtain ⟨-, ht, -, -⟩ := walk_body_props s h
    have htv : ∀ x, x ≠ h → (pick_random_edge (rank_sense s h) h).1.tv x = s.tv x := by
      intro x hx
      rw [walk_body_tv]
      obtain ⟨e, he⟩ := rank_sense_eq s h
      rw [he]
      simp [Function.update_noteq hx]
    split at hw
    · obtain ⟨l, hl, hout⟩ := ih _ _ _ hw
      refine ⟨h :: l, ?_, ?_⟩
      · rw [hl, ht]; simp [rank_calls]
      · intro x hx
        have hxh : x ≠ h := fun hh => hx (hh ▸ List.mem_cons_self _ _)
        have hxl : x ∉ l := fun hh => hx (List.mem_cons_of_mem _ hh)
        rw [hout x hxl, htv x hxh]
    · cases hw
      refine ⟨[h], ?_, ?_⟩
      · rw [ht]; simp [rank_calls]
      · intro x hx
        exact htv x (fun hh => hx (hh ▸ List.mem_singleton_self _))

theorem start_sense_tv_frame (fuel : Nat) (s : State) (ws h : Handle) (r : State × Bool)
    (hr : start_sense fuel s ws h = some r) :
    ∃ l, rank_calls r.1.trace = rank_calls s.trace ++ l ∧
      ∀ x, x ∉ l → r.1.tv x = s.tv x := by
  rw [start_sense_eq] at hr
  split at hr
  · cases hr
    exact ⟨[], by simp [rank_calls], fun _ _ => rfl⟩
  · split at hr
    · cases hr
    · rename_i s3 hw
      cases hr
      obtain ⟨l, hl, hout⟩ := walk_loop_tv_frame fuel _ _ _ hw
      refine ⟨l, ?_, hout⟩
      rw [hl]; simp [rank_calls]

/-! ## Idempotence of the initialisation -/

theorem init_parse_tv_eq (s t : State) (P : Handle)
    (hwi : t.word_instances = s.word_instances) (hws : t.word_senses = s.word_senses)
    (hout : ∀ x, x ∉ parse_sense_links s P → t.tv x = s.tv x) :
    (init_parse t P).tv = (init_parse s P).tv ∧
      (init_parse t P).converge = (init_parse s P).converge := by
  have hlinks : parse_sense_links t P = parse_sense_links s P := by
    simp [parse_sense_links, hwi, hws]
  obtain ⟨tvs, hes, hins, houts⟩ := init_parse_eq s P
  obtain ⟨tvt, het, hint, houtt⟩ := init_parse_eq t P
  rw [hes, het]
  refine ⟨?_, rfl⟩
  funext x
  by_cases hx : x ∈ parse_sense_links s P
  · show tvt x = tvs x
    rw [hins x hx, hint x (hlinks ▸ hx)]
  · show tvt x = tvs x
    rw [houts x hx, houtt x (hlinks ▸ hx), hout x hx]

/-- C18: `init_parse` is idempotent per parse and wipes prior progress.  Two
states that differ only in the scores of the senses of `P` and in the
accumulator are mapped to the same state; in particular `init_parse P` applied
twice gives the same state as applied once, and applied after a rank update
or a whole walk over senses of `P` it gives the same scores and accumulator as
applied before them. -/
theorem init_parse_idempotent (s : State) (P : Handle) :
    (∀ tv2 c2, (∀ x, x ∉ parse_sense_links s P → tv2 x = s.tv x) →
      init_parse { s with tv := tv2, converge := c2 } P = init_parse s P) ∧
    init_parse (init_parse s P) P = init_parse s P ∧
    (∀ a, a ∈ parse_sense_links s P →
      (init_parse (rank_sense s a) P).tv = (init_parse s P).tv ∧
      (init_parse (rank_sense s a) P).converge = (init_parse s P).converge) ∧
    (∀ fuel ws h r l, start_sense fuel s ws h = some r →
      rank_calls r.1.trace = rank_calls s.trace ++ l →
      (∀ x ∈ l, x ∈ parse_sense_links s P) →
      (init_parse r.1 P).tv = (init_parse s P).tv ∧
      (init_parse r.1 P).converge = (init_parse s P).converge) := by
  have hgen : ∀ tv2 c2, (∀ x, x ∉ parse_sense_links s P → tv2 x = s.tv x) →
      init_parse { s with tv := tv2, converge := c2 } P = init_parse s P := by
    intro tv2 c2 hout
    obtain ⟨htv, -⟩ := init_parse_tv_eq s { s with tv := tv2, converge := c2 } P rfl rfl hout
    obtain ⟨tvs, hes, -, -⟩ := init_parse_eq s P
    obtain ⟨tvt, het, -, -⟩ := init_parse_eq { s with tv := tv2, converge := c2 } P
    rw [hes, het] at htv
    rw [hes, het]
    simp only at htv
    rw [htv]
  refine ⟨hgen, ?_, ?_, ?_⟩
  · obtain ⟨tvs, hes, hins, houts⟩ := init_parse_eq s P
    have := hgen tvs 1 houts
    conv_lhs => rw [hes]
    exact this
  · intro a ha
    obtain ⟨e, he⟩ := rank_sense_eq s a
    apply init_parse_tv_eq s (rank_sense s a) P (by rw [he]) (by rw [he])
    intro x hx
    have hxa : x ≠ a := fun hh => hx (hh ▸ ha)
    rw [he]
    simp [Function.update_noteq hxa]
  · intro fuel ws h r l hr hl hin
    obtain ⟨-, hf, -⟩ := start_sense_props fuel s ws h r hr
    obtain ⟨l', hl', hout⟩ := start_sense_tv_frame fuel s ws h r hr
    have hll : l' = l := List.append_cancel_left (hl'.symm.trans hl)
    subst hll
    apply init_parse_tv_eq s r.1 P hf.word_instances hf.word_senses
    intro x hx
    exact hout x (fun hxl => hx (hin x hxl))

theorem start_sense_rank_calls_head (fuel : Nat) (s : State) (ws h : Handle)
    (r : State × Bool) (hconn : ¬ edge_weight_sum s h < 1 / 10 ^ 10)
    (hr : start_sense fuel s ws h = some r) :
    ∃ l, rank_calls r.1.trace = rank_calls s.trace ++ h :: l := by
  rw [start_sense_connected _ _ _ _ hconn] at hr
  split at hr
  · cases hr
  · rename_i s3 hw
    cases hr
    obtain ⟨-, -, l, hl⟩ := walk_loop_props fuel _ _ _ hw
    refine ⟨l, ?_⟩
    rw [hl]; simp [rank_calls, walk_start]

theorem two_node_sense_links (c : ℚ) : parse_sense_links (two_node c) 30 = [1, 2] := by
  simp [parse_sense_links, two_node, SenseRank]

/-- Witness for C18: on the two-sense graph, other scores on the senses `1`
and `2` and another accumulator are wiped, and so is the effect of a walk from
sense `1`. -/
theorem init_parse_idempotent_witness :
    init_parse
        { two_node 7 with
          tv := fun h => if h = 1 ∨ h = 2 then ⟨1 / 4, 1 / 5⟩ else (two_node 7).tv h
          converge := 1 / 2 } 30 =
      init_parse (two_node 7) 30 ∧
    ∃ r, start_sense 1 (two_node (9 / 290)) 11 1 = some r ∧
      (init_parse r.1 30).tv = (init_parse (two_node (9 / 290)) 30).tv ∧
      (init_parse r.1 30).converge = (init_parse (two_node (9 / 290)) 30).converge := by
  constructor
  · apply (init_parse_idempotent (two_node 7) 30).1
    intro x hx
    rw [two_node_sense_links] at hx
    have h1 : x ≠ 1 := fun h => hx (h ▸ by simp)
    have h2 : x ≠ 2 := fun h => hx (h ▸ by simp)
    simp [h1, h2]
  · obtain ⟨s', hs', -, -, hlen⟩ := two_node_start_sense 0 (two_node (9 / 290)) 11 1 2
      (two_node_like _) (Or.inl ⟨rfl, rfl⟩) (fun h => absurd h (Nat.lt_irrefl 0))
      (by norm_num [two_node, SenseRank]) 1 (le_refl _)
    have hconn : ¬ edge_weight_sum (two_node (9 / 290)) 1 < 1 / 10 ^ 10 := by
      norm_num [edge_weight_sum, State.weight, two_node, SenseRank]
    obtain ⟨l, hl⟩ := start_sense_rank_calls_head 1 _ 11 1 _ hconn hs'
    have hnil : l = [] := by
      rw [hl] at hlen
      simp at hlen
      exact hlen
    subst hnil
    refine ⟨(s', false), hs', ?_⟩
    refine (init_parse_idempotent (two_node (9 / 290)) 30).2.2.2 1 11 1 (s', false) [1] hs' hl ?_
    intro x hx
    rw [two_node_sense_links]
    simp at hx
    simp [hx]

/-! ## The transition matrix -/

theorem pair_weight_of_nodup (s : State) (b e : Handle) (l : List (Handle × Handle))
    (hnd : (l.map Prod.fst).Nodup) (hmem : (b, e) ∈ l) :
    ((l.filter (fun p => p.1 = b)).map (fun p => s.weight p.2)).sum = s.weight e := by
  induction l with
  | nil => simp at hmem
  | cons x xs ih =>
    rw [List.map_cons, List.nodup_cons] at hnd
    obtain ⟨hx, hnd'⟩ := hnd
    rcases List.mem_cons.mp hmem with hxe | hin
    · subst hxe
      have hnone : xs.filter (fun p => p.1 = b) = [] := by
        rw [List.filter_eq_nil_iff]
        intro p hp hpb
        apply hx
        simp only [decide_eq_true_eq] at hpb
        exact List.mem_map.mpr ⟨p, hp, hpb⟩
      simp [List.filter_cons, hnone]
    · have hxb : x.1 ≠ b := by
        intro hh
        apply hx
        exact List.mem_map.mpr ⟨(b, e), hin, hh.symm⟩
      simp only [List.filter_cons, hxb, decide_False, Bool.false_eq_true, if_false]
      exact ih hnd' hin

/-- C16: the normalised weights form a column-stochastic matrix.  In a graph
with at most one edge per ordered pair of senses whose edge lists are
symmetric (`b` is in the edge list of `a` with weight `w` exactly when `a` is
in the edge list of `b` with weight `w`), for every sense `b` with
`edge_sum b > 0`: the senses `a` adjacent to `b` are those of the edge list of
`b`, and the sum over them of `t_ab = w_ab / edge_sum b` is 1.  These `t_ab`
are the coefficients of the rank update: the neighbour sum of `rank_sense a`
is the sum over the edge list of `a` of `t_ab * mean b`. -/
theorem transition_column_sum (s : State) (b : Handle)
    (hsimple : ∀ a, ((s.sense_edges a).map Prod.fst).Nodup)
    (hsym : ∀ a c w, (∃ e, (c, e) ∈ s.sense_edges a ∧ s.weight e = w) ↔
      (∃ e, (a, e) ∈ s.sense_edges c ∧ s.weight e = w))
    (hpos : 0 < edge_weight_sum s b) :
    (∀ a, b ∈ (s.sense_edges a).map Prod.fst ↔ a ∈ (s.sense_edges b).map Prod.fst) ∧
    (((s.sense_edges b).map Prod.fst).map (fun a => transition s a b)).sum = 1 ∧
    (∀ a, rank_sum_spec s a =
      ((s.sense_edges a).map (fun p => transition s a p.1 * (s.tv p.1).mean)).sum) := by
  refine ⟨?_, ?_, ?_⟩
  · intro a
    constructor
    · intro h
      obtain ⟨p, hp, hpb⟩ := List.mem_map.mp h
      obtain ⟨e, he, -⟩ := (hsym a b (s.weight p.2)).mp ⟨p.2, by rw [← hpb]; exact hp, rfl⟩
      exact List.mem_map.mpr ⟨(a, e), he, rfl⟩
    · intro h
      obtain ⟨p, hp, hpa⟩ := List.mem_map.mp h
      obtain ⟨e, he, -⟩ := (hsym a b (s.weight p.2)).mpr ⟨p.2, by rw [← hpa]; exact hp, rfl⟩
      exact List.mem_map.mpr ⟨(b, e), he, rfl⟩
  · have hterm : ∀ p ∈ s.sense_edges b,
        transition s p.1 b = s.weight p.2 * (edge_weight_sum s b)⁻¹ := by
      intro p hp
      obtain ⟨e, he, hw⟩ := (hsym p.1 b (s.weight p.2)).mpr ⟨p.2, hp, rfl⟩
      unfold transition pair_weight
      rw [pair_weight_of_nodup s b e _ (hsimple p.1) he, hw, div_eq_mul_inv]
    rw [List.map_map]
    have hmap : (s.sense_edges b).map ((fun a => transition s a b) ∘ Prod.fst) =
        (s.sense_edges b).map (fun p => s.weight p.2 * (edge_weight_sum s b)⁻¹) :=
      List.map_congr_left (fun p hp => hterm p hp)
    rw [hmap, List.sum_map_mul_right]
    exact mul_inv_cancel₀ (ne_of_gt hpos)
  · intro a
    unfold rank_sum_spec
    apply congrArg
    apply List.map_congr_left
    intro p hp
    unfold transition pair_weight
    rw [pair_weight_of_nodup s p.1 p.2 _ (hsimple a) hp]

theorem two_node_edges_cases (c : ℚ) (a : Handle) (p : Handle × Handle)
    (hp : p ∈ (two_node c).sense_edges a) : (a = 1 ∧ p = (2, 3)) ∨ (a = 2 ∧ p = (1, 3)) := by
  simp only [two_node, SenseRank] at hp
  split at hp
  · rename_i h1
    simp at hp
    exact Or.inl ⟨h1, hp⟩
  · split at hp
    · rename_i h2
      simp at hp
      exact Or.inr ⟨h2, hp⟩
    · simp at hp

/-- Witness for C16: the symmetric two-sense graph, column of sense `2`. -/
theorem transition_column_sum_witness :
    ((((two_node 1).sense_edges 2).map Prod.fst).map
      (fun a => transition (two_node 1) a 2)).sum = 1 := by
  refine (transition_column_sum (two_node 1) 2 ?_ ?_ ?_).2.1
  · intro a
    simp only [two_node, SenseRank]
    split
    · simp
    · split <;> simp
  · intro a c w
    constructor
    · rintro ⟨e, he, hw⟩
      rcases two_node_edges_cases 1 a (c, e) he with ⟨rfl, h⟩ | ⟨rfl, h⟩
      · cases h
        exact ⟨3, by simp [two_node, SenseRank], hw⟩
      · cases h
        exact ⟨3, by simp [two_node, SenseRank], hw⟩
    · rintro ⟨e, he, hw⟩
      rcases two_node_edges_cases 1 c (a, e) he with ⟨rfl, h⟩ | ⟨rfl, h⟩
      · cases h
        exact ⟨3, by simp [two_node, SenseRank], hw⟩
      · cases h
        exact ⟨3, by simp [two_node, SenseRank], hw⟩
  · norm_num [edge_weight_sum, State.weight, two_node, SenseRank]

/-! ## Non-zero normalisers along a walk -/

theorem foreach_random_sum_next_mem (l : List (Handle × Handle)) :
    ∀ (s : State), l ≠ [] →
      (foreach_visit (fun st p => random_sum st p.1 p.2) l s).1.next_sense ∈ l.map Prod.fst := by
  induction l with
  | nil => intro s h; exact absurd rfl h
  | cons x xs ih =>
    intro s _
    cases hb : (random_sum s x.1 x.2).2 with
    | true =>
      rw [foreach_visit_cons_true _ _ _ _ hb, random_sum_fst]
      simp
    | false =>
      rw [foreach_visit_cons_false _ _ _ _ hb]
      by_cases hxs : xs = []
      · subst hxs
        rw [foreach_visit_nil, random_sum_fst]
        simp
      · exact List.mem_cons_of_mem _ (ih _ hxs)

/-- With a non-empty edge list, `pick_random_edge` returns the target of one
of the edges of the list. -/
theorem pick_random_edge_mem (s : State) (h : Handle) (hne : s.sense_edges h ≠ []) :
    (pick_random_edge s h).2 ∈ (s.sense_edges h).map Prod.fst := by
  rw [pick_random_edge_eq]
  exact foreach_random_sum_next_mem _ _ hne

theorem weight_le_edge_weight_sum (s : State) (b : Handle) (p : Handle × Handle)
    (hpos : ∀ q ∈ s.sense_edges b, 0 < s.weight q.2) (hp : p ∈ s.sense_edges b) :
    s.weight p.2 ≤ edge_weight_sum s b := by
  unfold edge_weight_sum
  apply List.single_le_sum
  · intro x hx
    obtain ⟨q, hq, rfl⟩ := List.mem_map.mp hx
    exact (hpos q hq).le
  · exact List.mem_map.mpr ⟨p, hp, rfl⟩

/-- Along a walk in a symmetric graph with positive weights, every sense that
is ranked has a non-empty edge list of positive total weight, and no edge
weight changes. -/
theorem walk_loop_normalisers (s0 : State)
    (hsym : ∀ a c w, (∃ e, (c, e) ∈ s0.sense_edges a ∧ s0.weight e = w) ↔
      (∃ e, (a, e) ∈ s0.sense_edges c ∧ s0.weight e = w))
    (hposw : ∀ a, ∀ p ∈ s0.sense_edges a, 0 < s0.weight p.2)
    (hkind : ∀ a, ∀ p ∈ s0.sense_edges a, ∀ c, ∀ q ∈ s0.sense_edges c, q.2 ≠ p.1)
    (n : Nat) :
    ∀ (s : State) (h : Handle) (s' : State),
      s.sense_edges = s0.sense_edges →
      (∀ c, ∀ q ∈ s0.sense_edges c, s.weight q.2 = s0.weight q.2) →
      (∀ c, ∀ q ∈ s0.sense_edges c, q.2 ≠ h) →
      s0.sense_edges h ≠ [] →
      walk_loop n s h = some s' →
      ∃ l, rank_calls s'.trace = rank_calls s.trace ++ l ∧
        (∀ x ∈ l, s0.sense_edges x ≠ [] ∧ 0 < edge_weight_sum s0 x) ∧
        (∀ c, ∀ q ∈ s0.sense_edges c, s'.weight q.2 = s0.weight q.2) := by
  induction n with
  | zero => intro s h s' _ _ _ _ hw; simp [walk_loop] at hw
  | succ n ih =>
    intro s h s' hed hwt hnotedge hne hw
    rw [walk_loop_succ] at hw
    obtain ⟨hf, ht, -, -⟩ := walk_body_props s h
    have hgood : s0.sense_edges h ≠ [] ∧ 0 < edge_weight_sum s0 h := by
      refine ⟨hne, ?_⟩
      obtain ⟨p, hp⟩ := List.exists_mem_of_ne_nil _ hne
      exact lt_of_lt_of_le (hposw h p hp) (weight_le_edge_weight_sum s0 h p (hposw h) hp)
    have hwt1 : ∀ c, ∀ q ∈ s0.sense_edges c,
        (pick_random_edge (rank_sense s h) h).1.weight q.2 = s0.weight q.2 := by
      intro c q hq
      rw [← hwt c q hq]
      simp only [State.weight]
      rw [walk_body_tv]
      obtain ⟨e, he⟩ := rank_sense_eq s h
      rw [he]
      simp [Function.update_noteq (hnotedge c q hq)]
    have hed1 : (pick_random_edge (rank_sense s h) h).1.sense_edges = s0.sense_edges := by
      rw [hf.sense_edges, hed]
    split at hw
    · have hrs : (rank_sense s h).sense_edges h ≠ [] := by
        obtain ⟨e, he⟩ := rank_sense_eq s h
        rw [he]
        show s.sense_edges h ≠ []
        rw [hed]; exact hne
      have hmem := pick_random_edge_mem (rank_sense s h) h hrs
      have hrs2 : (rank_sense s h).sense_edges = s0.sense_edges := by
        obtain ⟨e, he⟩ := rank_sense_eq s h
        rw [he]; exact hed
      rw [hrs2] at hmem
      obtain ⟨p, hp, hpn⟩ := List.mem_map.mp hmem
      have hnext_notedge : ∀ c, ∀ q ∈ s0.sense_edges c,
          q.2 ≠ (pick_random_edge (rank_sense s h) h).2 := by
        intro c q hq
        rw [← hpn]
        exact hkind h p hp c q hq
      have hnext_ne : s0.sense_edges (pick_random_edge (rank_sense s h) h).2 ≠ [] := by
        obtain ⟨e, he, -⟩ := (hsym h p.1 (s0.weight p.2)).mp ⟨p.2, hp, rfl⟩
        rw [← hpn]
        exact List.ne_nil_of_mem he
      obtain ⟨l, hl, hgl, hwl⟩ := ih _ _ _ hed1 hwt1 hnext_notedge hnext_ne hw
      refine ⟨h :: l, ?_, ?_, hwl⟩
      · rw [hl, ht]; simp [rank_calls]
      · intro x hx
        rcases List.mem_cons.mp hx with rfl | hx
        · exact hgood
        · exact hgl x hx
    · cases hw
      refine ⟨[h], ?_, ?_, hwt1⟩
      · rw [ht]; simp [rank_calls]
      · intro x hx
        rw [List.mem_singleton.mp hx]
        exact hgood

/-- C19: only the start sense of a walk is tested against a zero normaliser,
yet the divisions are safe on well-formed graphs.  In a graph whose edge lists
are symmetric and whose edge weights are all strictly positive, for every
sense `a` and every `b` in the edge list of `a`: `edge_sum b ≥ w_ab > 0`, and
the divisor that `outer_sum` computes for this edge is that `edge_sum b`, not
zero.  Every sense ranked by a walk from a connected start (a start with a
non-empty edge list) has again a non-empty edge list of positive total weight,
and the walk changes no edge weight (senses are not edge atoms). -/
theorem divisions_safe_on_symmetric_graph (s : State)
    (hsym : ∀ a c w, (∃ e, (c, e) ∈ s.sense_edges a ∧ s.weight e = w) ↔
      (∃ e, (a, e) ∈ s.sense_edges c ∧ s.weight e = w))
    (hposw : ∀ a, ∀ p ∈ s.sense_edges a, 0 < s.weight p.2) :
    (∀ a, ∀ p ∈ s.sense_edges a,
      0 < s.weight p.2 ∧ s.weight p.2 ≤ edge_weight_sum s p.1 ∧
      (outer_sum s p.1 p.2).1.edge_sum = edge_weight_sum s p.1 ∧
      (outer_sum s p.1 p.2).1.edge_sum ≠ 0) ∧
    (∀ fuel ws h r,
      (∀ a, ∀ p ∈ s.sense_edges a, ∀ c, ∀ q ∈ s.sense_edges c, q.2 ≠ p.1) →
      (∀ c, ∀ q ∈ s.sense_edges c, q.2 ≠ h) →
      s.sense_edges h ≠ [] →
      start_sense fuel s ws h = some r →
      ∃ l, rank_calls r.1.trace = rank_calls s.trace ++ l ∧
        (∀ x ∈ l, s.sense_edges x ≠ [] ∧ 0 < edge_weight_sum s x) ∧
        (∀ c, ∀ q ∈ s.sense_edges c, r.1.weight q.2 = s.weight q.2)) := by
  have hle : ∀ a, ∀ p ∈ s.sense_edges a, s.weight p.2 ≤ edge_weight_sum s p.1 := by
    intro a p hp
    obtain ⟨e, he, hw⟩ := (hsym a p.1 (s.weight p.2)).mp ⟨p.2, hp, rfl⟩
    rw [← hw]
    exact weight_le_edge_weight_sum s p.1 (a, e) (hposw p.1) he
  constructor
  · intro a p hp
    have h1 := hposw a p hp
    have h2 := hle a p hp
    refine ⟨h1, h2, ?_, ?_⟩
    · rw [outer_sum_eq]
    · rw [outer_sum_eq]
      exact ne_of_gt (lt_of_lt_of_le h1 h2)
  · intro fuel ws h r hkind hnotedge hne hr
    rw [start_sense_eq] at hr
    split at hr
    · cases hr
      exact ⟨[], by simp [rank_calls], by simp, fun _ _ _ => rfl⟩
    · split at hr
      · cases hr
      · rename_i s3 hw
        cases hr
        obtain ⟨l, hl, hgl, hwl⟩ := walk_loop_normalisers s hsym hposw hkind fuel
          (walk_start s h) h s3 rfl (fun _ _ _ => rfl) hnotedge hne hw
        refine ⟨l, ?_, hgl, hwl⟩
        rw [hl]; simp [rank_calls, walk_start]

theorem two_node_symmetric (c : ℚ) :
    ∀ a b w, (∃ e, (b, e) ∈ (two_node c).sense_edges a ∧ (two_node c).weight e = w) ↔
      (∃ e, (a, e) ∈ (two_node c).sense_edges b ∧ (two_node c).weight e = w) := by
  intro a b w
  constructor
  · rintro ⟨e, he, hw⟩
    rcases two_node_edges_cases c a (b, e) he with ⟨rfl, h⟩ | ⟨rfl, h⟩
    · cases h
      exact ⟨3, by simp [two_node, SenseRank], hw⟩
    · cases h
      exact ⟨3, by simp [two_node, SenseRank], hw⟩
  · rintro ⟨e, he, hw⟩
    rcases two_node_edges_cases c b (a, e) he with ⟨rfl, h⟩ | ⟨rfl, h⟩
    · cases h
      exact ⟨3, by simp [two_node, SenseRank], hw⟩
    · cases h
      exact ⟨3, by simp [two_node, SenseRank], hw⟩

theorem two_node_weights_pos (c : ℚ) :
    ∀ a, ∀ p ∈ (two_node c).sense_edges a, 0 < (two_node c).weight p.2 := by
  intro a p hp
  rcases two_node_edges_cases c a p hp with ⟨-, rfl⟩ | ⟨-, rfl⟩ <;>
    norm_num [State.weight, two_node, SenseRank]

/-- Witness for C19: the symmetric two-sense graph and the walk from sense
`1`, which ranks sense `1` only and returns. -/
theorem divisions_safe_on_symmetric_graph_witness :
    (outer_sum (two_node (9 / 290)) 2 3).1.edge_sum ≠ 0 ∧
    ∃ r l, start_sense 1 (two_node (9 / 290)) 11 1 = some r ∧
      rank_calls r.1.trace = rank_calls (two_node (9 / 290)).trace ++ l ∧
      (∀ x ∈ l, (two_node (9 / 290)).sense_edges x ≠ [] ∧
        0 < edge_weight_sum (two_node (9 / 290)) x) := by
  have key := divisions_safe_on_symmetric_graph (two_node (9 / 290))
    (two_node_symmetric _) (two_node_weights_pos _)
  refine ⟨(key.1 1 (2, 3) (by simp [two_node, SenseRank])).2.2.2, ?_⟩
  obtain ⟨s', hs', -⟩ := two_node_start_sense 0 (two_node (9 / 290)) 11 1 2
    (two_node_like _) (Or.inl ⟨rfl, rfl⟩) (fun h => absurd h (Nat.lt_irrefl 0))
    (by norm_num [two_node, SenseRank]) 1 (le_refl _)
  obtain ⟨l, hl, hgl, -⟩ := key.2 1 11 1 (s', false)
    (by
      intro a p hp c q hq
      rcases two_node_edges_cases _ a p hp with ⟨-, rfl⟩ | ⟨-, rfl⟩ <;>
        rcases two_node_edges_cases _ c q hq with ⟨-, rfl⟩ | ⟨-, rfl⟩ <;> decide)
    (by
      intro c q hq
      rcases two_node_edges_cases _ c q hq with ⟨-, rfl⟩ | ⟨-, rfl⟩ <;> decide)
    (by simp [two_node, SenseRank])
    hs'
  exact ⟨(s', false), l, hs', hl, hgl⟩

/-! ## Walks over stationary senses -/

/-- A pass over a stationary sense changes no truth value and multiplies the
accumulator by `1 - convergence_damper`. -/
theorem stationary_pass (s : State) (a : Handle) (h : Stationary s a) :
    (pick_random_edge (rank_sense s a) a).1.tv = s.tv ∧
      (pick_random_edge (rank_sense s a) a).1.converge =
        s.converge * (1 - s.convergence_damper) := by
  obtain ⟨-, -, -, hc⟩ := walk_body_props s a
  obtain ⟨e, he⟩ := rank_sense_eq s a
  unfold Stationary at h
  constructor
  · rw [walk_body_tv, he]
    funext x
    by_cases hx : x = a
    · subst hx
      cases hv : s.tv x with
      | mk m c =>
        rw [hv] at h
        simp only at h
        simp [← h]
    · simp [Function.update_noteq hx]
  · rw [hc, he]
    simp [← h]

theorem rank_sum_spec_congr (s t : State) (a : Handle) (htv : t.tv = s.tv)
    (hed : t.sense_edges = s.sense_edges) : rank_sum_spec t a = rank_sum_spec s a := by
  simp [rank_sum_spec, edge_weight_sum, State.weight, htv, hed]

theorem pick_random_edge_single (s : State) (h b e : Handle)
    (hed : s.sense_edges h = [(b, e)]) : (pick_random_edge s h).2 = b := by
  have hmem := pick_random_edge_mem s h (by rw [hed]; simp)
  rw [hed] at hmem
  simpa using hmem

/-- A walk over a set `R` of stationary senses with one edge each (to
`nxt x`): it changes no truth value, multiplies the accumulator by
`q = 1 - convergence_damper` at every pass, follows `nxt`, and returns after
exactly `n + 1` passes when `n + 1` is the first number of passes after which
the accumulator is at most the limit. -/
theorem stationary_walk (nxt : Handle → Handle) (R : Handle → Prop) (s0 : State)
    (hR : ∀ x, R x → Stationary s0 x ∧ (∃ e, s0.sense_edges x = [(nxt x, e)]) ∧ R (nxt x))
    (hq0 : 0 < 1 - s0.convergence_damper) (hq1 : 1 - s0.convergence_damper ≤ 1)
    (hL : 0 ≤ s0.convergence_limit) (n : Nat) :
    ∀ (s : State) (a : Handle), R a → s.tv = s0.tv → Frame s0 s →
      (0 < n → s0.convergence_limit < s.converge * (1 - s0.convergence_damper) ^ n) →
      s.converge * (1 - s0.convergence_damper) ^ (n + 1) ≤ s0.convergence_limit →
      ∀ fuel, n + 1 ≤ fuel →
        ∃ s', walk_loop fuel s a = some s' ∧ s'.tv = s0.tv ∧ Frame s0 s' ∧
          s'.converge = s.converge * (1 - s0.convergence_damper) ^ (n + 1) ∧
          s'.rand_pos = s.rand_pos + (n + 1) ∧
          rank_calls s'.trace = rank_calls s.trace ++ List.iterate nxt a (n + 1) ∧
          start_calls s'.trace = start_calls s.trace := by
  induction n with
  | zero =>
    intro s a ha htv hf _ hle fuel hfuel
    obtain ⟨hst0, ⟨e, hed⟩, -⟩ := hR a ha
    have hst : Stationary s a := by
      unfold Stationary at hst0 ⊢
      rw [htv, rank_sum_spec_congr s0 s a htv hf.sense_edges, hf.damping_factor]
      exact hst0
    obtain ⟨htv1, hc1⟩ := stationary_pass s a hst
    obtain ⟨hf1, ht1, hp1, -⟩ := walk_body_props s a
    obtain ⟨m, rfl⟩ : ∃ m, fuel = m + 1 := ⟨fuel - 1, by omega⟩
    refine ⟨(pick_random_edge (rank_sense s a) a).1, ?_, ?_, hf.trans hf1, ?_, hp1, ?_, ?_⟩
    · rw [walk_loop_succ, if_neg]
      rw [hf1.convergence_limit, hf.convergence_limit, hc1, hf.convergence_damper]
      simpa using hle
    · rw [htv1, htv]
    · rw [hc1, hf.convergence_damper]; simp
    · rw [ht1]; simp [rank_calls, List.iterate]
    · rw [ht1]; simp [start_calls]
  | succ n ih =>
    intro s a ha htv hf hgt hle fuel hfuel
    obtain ⟨hst0, ⟨e, hed⟩, hnxt⟩ := hR a ha
    have hst : Stationary s a := by
      unfold Stationary at hst0 ⊢
      rw [htv, rank_sum_spec_congr s0 s a htv hf.sense_edges, hf.damping_factor]
      exact hst0
    obtain ⟨htv1, hc1⟩ := stationary_pass s a hst
    obtain ⟨hf1, ht1, hp1, -⟩ := walk_body_props s a
    obtain ⟨m, rfl⟩ : ∃ m, fuel = m + 1 := ⟨fuel - 1, by omega⟩
    have hgt' := hgt (Nat.succ_pos n)
    have hpow : 0 < (1 - s0.convergence_damper) ^ (n + 1) := pow_pos hq0 _
    have hpown : 0 < (1 - s0.convergence_damper) ^ n := pow_pos hq0 _
    have hcpos : 0 < s.converge := by
      by_contra hc
      have : s.converge * (1 - s0.convergence_damper) ^ (n + 1) ≤ 0 :=
        mul_nonpos_of_nonpos_of_nonneg (not_lt.mp hc) hpow.le
      linarith
    have hpow1 : (1 - s0.convergence_damper) ^ n ≤ 1 := pow_le_one₀ hq0.le hq1
    have hnext : (pick_random_edge (rank_sense s a) a).2 = nxt a := by
      apply pick_random_edge_single _ _ _ e
      obtain ⟨e', he'⟩ := rank_sense_eq s a
      rw [he']
      show s.sense_edges a = _
      rw [hf.sense_edges]; exact hed
    have hcq : s.converge * (1 - s0.convergence_damper) ^ (n + 1) ≤
        s.converge * (1 - s0.convergence_damper) := by
      rw [pow_succ]
      have := mul_le_mul_of_nonneg_left hpow1 (mul_nonneg hcpos.le hq0.le)
      nlinarith
    have hcont : (pick_random_edge (rank_sense s a) a).1.convergence_limit <
        (pick_random_edge (rank_sense s a) a).1.converge := by
      rw [hf1.convergence_limit, hf.convergence_limit, hc1, hf.convergence_damper]
      linarith
    obtain ⟨s', hw, htv', hf', hc', hp', hl', hs'⟩ :=
      ih (pick_random_edge (rank_sense s a) a).1 (nxt a) hnxt (by rw [htv1, htv])
        (hf.trans hf1)
        (by intro _; rw [hc1, hf.convergence_damper]; rw [pow_succ] at hgt'; linarith)
        (by
          rw [hc1, hf.convergence_damper]
          have : s.converge * (1 - s0.convergence_damper) ^ (n + 1 + 1) =
              s.converge * (1 - s0.convergence_damper) *
                (1 - s0.convergence_damper) ^ (n + 1) := by ring
          rw [← this]; exact hle)
        m (by omega)
    refine ⟨s', ?_, htv', hf', ?_, ?_, ?_, ?_⟩
    · rw [walk_loop_succ, if_pos hcont, hnext]
      exact hw
    · rw [hc', hc1, hf.convergence_damper]; ring
    · rw [hp', hp1]; omega
    · rw [hl', ht1]
      simp [rank_calls, List.iterate]
    · rw [hs', ht1]; simp [start_calls]

theorem edge_weight_sum_congr (s t : State) (a : Handle) (htv : t.tv = s.tv)
    (hed : t.sense_edges = s.sense_edges) : edge_weight_sum t a = edge_weight_sum s a := by
  simp [edge_weight_sum, State.weight, htv, hed]

/-- A call of `start_sense` on a connected sense of a set of stationary
single-edge senses: the walk of `stationary_walk`, after the guard. -/
theorem stationary_start_sense (nxt : Handle → Handle) (R : Handle → Prop) (s0 : State)
    (hR : ∀ x, R x → Stationary s0 x ∧ (∃ e, s0.sense_edges x = [(nxt x, e)]) ∧ R (nxt x))
    (hq0 : 0 < 1 - s0.convergence_damper) (hq1 : 1 - s0.convergence_damper ≤ 1)
    (hL : 0 ≤ s0.convergence_limit) (n : Nat)
    (s : State) (ws a : Handle) (ha : R a) (htv : s.tv = s0.tv) (hf : Frame s0 s)
    (hconn : ¬ edge_weight_sum s0 a < 1 / 10 ^ 10)
    (hgt : 0 < n → s0.convergence_limit < s.converge * (1 - s0.convergence_damper) ^ n)
    (hle : s.converge * (1 - s0.convergence_damper) ^ (n + 1) ≤ s0.convergence_limit)
    (fuel : Nat) (hfuel : n + 1 ≤ fuel) :
    ∃ s', start_sense fuel s ws a = some (s', false) ∧ s'.tv = s0.tv ∧ Frame s0 s' ∧
      s'.converge = s.converge * (1 - s0.convergence_damper) ^ (n + 1) ∧
      s'.rand_pos = s.rand_pos + (n + 1) ∧
      rank_calls s'.trace = rank_calls s.trace ++ List.iterate nxt a (n + 1) ∧
      start_calls s'.trace = start_calls s.trace ++ [a] := by
  have hconn' : ¬ edge_weight_sum s a < 1 / 10 ^ 10 := by
    rw [edge_weight_sum_congr s0 s a htv hf.sense_edges]; exact hconn
  have hfs : Frame s0 (walk_start s a) :=
    ⟨hf.sense_edges, hf.word_senses, hf.word_instances, hf.parses, hf.RAND_MAX, hf.rand_seq,
      hf.damping_factor, hf.convergence_damper, hf.convergence_limit, hf.confidence⟩
  obtain ⟨s', hw, htv', hf', hc', hp', hl', hs'⟩ :=
    stationary_walk nxt R s0 hR hq0 hq1 hL n (walk_start s a) a ha htv hfs hgt hle fuel hfuel
  refine ⟨s', ?_, htv', hf', hc', hp', ?_, ?_⟩
  · rw [start_sense_connected _ _ _ _ hconn', hw]
  · rw [hl']; simp [rank_calls, walk_start]
  · rw [hs']; simp [start_calls, walk_start]

/-! ## The symmetric pair from a fresh initialisation -/

/-- C11 (as stated, refuted): on the two-sense graph freshly initialised by
`init_parse`, with the constructor's parameters, the walk from sense `1`
returns only after 104 rank updates, 52 on sense `1` and 52 on sense `2`. -/
theorem fresh_pair_walk_is_long :
    ∃ s', start_sense 104 (init_parse unranked 30) 11 1 = some (s', false) ∧
      (rank_calls s'.trace).count 1 = 52 ∧ (rank_calls s'.trace).count 2 = 52 := by
  obtain ⟨hs, hc⟩ := init_parse_unranked_like
  have hR : ∀ x, (x = 1 ∨ x = 2) →
      Stationary (init_parse unranked 30) x ∧
      (∃ e, (init_parse unranked 30).sense_edges x = [((fun y => if y = 1 then 2 else 1) x, e)]) ∧
      ((fun y => if y = 1 then 2 else 1) x = 1 ∨ (fun y => if y = 1 then 2 else 1) x = 2) := by
    intro x hx
    rcases hx with rfl | rfl
    · refine ⟨?_, ⟨3, hs.e1⟩, Or.inr rfl⟩
      unfold Stationary
      rw [rank_sum_spec_single _ 1 2 3 3 hs.e1 hs.e2 hs.w3 hs.w3 (by rw [hs.tv2]), hs.tv1]
      ring
    · refine ⟨?_, ⟨3, hs.e2⟩, Or.inl rfl⟩
      unfold Stationary
      rw [rank_sum_spec_single _ 2 1 3 3 hs.e2 hs.e1 hs.w3 hs.w3 (by rw [hs.tv1]), hs.tv2]
      ring
  obtain ⟨s', hw, -, -, -, -, hl, -⟩ :=
    stationary_start_sense (fun y => if y = 1 then 2 else 1) (fun x => x = 1 ∨ x = 2)
      (init_parse unranked 30) hR (by rw [hs.damper]; norm_num) (by rw [hs.damper]; norm_num)
      (by rw [hs.limit]; norm_num) 103 (init_parse unranked 30) 11 1 (Or.inl rfl) rfl
      (Frame.refl _)
      (by simp [edge_weight_sum, hs.e1, hs.w3]; norm_num)
      (by intro _; rw [hs.limit, hs.damper, hc]; norm_num)
      (by rw [hs.limit, hs.damper, hc]; norm_num) 104 (le_refl _)
  have htr : rank_calls (init_parse unranked 30).trace = [] := by
    obtain ⟨tv', he, -, -⟩ := init_parse_eq unranked 30
    rw [he]
    rfl
  rw [htr, List.nil_append] at hl
  refine ⟨s', hw, ?_, ?_⟩
  · rw [hl]; rfl
  · rw [hl]; rfl

/-- C11 (amended): on the symmetric two-sense graph (the edge list of `A` is
`[(B, 1)]`, that of `B` is `[(A, 1)]`) with both means 1, accumulator 1 and
the constructor's damper 1/30 and limit 3/100, every update has delta 0, so
the accumulator only decays by 29/30 per update: `start_sense` on `A` returns
(given fuel for 104 passes) after exactly 104 rank updates, alternately on `A`
and `B`, with no truth value changed and the accumulator at `(29/30)^104`. -/
theorem fresh_pair_walk (s : State) (ws A B eAB eBA : Handle)
    (hA : s.sense_edges A = [(B, eAB)]) (hB : s.sense_edges B = [(A, eBA)])
    (hwA : s.weight eAB = 1) (hwB : s.weight eBA = 1)
    (hmA : (s.tv A).mean = 1) (hmB : (s.tv B).mean = 1)
    (hd : s.convergence_damper = 1 / 30) (hl : s.convergence_limit = 3 / 100)
    (hc : s.converge = 1) (fuel : Nat) (hfuel : 104 ≤ fuel) :
    ∃ s', start_sense fuel s ws A = some (s', false) ∧
      rank_calls s'.trace =
        rank_calls s.trace ++ List.iterate (fun x => if x = A then B else A) A 104 ∧
      s'.tv = s.tv ∧ s'.converge = (29 / 30) ^ 104 ∧
      s'.converge ≤ s.convergence_limit ∧ s.convergence_limit < (29 / 30) ^ 103 := by
  have hR : ∀ x, (x = A ∨ x = B) →
      Stationary s x ∧
      (∃ e, s.sense_edges x = [((fun y => if y = A then B else A) x, e)]) ∧
      ((fun y => if y = A then B else A) x = A ∨ (fun y => if y = A then B else A) x = B) := by
    intro x hx
    by_cases hxA : x = A
    · subst hxA
      refine ⟨?_, ⟨eAB, by simpa using hA⟩, Or.inr (by simp)⟩
      unfold Stationary
      rw [rank_sum_spec_single _ x B eAB eBA hA hB hwA hwB hmB, hmA]
      ring
    · have hxB : x = B := hx.resolve_left hxA
      subst hxB
      refine ⟨?_, ⟨eBA, by simpa [hxA] using hB⟩, Or.inl (by simp [hxA])⟩
      unfold Stationary
      rw [rank_sum_spec_single _ x A eBA eAB hB hA hwB hwA hmA, hmB]
      ring
  obtain ⟨s', hw, htv, -, hc', -, hl', -⟩ :=
    stationary_start_sense (fun y => if y = A then B else A) (fun x => x = A ∨ x = B)
      s hR (by rw [hd]; norm_num) (by rw [hd]; norm_num)
      (by rw [hl]; norm_num) 103 s ws A (Or.inl rfl) rfl (Frame.refl _)
      (by simp [edge_weight_sum, hA, hwA]; norm_num)
      (by intro _; rw [hl, hd, hc]; norm_num)
      (by rw [hl, hd, hc]; norm_num) fuel hfuel
  have hval : s'.converge = (29 / 30) ^ 104 := by
    rw [hc', hd, hc]; norm_num
  refine ⟨s', hw, hl', htv, hval, ?_, ?_⟩
  · rw [hval, hl]; norm_num
  · rw [hl]; norm_num

/-- Witness for C11 (amended): the two-sense graph after `init_parse`. -/
theorem fresh_pair_walk_witness :
    ∃ s', start_sense 104 (init_parse unranked 30) 11 1 = some (s', false) ∧
      s'.tv = (init_parse unranked 30).tv ∧ s'.converge = (29 / 30) ^ 104 := by
  obtain ⟨hs, hc⟩ := init_parse_unranked_like
  obtain ⟨s', hw, -, htv, hc', -⟩ := fresh_pair_walk (init_parse unranked 30) 11 1 2 3 3
    hs.e1 hs.e2 hs.w3 hs.w3 (by rw [hs.tv1]) (by rw [hs.tv2]) hs.damper hs.limit hc
    104 (le_refl _)
  exact ⟨s', hw, htv, hc'⟩

/-! ## Passes on the two-component graph -/

theorem walk_body_tv_eq (s : State) (a : Handle) :
    (pick_random_edge (rank_sense s a) a).1.tv =
      Function.update s.tv a
        ⟨rank_sum_spec s a * s.damping_factor + (1 - s.damping_factor),
          (s.tv a).confidence⟩ := by
  rw [walk_body_tv]
  obtain ⟨e, he⟩ := rank_sense_eq s a
  rw [he]

theorem two_parses_spec (x4 x5 : ℚ) :
    rank_sum_spec (two_parses x4 x5) 1 = 1 ∧ rank_sum_spec (two_parses x4 x5) 2 = 1 ∧
    rank_sum_spec (two_parses x4 x5) 4 = x5 ∧
    rank_sum_spec (two_parses x4 x5) 5 = x4 / 2 + 29 / 50 ∧
    rank_sum_spec (two_parses x4 x5) 6 = 1 := by
  refine ⟨?_, ?_, ?_, ?_, ?_⟩
  · norm_num [rank_sum_spec, edge_weight_sum, State.weight, two_parses, SenseRank]
  · norm_num [rank_sum_spec, edge_weight_sum, State.weight, two_parses, SenseRank]
  · norm_num [rank_sum_spec, edge_weight_sum, State.weight, two_parses, SenseRank]
  · norm_num [rank_sum_spec, edge_weight_sum, State.weight, two_parses, SenseRank]
    ring
  · norm_num [rank_sum_spec, edge_weight_sum, State.weight, two_parses, SenseRank]

theorem two_parses_like_spec (s : State) (x4 x5 : ℚ) (hs : TwoParsesLike s x4 x5)
    (a : Handle) : rank_sum_spec s a = rank_sum_spec (two_parses x4 x5) a :=
  rank_sum_spec_congr (two_parses x4 x5) s a hs.tv hs.frame.sense_edges

/-- One pass on the two-component graph: what it stores and what it leaves. -/
theorem two_parses_pass (s : State) (x4 x5 : ℚ) (a : Handle) (hs : TwoParsesLike s x4 x5) :
    (pick_random_edge (rank_sense s a) a).1.tv =
        Function.update (two_parses x4 x5).tv a
          ⟨rank_sum_spec (two_parses x4 x5) a * (9 / 10) + 1 / 10,
            ((two_parses x4 x5).tv a).confidence⟩ ∧
      (pick_random_edge (rank_sense s a) a).1.converge =
        s.converge * (29 / 30) +
          1 / 30 * |rank_sum_spec (two_parses x4 x5) a * (9 / 10) + 1 / 10 -
            ((two_parses x4 x5).tv a).mean| ∧
      Frame (two_parses 1 1) (pick_random_edge (rank_sense s a) a).1 ∧
      (pick_random_edge (rank_sense s a) a).1.rand_pos = s.rand_pos + 1 ∧
      (pick_random_edge (rank_sense s a) a).1.trace =
        s.trace ++ [Call.rank_sense a, Call.pick_random_edge a] := by
  obtain ⟨hf, ht, hp, -⟩ := walk_body_props s a
  have hd : s.damping_factor = 9 / 10 := by
    rw [hs.frame.damping_factor]; norm_num [two_parses, SenseRank]
  have hα : s.convergence_damper = 1 / 30 := by
    rw [hs.frame.convergence_damper]; norm_num [two_parses, SenseRank]
  refine ⟨?_, ?_, hs.frame.trans hf, hp, ht⟩
  · rw [walk_body_tv_eq, two_parses_like_spec s x4 x5 hs, hs.tv, hd]
    norm_num
  · rw [walk_body_converge, two_parses_like_spec s x4 x5 hs, hs.tv, hd, hα]
    norm_num

theorem two_parses_update_4 (x4 x5 y : ℚ) :
    Function.update (two_parses x4 x5).tv 4 ⟨y, ((two_parses x4 x5).tv 4).confidence⟩ =
      (two_parses y x5).tv := by
  funext h
  by_cases h4 : h = 4
  · subst h4; simp [two_parses, SenseRank]
  · simp [Function.update_noteq h4, two_parses, SenseRank, h4]

theorem two_parses_update_5 (x4 x5 y : ℚ) :
    Function.update (two_parses x4 x5).tv 5 ⟨y, ((two_parses x4 x5).tv 5).confidence⟩ =
      (two_parses x4 y).tv := by
  funext h
  by_cases h5 : h = 5
  · subst h5; simp [two_parses, SenseRank]
  · simp [Function.update_noteq h5, two_parses, SenseRank, h5]

theorem two_parses_update_prior (x4 x5 : ℚ) (a : Handle) (ha : a = 1 ∨ a = 2 ∨ a = 6) :
    Function.update (two_parses x4 x5).tv a ⟨1, ((two_parses x4 x5).tv a).confidence⟩ =
      (two_parses x4 x5).tv := by
  funext h
  by_cases hh : h = a
  · subst hh
    rcases ha with rfl | rfl | rfl <;> simp [two_parses, SenseRank]
  · simp [Function.update_noteq hh]

theorem two_parses_like_edges (s : State) (x4 x5 : ℚ) (hs : TwoParsesLike s x4 x5)
    (a : Handle) :
    (rank_sense s a).sense_edges = (two_parses 1 1).sense_edges := by
  obtain ⟨e, he⟩ := rank_sense_eq s a
  rw [he]
  exact hs.frame.sense_edges

/-- Where the walk goes from the senses with one edge. -/
theorem two_parses_next_single (s : State) (x4 x5 : ℚ) (hs : TwoParsesLike s x4 x5) :
    (pick_random_edge (rank_sense s 1) 1).2 = 2 ∧
    (pick_random_edge (rank_sense s 2) 2).2 = 1 ∧
    (pick_random_edge (rank_sense s 4) 4).2 = 5 ∧
    (pick_random_edge (rank_sense s 6) 6).2 = 6 := by
  refine ⟨?_, ?_, ?_, ?_⟩
  · exact pick_random_edge_single _ 1 2 3 (by rw [two_parses_like_edges s x4 x5 hs]; rfl)
  · exact pick_random_edge_single _ 2 1 3 (by rw [two_parses_like_edges s x4 x5 hs]; rfl)
  · exact pick_random_edge_single _ 4 5 7 (by rw [two_parses_like_edges s x4 x5 hs]; rfl)
  · exact pick_random_edge_single _ 6 6 10 (by rw [two_parses_like_edges s x4 x5 hs]; rfl)

/-- Where the walk goes from sense `5`: to `4` on a draw of 0, to `6` on the
fourth draw of a period. -/
theorem two_parses_next_5 (s : State) (x4 x5 : ℚ) (hs : TwoParsesLike s x4 x5) :
    (s.rand_pos % 105 ≠ 3 → (pick_random_edge (rank_sense s 5) 5).2 = 4) ∧
    (s.rand_pos % 105 = 3 → (pick_random_edge (rank_sense s 5) 5).2 = 6) := by
  obtain ⟨e, he⟩ := rank_sense_eq s 5
  have hed : (rank_sense s 5).sense_edges 5 = [(4, 8), (6, 9)] := by
    rw [two_parses_like_edges s x4 x5 hs]; rfl
  have hw : ∀ x, x ≠ 5 → (rank_sense s 5).weight x = (two_parses x4 x5).weight x := by
    intro x hx
    simp only [State.weight]
    rw [he]
    simp only [Function.update_noteq hx]
    rw [hs.tv]
  have hw8 : (rank_sense s 5).weight 8 = 1 / 2 := by
    rw [hw 8 (by decide)]; norm_num [State.weight, two_parses, SenseRank]
  have hw9 : (rank_sense s 5).weight 9 = 1 / 2 := by
    rw [hw 9 (by decide)]; norm_num [State.weight, two_parses, SenseRank]
  have hsum : edge_weight_sum (rank_sense s 5) 5 = 1 := by
    simp [edge_weight_sum, hed, hw8, hw9]; norm_num
  have hc1 : cum_weight (rank_sense s 5) 5 1 = 1 / 2 := by
    simp [cum_weight, cum_list, hed, hw8]
  have hc2 : cum_weight (rank_sense s 5) 5 2 = 1 := by
    simp [cum_weight, cum_list, hed, hw8, hw9]; norm_num
  have hdraw : random_draw (rank_sense s 5) 5 =
      ((if s.rand_pos % 105 = 3 then 1073741824 else 0 : Nat) : ℚ) / 2147483647 := by
    have h1 : (rank_sense s 5).rand_seq = (two_parses 1 1).rand_seq := by
      rw [he]; exact hs.frame.rand_seq
    have h2 : (rank_sense s 5).rand_pos = s.rand_pos := by rw [he]
    have h3 : (rank_sense s 5).RAND_MAX = 2147483647 := by
      rw [he]; exact hs.frame.RAND_MAX
    rw [random_draw, hsum, h1, h2, h3]
    simp [two_parses, SenseRank]
  constructor
  · intro hp
    have hpick := pick_random_edge_of_first_cross (rank_sense s 5) 5 0
      (by rw [hed]; simp) (fun j hj => absurd hj (Nat.not_lt_zero j))
      (by rw [hdraw, hc1]; simp [hp])
    rw [hed] at hpick
    simpa using hpick.symm
  · intro hp
    have hpick := pick_random_edge_of_first_cross (rank_sense s 5) 5 1
      (by rw [hed]; simp)
      (by
        intro j hj
        have : j = 0 := by omega
        subst this
        rw [hdraw, hc1]; simp [hp]; norm_num)
      (by rw [hdraw, hc2]; simp [hp]; norm_num)
    rw [hed] at hpick
    simpa using hpick.symm

theorem walk_loop_continue (fuel : Nat) (s : State) (h : Handle)
    (hc : (pick_random_edge (rank_sense s h) h).1.convergence_limit <
      (pick_random_edge (rank_sense s h) h).1.converge) :
    walk_loop (fuel + 1) s h =
      walk_loop fuel (pick_random_edge (rank_sense s h) h).1
        (pick_random_edge (rank_sense s h) h).2 := by
  rw [walk_loop_succ, if_pos hc]

theorem walk_loop_stop (fuel : Nat) (s : State) (h : Handle)
    (hc : (pick_random_edge (rank_sense s h) h).1.converge ≤
      (pick_random_edge (rank_sense s h) h).1.convergence_limit) :
    walk_loop (fuel + 1) s h = some (pick_random_edge (rank_sense s h) h).1 := by
  rw [walk_loop_succ, if_neg (not_lt.mpr hc)]

theorem two_parses_like_limit (s : State) (x4 x5 : ℚ) (hs : TwoParsesLike s x4 x5) :
    s.convergence_limit = 3 / 100 ∧ s.convergence_damper = 1 / 30 ∧
      s.damping_factor = 9 / 10 := by
  refine ⟨?_, ?_, ?_⟩
  · rw [hs.frame.convergence_limit]; rfl
  · rw [hs.frame.convergence_damper]; norm_num [two_parses, SenseRank]
  · rw [hs.frame.damping_factor]; norm_num [two_parses, SenseRank]

theorem two_parses_like_walk_start (s : State) (x4 x5 : ℚ) (a : Handle)
    (hs : TwoParsesLike s x4 x5) : TwoParsesLike (walk_start s a) x4 x5 :=
  ⟨hs.tv, ⟨hs.frame.sense_edges, hs.frame.word_senses, hs.frame.word_instances,
    hs.frame.parses, hs.frame.RAND_MAX, hs.frame.rand_seq, hs.frame.damping_factor,
    hs.frame.convergence_damper, hs.frame.convergence_limit, hs.frame.confidence⟩⟩

theorem two_parses_like_connected (s : State) (x4 x5 : ℚ) (a : Handle)
    (hs : TwoParsesLike s x4 x5) (ha : a = 1 ∨ a = 2 ∨ a = 4 ∨ a = 5 ∨ a = 6) :
    ¬ edge_weight_sum s a < 1 / 10 ^ 10 := by
  rw [edge_weight_sum_congr (two_parses x4 x5) s a hs.tv hs.frame.sense_edges]
  rcases ha with rfl | rfl | rfl | rfl | rfl <;>
    norm_num [edge_weight_sum, State.weight, two_parses, SenseRank]

/-- A pass on sense `4`: the new mean is `9/10 * x5 + 1/10`. -/
theorem two_parses_pass_4 (s : State) (x4 x5 : ℚ) (hs : TwoParsesLike s x4 x5) :
    TwoParsesLike (pick_random_edge (rank_sense s 4) 4).1 (9 / 10 * x5 + 1 / 10) x5 ∧
      (pick_random_edge (rank_sense s 4) 4).1.converge =
        s.converge * (29 / 30) + 1 / 30 * |9 / 10 * x5 + 1 / 10 - x4| ∧
      (pick_random_edge (rank_sense s 4) 4).1.rand_pos = s.rand_pos + 1 ∧
      (pick_random_edge (rank_sense s 4) 4).1.trace =
        s.trace ++ [Call.rank_sense 4, Call.pick_random_edge 4] ∧
      (pick_random_edge (rank_sense s 4) 4).2 = 5 := by
  obtain ⟨htv, hc, hf, hp, ht⟩ := two_parses_pass s x4 x5 4 hs
  rw [(two_parses_spec x4 x5).2.2.1] at htv hc
  refine ⟨⟨?_, hf⟩, ?_, hp, ht, (two_parses_next_single s x4 x5 hs).2.2.1⟩
  · have hm : x5 * (9 / 10) + 1 / 10 = 9 / 10 * x5 + 1 / 10 := by ring
    rw [htv, hm]
    exact two_parses_update_4 x4 x5 _
  · have hm : x5 * (9 / 10) + 1 / 10 = 9 / 10 * x5 + 1 / 10 := by ring
    have : ((two_parses x4 x5).tv 4).mean = x4 := by simp [two_parses, SenseRank]
    rw [hc, this, hm]

/-- A pass on sense `5`: the new mean is `9/10 * (x4/2 + 29/50) + 1/10`. -/
theorem two_parses_pass_5 (s : State) (x4 x5 : ℚ) (hs : TwoParsesLike s x4 x5) :
    TwoParsesLike (pick_random_edge (rank_sense s 5) 5).1 x4
        (9 / 10 * (x4 / 2 + 29 / 50) + 1 / 10) ∧
      (pick_random_edge (rank_sense s 5) 5).1.converge =
        s.converge * (29 / 30) + 1 / 30 * |9 / 10 * (x4 / 2 + 29 / 50) + 1 / 10 - x5| ∧
      (pick_random_edge (rank_sense s 5) 5).1.rand_pos = s.rand_pos + 1 ∧
      (pick_random_edge (rank_sense s 5) 5).1.trace =
        s.trace ++ [Call.rank_sense 5, Call.pick_random_edge 5] := by
  obtain ⟨htv, hc, hf, hp, ht⟩ := two_parses_pass s x4 x5 5 hs
  rw [(two_parses_spec x4 x5).2.2.2.1] at htv hc
  refine ⟨⟨?_, hf⟩, ?_, hp, ht⟩
  · have hm : (x4 / 2 + 29 / 50) * (9 / 10) + 1 / 10 =
        9 / 10 * (x4 / 2 + 29 / 50) + 1 / 10 := by ring
    rw [htv, hm]
    exact two_parses_update_5 x4 x5 _
  · have hm : (x4 / 2 + 29 / 50) * (9 / 10) + 1 / 10 =
        9 / 10 * (x4 / 2 + 29 / 50) + 1 / 10 := by ring
    have : ((two_parses x4 x5).tv 5).mean = x5 := by simp [two_parses, SenseRank]
    rw [hc, this, hm]

/-- The senses `1`, `2` and `6` are stationary whatever `x4` and `x5` are. -/
theorem two_parses_stationary (s : State) (x4 x5 : ℚ) (a : Handle)
    (hs : TwoParsesLike s x4 x5) (ha : a = 1 ∨ a = 2 ∨ a = 6) : Stationary s a := by
  unfold Stationary
  rw [two_parses_like_spec s x4 x5 hs, (two_parses_like_limit s x4 x5 hs).2.2, hs.tv]
  rcases ha with rfl | rfl | rfl
  · rw [(two_parses_spec x4 x5).1]; norm_num [two_parses, SenseRank]
  · rw [(two_parses_spec x4 x5).2.1]; norm_num [two_parses, SenseRank]
  · rw [(two_parses_spec x4 x5).2.2.2.2]; norm_num [two_parses, SenseRank]

/-- A walk over the stationary senses `1`, `2`, `6` of the two-component
graph, from inside a walk. -/
theorem two_parses_walk_stationary (s : State) (x4 x5 : ℚ) (a : Handle) (n : Nat)
    (hs : TwoParsesLike s x4 x5) (ha : a = 1 ∨ a = 2 ∨ a = 6)
    (hgt : 0 < n → 3 / 100 < s.converge * (29 / 30) ^ n)
    (hle : s.converge * (29 / 30) ^ (n + 1) ≤ 3 / 100)
    (fuel : Nat) (hfuel : n + 1 ≤ fuel) :
    ∃ s', walk_loop fuel s a = some s' ∧ TwoParsesLike s' x4 x5 ∧
      s'.converge = s.converge * (29 / 30) ^ (n + 1) ∧
      s'.rand_pos = s.rand_pos + (n + 1) := by
  obtain ⟨hl, hd, -⟩ := two_parses_like_limit s x4 x5 hs
  have hq : 1 - s.convergence_damper = 29 / 30 := by rw [hd]; norm_num
  have hR : ∀ x, (x = 1 ∨ x = 2 ∨ x = 6) →
      Stationary s x ∧
      (∃ e, s.sense_edges x = [((fun y => if y = 1 then 2 else if y = 2 then 1 else 6) x, e)]) ∧
      ((fun y => if y = 1 then 2 else if y = 2 then 1 else 6) x = 1 ∨
        (fun y => if y = 1 then 2 else if y = 2 then 1 else 6) x = 2 ∨
        (fun y => if y = 1 then 2 else if y = 2 then 1 else 6) x = 6) := by
    intro x hx
    refine ⟨two_parses_stationary s x4 x5 x hs hx, ?_, ?_⟩
    · rw [hs.frame.sense_edges]
      rcases hx with rfl | rfl | rfl
      · exact ⟨3, rfl⟩
      · exact ⟨3, rfl⟩
      · exact ⟨10, rfl⟩
    · rcases hx with rfl | rfl | rfl <;> simp
  obtain ⟨s', hw, htv, hf, hc, hp, -, -⟩ :=
    stationary_walk (fun y => if y = 1 then 2 else if y = 2 then 1 else 6)
      (fun x => x = 1 ∨ x = 2 ∨ x = 6) s hR (by rw [hq]; norm_num) (by rw [hq]; norm_num)
      (by rw [hl]; norm_num) n s a ha rfl (Frame.refl _)
      (by rw [hl, hq]; exact hgt) (by rw [hl, hq]; exact hle) fuel hfuel
  rw [hq] at hc
  exact ⟨s', hw, ⟨htv.trans hs.tv, hs.frame.trans hf⟩, hc, hp⟩

/-- A call of `start_sense` on one of the stationary senses `1`, `2`, `6`. -/
theorem two_parses_start_stationary (s : State) (x4 x5 : ℚ) (ws a : Handle) (n : Nat)
    (hs : TwoParsesLike s x4 x5) (ha : a = 1 ∨ a = 2 ∨ a = 6)
    (hgt : 0 < n → 3 / 100 < s.converge * (29 / 30) ^ n)
    (hle : s.converge * (29 / 30) ^ (n + 1) ≤ 3 / 100)
    (fuel : Nat) (hfuel : n + 1 ≤ fuel) :
    ∃ s', start_sense fuel s ws a = some (s', false) ∧ TwoParsesLike s' x4 x5 ∧
      s'.converge = s.converge * (29 / 30) ^ (n + 1) ∧
      s'.rand_pos = s.rand_pos + (n + 1) := by
  have hconn := two_parses_like_connected s x4 x5 a hs
    (by rcases ha with h | h | h <;> simp [h])
  obtain ⟨s', hw, hs', hc, hp⟩ := two_parses_walk_stationary (walk_start s a) x4 x5 a n
    (two_parses_like_walk_start s x4 x5 a hs) ha hgt hle fuel hfuel
  exact ⟨s', by rw [start_sense_connected _ _ _ _ hconn, hw], hs', hc, hp⟩

/-- A call of `start_sense` on sense `4` that stops after its first pass. -/
theorem two_parses_start_4 (s : State) (x4 x5 : ℚ) (ws : Handle) (fuel : Nat)
    (hs : TwoParsesLike s x4 x5)
    (hstop : s.converge * (29 / 30) + 1 / 30 * |9 / 10 * x5 + 1 / 10 - x4| ≤ 3 / 100) :
    ∃ s', start_sense (fuel + 1) s ws 4 = some (s', false) ∧
      TwoParsesLike s' (9 / 10 * x5 + 1 / 10) x5 ∧
      s'.converge = s.converge * (29 / 30) + 1 / 30 * |9 / 10 * x5 + 1 / 10 - x4| ∧
      s'.rand_pos = s.rand_pos + 1 := by
  have hconn := two_parses_like_connected s x4 x5 4 hs (by simp)
  obtain ⟨hs', hc, hp, -, -⟩ :=
    two_parses_pass_4 (walk_start s 4) x4 x5 (two_parses_like_walk_start s x4 x5 4 hs)
  refine ⟨_, ?_, hs', hc, hp⟩
  rw [start_sense_connected _ _ _ _ hconn, walk_loop_stop]
  rw [(two_parses_like_limit _ _ _ hs').1, hc]
  exact hstop

/-- A call of `start_sense` on sense `5` that stops after its first pass. -/
theorem two_parses_start_5 (s : State) (x4 x5 : ℚ) (ws : Handle) (fuel : Nat)
    (hs : TwoParsesLike s x4 x5)
    (hstop : s.converge * (29 / 30) +
      1 / 30 * |9 / 10 * (x4 / 2 + 29 / 50) + 1 / 10 - x5| ≤ 3 / 100) :
    ∃ s', start_sense (fuel + 1) s ws 5 = some (s', false) ∧
      TwoParsesLike s' x4 (9 / 10 * (x4 / 2 + 29 / 50) + 1 / 10) ∧
      s'.converge = s.converge * (29 / 30) +
        1 / 30 * |9 / 10 * (x4 / 2 + 29 / 50) + 1 / 10 - x5| ∧
      s'.rand_pos = s.rand_pos + 1 := by
  have hconn := two_parses_like_connected s x4 x5 5 hs (by simp)
  obtain ⟨hs', hc, hp, -⟩ :=
    two_parses_pass_5 (walk_start s 5) x4 x5 (two_parses_like_walk_start s x4 x5 5 hs)
  refine ⟨_, ?_, hs', hc, hp⟩
  rw [start_sense_connected _ _ _ _ hconn, walk_loop_stop]
  rw [(two_parses_like_limit _ _ _ hs').1, hc]
  exact hstop

/-! ## Runs on the two-component graph -/

theorem two_parses_rank_parse_30 (fuel : Nat) (s s1 s2 : State)
    (hf : Frame (two_parses 1 1) s)
    (h1 : start_sense fuel s 11 1 = some (s1, false))
    (h2 : start_sense fuel s1 12 2 = some (s2, false)) :
    rank_parse fuel s 30 = some s2 := by
  have hw : s.word_instances 30 = [20] := by rw [hf.word_instances]; rfl
  have hsn : s.word_senses 20 = [(11, 1), (12, 2)] := by rw [hf.word_senses]; rfl
  simp only [rank_parse, hw, foreach_visit_fuel, start_word, hsn, h1, h2,
    Bool.false_eq_true, if_false]

theorem two_parses_rank_parse_31 (fuel : Nat) (s s1 s2 s3 : State)
    (hf : Frame (two_parses 1 1) s)
    (h1 : start_sense fuel s 14 4 = some (s1, false))
    (h2 : start_sense fuel s1 15 5 = some (s2, false))
    (h3 : start_sense fuel s2 16 6 = some (s3, false)) :
    rank_parse fuel s 31 = some s3 := by
  have hw : s.word_instances 31 = [21] := by rw [hf.word_instances]; rfl
  have hsn : s.word_senses 21 = [(14, 4), (15, 5), (16, 6)] := by
    rw [hf.word_senses]; rfl
  simp only [rank_parse, hw, foreach_visit_fuel, start_word, hsn, h1, h2, h3,
    Bool.false_eq_true, if_false]

theorem two_parses_rank_parse_33 (fuel : Nat) (s s1 s2 s3 s4 s5 : State)
    (hf : Frame (two_parses 1 1) s) (hf2 : Frame (two_parses 1 1) s2)
    (h1 : start_sense fuel s 11 1 = some (s1, false))
    (h2 : start_sense fuel s1 12 2 = some (s2, false))
    (h3 : start_sense fuel s2 14 4 = some (s3, false))
    (h4 : start_sense fuel s3 15 5 = some (s4, false))
    (h5 : start_sense fuel s4 16 6 = some (s5, false)) :
    rank_parse fuel s 33 = some s5 := by
  have hw : s.word_instances 33 = [20, 21] := by rw [hf.word_instances]; rfl
  have hsn : s.word_senses 20 = [(11, 1), (12, 2)] := by rw [hf.word_senses]; rfl
  have hsn2 : s2.word_senses 21 = [(14, 4), (15, 5), (16, 6)] := by
    rw [hf2.word_senses]; rfl
  simp only [rank_parse, hw, foreach_visit_fuel, start_word, hsn, h1, h2, hsn2, h3, h4, h5,
    Bool.false_eq_true, if_false]

theorem two_parses_sense_links (s : State) (hf : Frame (two_parses 1 1) s) :
    parse_sense_links s 30 = [1, 2] ∧ parse_sense_links s 31 = [4, 5, 6] ∧
      parse_sense_links s 33 = [1, 2, 4, 5, 6] := by
  simp [parse_sense_links, hf.word_instances, hf.word_senses, two_parses, SenseRank]

/-- On the two-component graph with all senses at the prior, `init_parse` of
any of the three parses only resets the accumulator. -/
theorem two_parses_init (s : State) (P : Handle) (hs : TwoParsesLike s 1 1)
    (hP : P = 30 ∨ P = 31 ∨ P = 33) :
    TwoParsesLike (init_parse s P) 1 1 ∧ (init_parse s P).converge = 1 ∧
      (init_parse s P).rand_pos = s.rand_pos ∧ (init_parse s P).trace = s.trace := by
  obtain ⟨tv', he, hin, hout⟩ := init_parse_eq s P
  obtain ⟨h30, h31, h33⟩ := two_parses_sense_links s hs.frame
  have htv : tv' = (two_parses 1 1).tv := by
    funext x
    by_cases hx : x ∈ parse_sense_links s P
    · rw [hin x hx]
      rcases hP with rfl | rfl | rfl
      · rw [h30] at hx; simp at hx
        rcases hx with rfl | rfl <;> simp [two_parses, SenseRank]
      · rw [h31] at hx; simp at hx
        rcases hx with rfl | rfl | rfl <;> simp [two_parses, SenseRank]
      · rw [h33] at hx; simp at hx
        rcases hx with rfl | rfl | rfl | rfl | rfl <;> simp [two_parses, SenseRank]
    · rw [hout x hx, hs.tv]
  rw [he]
  refine ⟨⟨htv, ?_⟩, rfl, rfl, rfl⟩
  exact ⟨hs.frame.sense_edges, hs.frame.word_senses, hs.frame.word_instances,
    hs.frame.parses, hs.frame.RAND_MAX, hs.frame.rand_seq, hs.frame.damping_factor,
    hs.frame.convergence_damper, hs.frame.convergence_limit,
    fun x => by rw [htv]⟩

theorem two_parses_like_self (x4 x5 : ℚ) : TwoParsesLike (two_parses x4 x5) x4 x5 :=
  ⟨rfl, ⟨rfl, rfl, rfl, rfl, rfl, rfl, rfl, rfl, rfl, fun x => by
    simp only [two_parses, SenseRank]
    split_ifs <;> rfl⟩⟩

/-- The five walks over the senses `1`, `2`, `4`, `5`, `6`, in this order,
from the prior scores and accumulator 1: 104 passes from sense `1`, then one
pass from each other sense.  Only the pass on sense `5` changes a score. -/
theorem two_parses_five_starts (s : State) (hs : TwoParsesLike s 1 1)
    (hc : s.converge = 1) (fuel : Nat) (hfuel : 104 ≤ fuel) :
    ∃ s1 s2 s3 s4 s5,
      start_sense fuel s 11 1 = some (s1, false) ∧
      start_sense fuel s1 12 2 = some (s2, false) ∧
      start_sense fuel s2 14 4 = some (s3, false) ∧
      start_sense fuel s3 15 5 = some (s4, false) ∧
      start_sense fuel s4 16 6 = some (s5, false) ∧
      TwoParsesLike s2 1 1 ∧ s2.converge = (29 / 30) ^ 105 ∧
      TwoParsesLike s5 1 (134 / 125) ∧ s5.converge < 3 / 100 ∧
      s2.rand_pos = s.rand_pos + 105 := by
  obtain ⟨m, rfl⟩ : ∃ m, fuel = m + 1 := ⟨fuel - 1, by omega⟩
  obtain ⟨s1, h1, hs1, hc1, hp1⟩ := two_parses_start_stationary s 1 1 11 1 103 hs (Or.inl rfl)
    (by intro _; rw [hc]; norm_num) (by rw [hc]; norm_num) (m + 1) hfuel
  obtain ⟨s2, h2, hs2, hc2, hp2⟩ := two_parses_start_stationary s1 1 1 12 2 0 hs1
    (Or.inr (Or.inl rfl)) (fun h => absurd h (Nat.lt_irrefl 0))
    (by rw [hc1, hc]; norm_num) (m + 1) (by omega)
  have hc2' : s2.converge = (29 / 30) ^ 105 := by rw [hc2, hc1, hc]; norm_num
  obtain ⟨s3, h3, hs3, hc3, -⟩ := two_parses_start_4 s2 1 1 14 m hs2
    (by rw [hc2']; norm_num)
  have h91 : (9 / 10 * 1 + 1 / 10 : ℚ) = 1 := by norm_num
  rw [h91] at hs3 hc3
  obtain ⟨s4, h4, hs4, hc4, -⟩ := two_parses_start_5 s3 1 1 15 m hs3
    (by rw [hc3, hc2']; norm_num [abs_of_pos])
  have h95 : (9 / 10 * (1 / 2 + 29 / 50) + 1 / 10 : ℚ) = 134 / 125 := by norm_num
  rw [h95] at hs4 hc4
  obtain ⟨s5, h5, hs5, hc5, -⟩ := two_parses_start_stationary s4 1 (134 / 125) 16 6 0 hs4
    (Or.inr (Or.inr rfl)) (fun h => absurd h (Nat.lt_irrefl 0))
    (by rw [hc4, hc3, hc2']; norm_num [abs_of_pos]) (m + 1) (by omega)
  refine ⟨s1, s2, s3, s4, s5, h1, h2, h3, h4, h5, hs2, hc2', hs5, ?_, ?_⟩
  · rw [hc5, hc4, hc3, hc2']
    norm_num [abs_of_pos]
  · rw [hp2, hp1]

/-- The walk from sense `4` with the prior scores, accumulator 1 and the
random source at its start: passes on `4`, `5`, `4`, `5` (the fourth draw
sends the walk to `6`), then 100 passes on the stationary sense `6`. -/
theorem two_parses_long_walk (s : State) (hs : TwoParsesLike s 1 1)
    (hc : s.converge = 1) (hp : s.rand_pos = 0) (fuel : Nat) (hfuel : 104 ≤ fuel) :
    ∃ s', walk_loop fuel s 4 = some s' ∧
      TwoParsesLike s' (1331 / 1250) (27529 / 25000) ∧
      s'.converge = 4447351 / 5062500 * (29 / 30) ^ 100 := by
  obtain ⟨k, rfl⟩ : ∃ k, fuel = k + 100 + 1 + 1 + 1 + 1 := ⟨fuel - 104, by omega⟩
  -- first pass, on sense 4
  obtain ⟨hs1, hc1, hp1, -, hn1⟩ := two_parses_pass_4 s 1 1 hs
  have h91 : (9 / 10 * 1 + 1 / 10 : ℚ) = 1 := by norm_num
  rw [h91] at hs1 hc1
  have hc1' : (pick_random_edge (rank_sense s 4) 4).1.converge = 29 / 30 := by
    rw [hc1, hc]; norm_num
  have hgo1 : (pick_random_edge (rank_sense s 4) 4).1.convergence_limit <
      (pick_random_edge (rank_sense s 4) 4).1.converge := by
    rw [(two_parses_like_limit _ _ _ hs1).1, hc1']; norm_num
  rw [walk_loop_continue _ _ _ hgo1, hn1]
  generalize (pick_random_edge (rank_sense s 4) 4).1 = t1 at hs1 hc1' hp1
  -- second pass, on sense 5; the draw is 0 and the walk goes back to 4
  obtain ⟨hs2, hc2, hp2, -⟩ := two_parses_pass_5 t1 1 1 hs1
  have hn2 := (two_parses_next_5 t1 1 1 hs1).1 (by rw [hp1, hp]; decide)
  have h95 : (9 / 10 * (1 / 2 + 29 / 50) + 1 / 10 : ℚ) = 134 / 125 := by norm_num
  rw [h95] at hs2 hc2
  have hc2' : (pick_random_edge (rank_sense t1 5) 5).1.converge = 21079 / 22500 := by
    rw [hc2, hc1']; norm_num [abs_of_pos]
  have hgo2 : (pick_random_edge (rank_sense t1 5) 5).1.convergence_limit <
      (pick_random_edge (rank_sense t1 5) 5).1.converge := by
    rw [(two_parses_like_limit _ _ _ hs2).1, hc2']; norm_num
  rw [walk_loop_continue _ _ _ hgo2, hn2]
  generalize (pick_random_edge (rank_sense t1 5) 5).1 = t2 at hs2 hc2' hp2
  -- third pass, on sense 4
  obtain ⟨hs3, hc3, hp3, -, hn3⟩ := two_parses_pass_4 t2 1 (134 / 125) hs2
  have h93 : (9 / 10 * (134 / 125) + 1 / 10 : ℚ) = 1331 / 1250 := by norm_num
  rw [h93] at hs3 hc3
  have hc3' : (pick_random_edge (rank_sense t2 4) 4).1.converge = 612749 / 675000 := by
    rw [hc3, hc2']; norm_num [abs_of_pos]
  have hgo3 : (pick_random_edge (rank_sense t2 4) 4).1.convergence_limit <
      (pick_random_edge (rank_sense t2 4) 4).1.converge := by
    rw [(two_parses_like_limit _ _ _ hs3).1, hc3']; norm_num
  rw [walk_loop_continue _ _ _ hgo3, hn3]
  generalize (pick_random_edge (rank_sense t2 4) 4).1 = t3 at hs3 hc3' hp3
  -- fourth pass, on sense 5; the fourth draw sends the walk to 6
  obtain ⟨hs4, hc4, hp4, -⟩ := two_parses_pass_5 t3 (1331 / 1250) (134 / 125) hs3
  have hn4 := (two_parses_next_5 t3 (1331 / 1250) (134 / 125) hs3).2
    (by rw [hp3, hp2, hp1, hp])
  have h94 : (9 / 10 * (1331 / 1250 / 2 + 29 / 50) + 1 / 10 : ℚ) = 27529 / 25000 := by
    norm_num
  rw [h94] at hs4 hc4
  have hc4' : (pick_random_edge (rank_sense t3 5) 5).1.converge = 4447351 / 5062500 := by
    rw [hc4, hc3']; norm_num [abs_of_pos]
  have hgo4 : (pick_random_edge (rank_sense t3 5) 5).1.convergence_limit <
      (pick_random_edge (rank_sense t3 5) 5).1.converge := by
    rw [(two_parses_like_limit _ _ _ hs4).1, hc4']; norm_num
  rw [walk_loop_continue _ _ _ hgo4, hn4]
  generalize (pick_random_edge (rank_sense t3 5) 5).1 = t4 at hs4 hc4' hp4
  -- the rest of the walk stays on the stationary sense 6
  obtain ⟨s', hw, hs', hc', -⟩ := two_parses_walk_stationary t4 (1331 / 1250)
    (27529 / 25000) 6 99 hs4 (Or.inr (Or.inr rfl))
    (by intro _; rw [hc4']; norm_num) (by rw [hc4']; norm_num) (k + 100) (by omega)
  exact ⟨s', hw, hs', by rw [hc', hc4']⟩

/-- Ranking parse `31` alone, from the prior scores and accumulator 1: the
walk from sense `4` is the long one, and the means of `4` and `5` end at
1331/1250 and 27529/25000. -/
theorem two_parses_alone_run (s : State) (hs : TwoParsesLike s 1 1)
    (hc : s.converge = 1) (hp : s.rand_pos = 0) (fuel : Nat) (hfuel : 104 ≤ fuel) :
    ∃ s', rank_parse fuel s 31 = some s' ∧
      TwoParsesLike s' (1331 / 1250) (27529 / 25000) := by
  obtain ⟨m, rfl⟩ : ∃ m, fuel = m + 1 := ⟨fuel - 1, by omega⟩
  obtain ⟨s1, hw, hs1, hc1⟩ := two_parses_long_walk (walk_start s 4)
    (two_parses_like_walk_start s 1 1 4 hs) hc hp (m + 1) hfuel
  have h1 : start_sense (m + 1) s 14 4 = some (s1, false) := by
    rw [start_sense_connected _ _ _ _ (two_parses_like_connected s 1 1 4 hs (by simp)), hw]
  have hst : (9 / 10 * (1331 / 1250 / 2 + 29 / 50) + 1 / 10 : ℚ) = 27529 / 25000 := by
    norm_num
  obtain ⟨s2, h2, hs2, hc2, -⟩ := two_parses_start_5 s1 (1331 / 1250) (27529 / 25000) 15 m
    hs1 (by rw [hc1, hst]; norm_num)
  rw [hst] at hs2 hc2
  obtain ⟨s3, h3, hs3, -, -⟩ := two_parses_start_stationary s2 (1331 / 1250)
    (27529 / 25000) 16 6 0 hs2 (Or.inr (Or.inr rfl)) (fun h => absurd h (Nat.lt_irrefl 0))
    (by rw [hc2, hc1]; norm_num) (m + 1) (by omega)
  exact ⟨s3, two_parses_rank_parse_31 (m + 1) s s1 s2 s3 hs.frame h1 h2 h3, hs3⟩

/-! ## Re-running a walk on a converged parse -/

/-- C17 (as stated, refuted): parse `33` of the two-component graph, ranked
from `init_parse` to convergence (the accumulator ends below the limit).
Re-running the walk on the connected sense `4` gives on its first rank update
the delta 81/1250 = 0.0648, not below the limit 0.03. -/
theorem converged_parse_large_delta :
    ∃ S, rank_parse 104 (init_parse (two_parses 1 1) 33) 33 = some S ∧
      S.converge < S.convergence_limit ∧
      ¬ edge_weight_sum S 4 < 1 / 10 ^ 10 ∧
      |((rank_sense (walk_start S 4) 4).tv 4).mean - (S.tv 4).mean| = 81 / 1250 ∧
      S.convergence_limit ≤ 81 / 1250 := by
  obtain ⟨hs0, hc0, -, -⟩ := two_parses_init (two_parses 1 1) 33 (two_parses_like_self 1 1)
    (Or.inr (Or.inr rfl))
  obtain ⟨s1, s2, s3, s4, s5, h1, h2, h3, h4, h5, hs2, -, hs5, hc5, -⟩ :=
    two_parses_five_starts _ hs0 hc0 104 (le_refl _)
  have hl := (two_parses_like_limit _ _ _ hs5).1
  refine ⟨s5, two_parses_rank_parse_33 104 _ s1 s2 s3 s4 s5 hs0.frame hs2.frame h1 h2 h3 h4 h5,
    ?_, two_parses_like_connected s5 _ _ 4 hs5 (by simp), ?_, ?_⟩
  · rw [hl]; exact hc5
  · have hs5' := two_parses_like_walk_start s5 1 (134 / 125) 4 hs5
    rw [rank_sense_mean_eq, two_parses_like_spec _ _ _ hs5',
      (two_parses_spec 1 (134 / 125)).2.2.1, (two_parses_like_limit _ _ _ hs5').2.2, hs5.tv]
    norm_num [two_parses, SenseRank, abs_of_pos]
  · rw [hl]; norm_num

/-- From a state in which every sense of a set closed under edges is
stationary, a walk started inside the set changes no truth value. -/
theorem walk_loop_all_stationary (s0 : State) (S : Handle → Prop)
    (hclosed : ∀ x, S x → ∀ p ∈ s0.sense_edges x, S p.1)
    (hne : ∀ x, S x → s0.sense_edges x ≠ [])
    (hfix : ∀ x, S x → Stationary s0 x) (n : Nat) :
    ∀ (t : State) (h : Handle) (s' : State), t.tv = s0.tv →
      t.sense_edges = s0.sense_edges → t.damping_factor = s0.damping_factor → S h →
      walk_loop n t h = some s' → s'.tv = s0.tv := by
  induction n with
  | zero => intro t h s' _ _ _ _ hw; simp [walk_loop] at hw
  | succ n ih =>
    intro t h s' htv hed hdf hh hw
    rw [walk_loop_succ] at hw
    have hst : Stationary t h := by
      have := hfix h hh
      unfold Stationary at this ⊢
      rw [htv, rank_sum_spec_congr s0 t h htv hed, hdf]
      exact this
    obtain ⟨htv1, -⟩ := stationary_pass t h hst
    obtain ⟨hf, -, -, -⟩ := walk_body_props t h
    split at hw
    · have hrs : (rank_sense t h).sense_edges = s0.sense_edges := by
        obtain ⟨e, he⟩ := rank_sense_eq t h
        rw [he]; exact hed
      have hmem := pick_random_edge_mem (rank_sense t h) h (by rw [hrs]; exact hne h hh)
      rw [hrs] at hmem
      obtain ⟨p, hp, hpn⟩ := List.mem_map.mp hmem
      have hnext : S (pick_random_edge (rank_sense t h) h).2 := by
        rw [← hpn]; exact hclosed h hh p hp
      exact ih _ _ _ (htv1.trans htv) (hf.sense_edges.trans hed)
        (hf.damping_factor.trans hdf) hnext hw
    · cases hw
      exact htv1.trans htv

/-- C17 (amended): idempotence at the fixed point.  Let `S` be a set of senses
closed under edges, each with at least one edge and each at a fixed point of
the update (its mean equals `damping_factor * N + (1 - damping_factor)` for
its neighbour sum `N`).  Re-running the walk on a sense of `S` gives delta 0
on its first rank update, which is below any positive limit, and the whole
walk changes no score. -/
theorem rerun_at_fixed_point (s : State) (S : Handle → Prop)
    (hclosed : ∀ x, S x → ∀ p ∈ s.sense_edges x, S p.1)
    (hne : ∀ x, S x → s.sense_edges x ≠ [])
    (hfix : ∀ x, S x → Stationary s x)
    (fuel : Nat) (ws a : Handle) (ha : S a) :
    |((rank_sense (walk_start s a) a).tv a).mean - (s.tv a).mean| = 0 ∧
    (0 < s.convergence_limit →
      |((rank_sense (walk_start s a) a).tv a).mean - (s.tv a).mean| < s.convergence_limit) ∧
    (∀ r, start_sense fuel s ws a = some r → r.1.tv = s.tv) := by
  have hd : |((rank_sense (walk_start s a) a).tv a).mean - (s.tv a).mean| = 0 := by
    have h := hfix a ha
    unfold Stationary at h
    rw [rank_sense_mean_eq]
    have h2 : rank_sum_spec (walk_start s a) a = rank_sum_spec s a := rfl
    have h3 : (walk_start s a).damping_factor = s.damping_factor := rfl
    rw [h2, h3, ← h]
    simp
  refine ⟨hd, fun hpos => by rw [hd]; exact hpos, ?_⟩
  intro r hr
  rw [start_sense_eq] at hr
  split at hr
  · cases hr; rfl
  · split at hr
    · cases hr
    · rename_i s3 hw
      cases hr
      exact walk_loop_all_stationary s S hclosed hne hfix fuel (walk_start s a) a s3
        rfl rfl rfl ha hw

theorem two_node_all_stationary (c : ℚ) (x : Handle) (hx : x = 1 ∨ x = 2) :
    Stationary (two_node c) x := by
  unfold Stationary
  rw [two_node_rank_sum_spec c x hx]
  rcases hx with rfl | rfl <;> norm_num [two_node, SenseRank]

/-- Witness for C17 (amended): the symmetric two-sense graph at its fixed
point, re-run from sense `1`. -/
theorem rerun_at_fixed_point_witness :
    |((rank_sense (walk_start (two_node (1 / 100)) 1) 1).tv 1).mean -
        ((two_node (1 / 100)).tv 1).mean| < (two_node (1 / 100)).convergence_limit ∧
    ∃ r, start_sense 1 (two_node (1 / 100)) 11 1 = some r ∧
      r.1.tv = (two_node (1 / 100)).tv := by
  have key := rerun_at_fixed_point (two_node (1 / 100)) (fun x => x = 1 ∨ x = 2)
    (by
      intro x hx p hp
      rcases hx with rfl | rfl <;> simp [two_node, SenseRank] at hp <;> simp [hp])
    (by intro x hx; rcases hx with rfl | rfl <;> simp [two_node, SenseRank])
    (two_node_all_stationary _) 1 11 1 (Or.inl rfl)
  refine ⟨key.2.1 (by norm_num [two_node, SenseRank]), ?_⟩
  obtain ⟨s', hs', -⟩ := two_node_start_sense 0 (two_node (1 / 100)) 11 1 2
    (two_node_like _) (Or.inl ⟨rfl, rfl⟩) (fun h => absurd h (Nat.lt_irrefl 0))
    (by norm_num [two_node, SenseRank]) 1 (le_refl _)
  exact ⟨(s', false), hs', key.2.2 (s', false) hs'⟩

/-! ## Initialisation at the two entry points -/

theorem init_parse_sense_links (s : State) (P Q : Handle) :
    parse_sense_links (init_parse s P) Q = parse_sense_links s Q := by
  obtain ⟨tv', he, -, -⟩ := init_parse_eq s P
  rw [he]
  rfl

theorem init_parse_keeps_prior (s : State) (P h : Handle) (hp : s.tv h = ⟨1, 9 / 10⟩) :
    (init_parse s P).tv h = ⟨1, 9 / 10⟩ := by
  obtain ⟨tv', he, hin, hout⟩ := init_parse_eq s P
  rw [he]
  show tv' h = _
  by_cases hh : h ∈ parse_sense_links s P
  · exact hin h hh
  · rw [hout h hh, hp]

theorem foldl_init_parse_keeps_prior (L : List Handle) :
    ∀ (s : State) (h : Handle), s.tv h = ⟨1, 9 / 10⟩ →
      (L.foldl init_parse s).tv h = ⟨1, 9 / 10⟩ := by
  induction L with
  | nil => intro s h hp; exact hp
  | cons P L ih =>
    intro s h hp
    rw [List.foldl_cons]
    exact ih _ h (init_parse_keeps_prior s P h hp)

/-- After the first loop of `rank_document`, every sense of every parse of the
list has the prior. -/
theorem foldl_init_parse_prior (L : List Handle) :
    ∀ (s : State) (Q h : Handle), Q ∈ L → h ∈ parse_sense_links s Q →
      (L.foldl init_parse s).tv h = ⟨1, 9 / 10⟩ := by
  induction L with
  | nil => intro s Q h hQ; simp at hQ
  | cons P L ih =>
    intro s Q h hQ hh
    rw [List.foldl_cons]
    rcases List.mem_cons.mp hQ with rfl | hQ
    · apply foldl_init_parse_keeps_prior
      obtain ⟨tv', he, hin, -⟩ := init_parse_eq s Q
      rw [he]
      exact hin h hh
    · exact ih _ Q h hQ (by rw [init_parse_sense_links]; exact hh)

/-- After the first loop of `rank_document` over a non-empty list, the
accumulator is 1. -/
theorem foldl_init_parse_converge (L : List Handle) :
    ∀ (s : State) (P : Handle), ((P :: L).foldl init_parse s).converge = 1 := by
  induction L with
  | nil =>
    intro s P
    obtain ⟨tv', he, -, -⟩ := init_parse_eq s P
    simp only [List.foldl_cons, List.foldl_nil]
    rw [he]
  | cons Q L ih =>
    intro s P
    rw [List.foldl_cons]
    exact ih _ Q

theorem rank_document_cons (fuel : Nat) (s : State) (P : Handle) (rest : List Handle) :
    rank_document fuel s (P :: rest) =
      (rank_parse fuel ((P :: rest).foldl init_parse s) P).bind
        (rank_document_rank fuel rest) := by
  show rank_document_rank fuel (P :: rest) _ = _
  simp only [rank_document_rank]
  cases rank_parse fuel ((P :: rest).foldl init_parse s) P <;> rfl

theorem rank_document_two (fuel : Nat) (s : State) (P1 P2 : Handle) (s1 : State)
    (h1 : rank_parse fuel (init_parse (init_parse s P1) P2) P1 = some s1) :
    rank_document fuel s [P1, P2] = rank_parse fuel s1 P2 := by
  rw [rank_document_cons]
  simp only [List.foldl_cons, List.foldl_nil, h1, Option.some_bind, rank_document_rank]
  cases rank_parse fuel s1 P2 <;> rfl

/-- The document run on the two-component graph: the walks over parse `30`
leave the accumulator at `(29/30)^105`, and the walks over parse `31` start
from that state and leave sense `4` at mean 1 and sense `5` at mean
134/125. -/
theorem two_parses_document_run :
    ∃ s1 s2, rank_parse 104 (init_parse (init_parse (two_parses 1 1) 30) 31) 30 = some s1 ∧
      rank_parse 104 s1 31 = some s2 ∧
      rank_document 104 (two_parses 1 1) [30, 31] = some s2 ∧
      TwoParsesLike s1 1 1 ∧ s1.converge = (29 / 30) ^ 105 ∧
      TwoParsesLike s2 1 (134 / 125) ∧ s1.rand_pos = 105 := by
  obtain ⟨hs0, -, hp0, -⟩ := two_parses_init (two_parses 1 1) 30 (two_parses_like_self 1 1)
    (Or.inl rfl)
  obtain ⟨hs0', hc0, hp0', -⟩ := two_parses_init _ 31 hs0 (Or.inr (Or.inl rfl))
  obtain ⟨s1, s2, s3, s4, s5, h1, h2, h3, h4, h5, hs2, hc2, hs5, -, hp2⟩ :=
    two_parses_five_starts _ hs0' hc0 104 (le_refl _)
  have hr1 := two_parses_rank_parse_30 104 _ s1 s2 hs0'.frame h1 h2
  have hr2 := two_parses_rank_parse_31 104 s2 s3 s4 s5 hs2.frame h3 h4 h5
  refine ⟨s2, s5, hr1, hr2, ?_, hs2, hc2, hs5, ?_⟩
  · rw [rank_document_two 104 _ 30 31 s2 hr1, hr2]
  · rw [hp2, hp0', hp0]
    rfl

/-- C15 (as stated, refuted), in both entry points.  `rank_sentence` never
calls `init_parse`: on the state `unranked` (sense `1` has mean 1/4 and
confidence 1/5, accumulator 1/2) it is `rank_parse` on that very state, and
from the accumulator 1/100 it returns after two rank updates with the
accumulator 841/90000 (a reset to 1 would need 104 updates in the first walk).
In `rank_document [30, 31]` on the two-component graph the walks over the
second parse begin with the accumulator `(29/30)^105`, not 1. -/
theorem walks_begin_without_reset :
    ((∀ fuel, rank_sentence fuel unranked 40 = rank_parse fuel unranked 30) ∧
      unranked.tv 1 = ⟨1 / 4, 1 / 5⟩ ∧ unranked.converge = 1 / 2) ∧
    (∃ s', rank_sentence 1 (two_node (1 / 100)) 40 = some s' ∧
      s'.converge = 841 / 90000 ∧ (rank_calls s'.trace).length = 2) ∧
    (∃ s1, rank_parse 104 (init_parse (init_parse (two_parses 1 1) 30) 31) 30 = some s1 ∧
      rank_document 104 (two_parses 1 1) [30, 31] = rank_parse 104 s1 31 ∧
      s1.converge = (29 / 30) ^ 105 ∧ s1.converge ≠ 1) := by
  refine ⟨⟨?_, ?_, rfl⟩, ?_, ?_⟩
  · intro fuel
    have hp : unranked.parses 40 = [30] := rfl
    simp only [rank_sentence, hp, foreach_visit_fuel, rank_parse_f]
    cases rank_parse fuel unranked 30 <;> rfl
  · simp [unranked]
  · obtain ⟨s', hs', -, hc, hl⟩ := two_node_rank_parse 0 (two_node (1 / 100)) (two_node_like _)
      (fun h => absurd h (Nat.lt_irrefl 0)) (by norm_num [two_node, SenseRank]) 1 (le_refl _)
    refine ⟨s', ?_, ?_, ?_⟩
    · have hp : (two_node (1 / 100)).parses 40 = [30] := rfl
      simp only [rank_sentence, hp, foreach_visit_fuel, rank_parse_f, hs']
      rfl
    · rw [hc]; norm_num [two_node, SenseRank]
    · rw [hl]; simp [two_node, SenseRank, rank_calls]
  · obtain ⟨s1, s2, hr1, hr2, hd, -, hc, -, -⟩ := two_parses_document_run
    refine ⟨s1, hr1, ?_, hc, ?_⟩
    · rw [hd, hr2]
    · rw [hc]; norm_num

/-- C15 (amended): the initialisation in `rank_document`.  The first loop
calls `init_parse` on every parse of the list before any walk; in the state
`s0` it leaves, the accumulator is 1 and every sense of every parse of the
list has the prior (mean 1, confidence 9/10), whatever the scores and the
accumulator were before the call.  The walks over the first parse begin in
`s0`; the walks over each later parse begin in the state the walks over the
parses before it have left. -/
theorem rank_document_initialises_first (fuel : Nat) (s : State) (P : Handle)
    (rest : List Handle) :
    ((P :: rest).foldl init_parse s).converge = 1 ∧
    (∀ Q ∈ P :: rest, ∀ h ∈ parse_sense_links s Q,
      ((P :: rest).foldl init_parse s).tv h = ⟨1, 9 / 10⟩) ∧
    rank_document fuel s (P :: rest) =
      (rank_parse fuel ((P :: rest).foldl init_parse s) P).bind
        (rank_document_rank fuel rest) ∧
    (∀ Q tl s1, rank_document_rank fuel (Q :: tl) s1 =
      (rank_parse fuel s1 Q).bind (rank_document_rank fuel tl)) := by
  refine ⟨foldl_init_parse_converge rest s P, ?_, rank_document_cons fuel s P rest, ?_⟩
  · intro Q hQ h hh
    exact foldl_init_parse_prior (P :: rest) s Q h hQ hh
  · intro Q tl s1
    simp only [rank_document_rank]
    cases rank_parse fuel s1 Q <;> rfl

/-- Witness for C15 (amended): the two-component graph with the scores 1/2
and 1/3 on the senses `4` and `5`, document `[30, 31]`: after the first loop
sense `4` of the second parse has the prior. -/
theorem rank_document_initialises_first_witness :
    (31 : Handle) ∈ [30, 31] ∧ (4 : Handle) ∈ parse_sense_links (two_parses (1 / 2) (1 / 3)) 31 ∧
    (([30, 31] : List Handle).foldl init_parse (two_parses (1 / 2) (1 / 3))).tv 4 =
      ⟨1, 9 / 10⟩ := by
  have h4 : (4 : Handle) ∈ parse_sense_links (two_parses (1 / 2) (1 / 3)) 31 := by
    simp [parse_sense_links, two_parses, SenseRank]
  exact ⟨by simp, h4,
    (rank_document_initialises_first 0 (two_parses (1 / 2) (1 / 3)) 30 [31]).2.1 31
      (by simp) 4 h4⟩

/-! ## Runs that differ in truth values the walk does not read -/

theorem edge_weight_sum_set_tv (s : State) (f : Handle → TruthValue) (b : Handle)
    (hq : ∀ q ∈ s.sense_edges b, f q.2 = s.tv q.2) :
    edge_weight_sum (set_tv s f) b = edge_weight_sum s b := by
  unfold edge_weight_sum
  apply congrArg List.sum
  apply List.map_congr_left
  intro q hq'
  simp [State.weight, set_tv, hq q hq']

/-- A traversal commutes with replacing the truth values, when every visit
does and an invariant of the state is kept. -/
theorem foreach_visit_set_tv {α : Type} (cb : State → α → State × Bool)
    (f : Handle → TruthValue) (I : State → Prop) (l : List α)
    (hcb : ∀ x ∈ l, ∀ s, I s →
      cb (set_tv s f) x = (set_tv (cb s x).1 f, (cb s x).2) ∧ I (cb s x).1) :
    ∀ s, I s →
      foreach_visit cb l (set_tv s f) =
        (set_tv (foreach_visit cb l s).1 f, (foreach_visit cb l s).2) := by
  induction l with
  | nil => intro s _; rfl
  | cons x xs ih =>
    intro s hs
    obtain ⟨h1, h2⟩ := hcb x (List.mem_cons_self _ _) s hs
    cases hb : (cb s x).2 with
    | true =>
      have hb' : (cb (set_tv s f) x).2 = true := by rw [h1]; exact hb
      rw [foreach_visit_cons_true _ _ _ _ hb, foreach_visit_cons_true _ _ _ _ hb', h1]
    | false =>
      have hb' : (cb (set_tv s f) x).2 = false := by rw [h1]; exact hb
      rw [foreach_visit_cons_false _ _ _ _ hb, foreach_visit_cons_false _ _ _ _ hb', h1]
      exact ih (fun y hy => hcb y (List.mem_cons_of_mem _ hy)) _ h2

theorem outer_sum_set_tv (s : State) (f : Handle → TruthValue) (b e : Handle)
    (hb : f b = s.tv b) (he : f e = s.tv e)
    (hq : ∀ q ∈ s.sense_edges b, f q.2 = s.tv q.2) :
    outer_sum (set_tv s f) b e = (set_tv (outer_sum s b e).1 f, (outer_sum s b e).2) := by
  rw [outer_sum_eq, outer_sum_eq, edge_weight_sum_set_tv s f b hq]
  simp [set_tv, State.weight, hb, he]

theorem rank_sense_set_tv (s : State) (f : Handle → TruthValue) (h : Handle)
    (hh : f h = s.tv h)
    (hp : ∀ p ∈ s.sense_edges h, f p.1 = s.tv p.1 ∧ f p.2 = s.tv p.2 ∧
      ∀ q ∈ s.sense_edges p.1, f q.2 = s.tv q.2) :
    rank_sense (set_tv s f) h =
      set_tv (rank_sense s h) (Function.update f h ((rank_sense s h).tv h)) := by
  have key := foreach_visit_set_tv (fun st p => outer_sum st p.1 p.2) f
    (fun st => st.tv = s.tv ∧ st.sense_edges = s.sense_edges) (s.sense_edges h)
    (by
      intro p hpm st hst
      obtain ⟨h1, h2, h3⟩ := hp p hpm
      refine ⟨outer_sum_set_tv st f p.1 p.2 (by rw [hst.1]; exact h1) (by rw [hst.1]; exact h2)
        (by rw [hst.1, hst.2]; exact h3), ?_⟩
      show (outer_sum st p.1 p.2).1.tv = s.tv ∧ (outer_sum st p.1 p.2).1.sense_edges = s.sense_edges
      rw [outer_sum_eq]
      exact hst)
    { s with rank_sum := 0 } ⟨rfl, rfl⟩
  obtain ⟨e, he⟩ := foreach_sense_edge_outer_sum { s with rank_sum := 0 } h
  have he' : foreach_visit (fun st p => outer_sum st p.1 p.2) (s.sense_edges h)
      { s with rank_sum := 0 } = _ := he
  rw [he'] at key
  have key' : foreach_sense_edge { set_tv s f with rank_sum := 0 } h outer_sum = _ := key
  unfold rank_sense
  simp only [key', he]
  simp [set_tv, hh]

theorem random_sum_set_tv (s : State) (f : Handle → TruthValue) (b e : Handle)
    (he : f e = s.tv e) :
    random_sum (set_tv s f) b e = (set_tv (random_sum s b e).1 f, (random_sum s b e).2) := by
  unfold random_sum
  simp only [set_tv, he]
  split_ifs <;> rfl

theorem random_sum_keeps (s : State) (b e : Handle) :
    (random_sum s b e).1.tv = s.tv ∧ (random_sum s b e).1.sense_edges = s.sense_edges := by
  unfold random_sum
  simp only
  split_ifs <;> exact ⟨rfl, rfl⟩

theorem pick_random_edge_set_tv (s : State) (f : Handle → TruthValue) (h : Handle)
    (hq : ∀ q ∈ s.sense_edges h, f q.2 = s.tv q.2) :
    pick_random_edge (set_tv s f) h =
      (set_tv (pick_random_edge s h).1 f, (pick_random_edge s h).2) := by
  have hsel : selection_state (set_tv s f) h = set_tv (selection_state s h) f := by
    simp only [selection_state, random_draw, edge_weight_sum_set_tv s f h hq]
    rfl
  have key := foreach_visit_set_tv (fun st p => random_sum st p.1 p.2) f
    (fun st => st.tv = s.tv) (s.sense_edges h)
    (by
      intro p hpm st hst
      have hst' : st.tv = s.tv := hst
      exact ⟨random_sum_set_tv st f p.1 p.2 (by rw [hst']; exact hq p hpm),
        (random_sum_keeps st p.1 p.2).1.trans hst'⟩)
    (selection_state s h) rfl
  rw [pick_random_edge_eq, pick_random_edge_eq, hsel]
  have hed : (set_tv s f).sense_edges = s.sense_edges := rfl
  rw [hed, key]
  rfl

theorem rank_sense_tv_update (s : State) (h : Handle) :
    (rank_sense s h).tv = Function.update s.tv h ((rank_sense s h).tv h) ∧
      (rank_sense s h).sense_edges = s.sense_edges ∧
      (rank_sense s h).next_sense = s.next_sense := by
  obtain ⟨e, he⟩ := rank_sense_eq s h
  rw [he]
  simp

/-- With an empty edge list `pick_random_edge` returns the sense left in
`next_sense` by an earlier call. -/
theorem pick_random_edge_nil (s : State) (h : Handle) (hnil : s.sense_edges h = []) :
    (pick_random_edge s h).2 = s.next_sense := by
  rw [pick_random_edge_eq, hnil]
  rfl

/-- One pass of the loop body on a sense of `X`, in two runs that agree
outside `Z`: the runs still agree, they choose the same next sense, and that
sense is in `X`. -/
theorem walk_body_agree (Z X : Handle → Prop) (s0 : State)
    (hXZ : ∀ x, X x → ¬ Z x)
    (hclosed : ∀ a, X a → ∀ p ∈ s0.sense_edges a, X p.1)
    (hatom : ∀ a, X a → ∀ p ∈ s0.sense_edges a, ¬ Z p.2)
    (s t : State) (h : Handle) (ha : Agree Z X s0 s t) (hh : X h)
    (hn : s0.sense_edges h ≠ [] ∨ X s.next_sense) :
    Agree Z X s0 (pick_random_edge (rank_sense s h) h).1
        (pick_random_edge (rank_sense t h) h).1 ∧
      (pick_random_edge (rank_sense t h) h).2 = (pick_random_edge (rank_sense s h) h).2 ∧
      X (pick_random_edge (rank_sense s h) h).2 ∧
      (pick_random_edge (rank_sense s h) h).1.next_sense =
        (pick_random_edge (rank_sense s h) h).2 := by
  obtain ⟨f, rfl⟩ : ∃ f, t = set_tv s f := ⟨t.tv, ha.same⟩
  have hoff : ∀ x, ¬ Z x → f x = s.tv x := ha.off
  have hed := ha.sense_edges
  obtain ⟨hrtv, hred, hrns⟩ := rank_sense_tv_update s h
  obtain ⟨hf, -, -, -⟩ := walk_body_props s h
  have htv := walk_body_tv s h
  have h1 := rank_sense_set_tv s f h (hoff h (hXZ h hh)) (by
    intro p hp
    rw [hed] at hp
    refine ⟨hoff _ (hXZ _ (hclosed h hh p hp)), hoff _ (hatom h hh p hp), ?_⟩
    intro q hq
    rw [hed] at hq
    exact hoff _ (hatom _ (hclosed h hh p hp) q hq))
  have hoff' : ∀ x, ¬ Z x →
      Function.update f h ((rank_sense s h).tv h) x = (rank_sense s h).tv x := by
    intro x hx
    rw [hrtv]
    by_cases hxh : x = h
    · subst hxh; simp
    · simp [Function.update_noteq hxh, hoff x hx]
  have h2 := pick_random_edge_set_tv (rank_sense s h)
    (Function.update f h ((rank_sense s h).tv h)) h (by
      intro q hq
      rw [hred, hed] at hq
      exact hoff' _ (hatom h hh q hq))
  rw [h1, h2]
  refine ⟨⟨rfl, ?_, hf.sense_edges.trans hed, hf.word_senses.trans ha.word_senses,
    hf.word_instances.trans ha.word_instances, ?_⟩, rfl, ?_, rfl⟩
  · intro x hx
    show Function.update f h ((rank_sense s h).tv h) x = _
    rw [hoff' x hx, htv]
  · intro x hx
    have hxh : x ≠ h := fun hxh => hx (hxh ▸ hh)
    rw [htv, hrtv, Function.update_noteq hxh]
    exact ha.kept x hx
  · by_cases hne : s0.sense_edges h = []
    · rw [pick_random_edge_nil _ _ (by rw [hred, hed]; exact hne), hrns]
      rcases hn with hn | hn
      · exact absurd hne hn
      · exact hn
    · have hmem := pick_random_edge_mem (rank_sense s h) h (by rw [hred, hed]; exact hne)
      rw [hred, hed] at hmem
      obtain ⟨p, hp, hpn⟩ := List.mem_map.mp hmem
      rw [← hpn]
      exact hclosed h hh p hp

/-- A walk from a sense of `X`, in two runs that agree outside `Z`: both fail
to return within the fuel, or both return, in states that agree outside `Z`. -/
theorem walk_loop_agree (Z X : Handle → Prop) (s0 : State)
    (hXZ : ∀ x, X x → ¬ Z x)
    (hclosed : ∀ a, X a → ∀ p ∈ s0.sense_edges a, X p.1)
    (hatom : ∀ a, X a → ∀ p ∈ s0.sense_edges a, ¬ Z p.2) (n : Nat) :
    ∀ (s t : State) (h : Handle), Agree Z X s0 s t → X h →
      (s0.sense_edges h ≠ [] ∨ X s.next_sense) →
      (walk_loop n s h = none ∧ walk_loop n t h = none) ∨
      ∃ s' t', walk_loop n s h = some s' ∧ walk_loop n t h = some t' ∧
        Agree Z X s0 s' t' := by
  induction n with
  | zero => intro s t h _ _ _; exact Or.inl ⟨rfl, rfl⟩
  | succ n ih =>
    intro s t h ha hh hn
    obtain ⟨ha', hnext, hX', hns⟩ := walk_body_agree Z X s0 hXZ hclosed hatom s t h ha hh hn
    have hconv : (pick_random_edge (rank_sense t h) h).1.converge =
        (pick_random_edge (rank_sense s h) h).1.converge := by
      rw [ha'.same]; rfl
    have hlim : (pick_random_edge (rank_sense t h) h).1.convergence_limit =
        (pick_random_edge (rank_sense s h) h).1.convergence_limit := by
      rw [ha'.same]; rfl
    rw [walk_loop_succ, walk_loop_succ, hconv, hlim, hnext]
    by_cases hgo : (pick_random_edge (rank_sense s h) h).1.convergence_limit <
        (pick_random_edge (rank_sense s h) h).1.converge
    · rw [if_pos hgo, if_pos hgo]
      exact ih _ _ _ ha' hX' (Or.inr (by rw [hns]; exact hX'))
    · rw [if_neg hgo, if_neg hgo]
      exact Or.inr ⟨_, _, rfl, rfl, ha'⟩

/-- A fuelled traversal in two runs related by `R`: when every visit keeps the
runs related and returns the same flag, so does the traversal. -/
theorem foreach_visit_fuel_rel {α : Type} (cb : State → α → Option (State × Bool))
    (R : State → State → Prop) (l : List α)
    (hcb : ∀ x ∈ l, ∀ s t, R s t →
      (cb s x = none ∧ cb t x = none) ∨
      ∃ s' t' b, cb s x = some (s', b) ∧ cb t x = some (t', b) ∧ R s' t') :
    ∀ s t, R s t →
      (foreach_visit_fuel cb l s = none ∧ foreach_visit_fuel cb l t = none) ∨
      ∃ s' t' b, foreach_visit_fuel cb l s = some (s', b) ∧
        foreach_visit_fuel cb l t = some (t', b) ∧ R s' t' := by
  induction l with
  | nil => intro s t hr; exact Or.inr ⟨s, t, false, rfl, rfl, hr⟩
  | cons x xs ih =>
    intro s t hr
    rcases hcb x (List.mem_cons_self _ _) s t hr with ⟨h1, h2⟩ | ⟨s', t', b, h1, h2, hr'⟩
    · left
      simp [foreach_visit_fuel, h1, h2]
    · cases b with
      | true =>
        right
        exact ⟨s', t', true, by simp [foreach_visit_fuel, h1], by simp [foreach_visit_fuel, h2],
          hr'⟩
      | false =>
        have e1 : foreach_visit_fuel cb (x :: xs) s = foreach_visit_fuel cb xs s' := by
          simp [foreach_visit_fuel, h1]
        have e2 : foreach_visit_fuel cb (x :: xs) t = foreach_visit_fuel cb xs t' := by
          simp [foreach_visit_fuel, h2]
        rw [e1, e2]
        exact ih (fun y hy => hcb y (List.mem_cons_of_mem _ hy)) s' t' hr'

theorem edge_weight_sum_nil (s : State) (h : Handle) (hnil : s.sense_edges h = []) :
    edge_weight_sum s h = 0 := by
  simp [edge_weight_sum, hnil]

theorem agree_edge_weight_sum (Z X : Handle → Prop) (s0 s t : State) (h : Handle)
    (hatom : ∀ a, X a → ∀ p ∈ s0.sense_edges a, ¬ Z p.2)
    (ha : Agree Z X s0 s t) (hh : X h) :
    edge_weight_sum t h = edge_weight_sum s h := by
  obtain ⟨f, rfl⟩ : ∃ f, t = set_tv s f := ⟨t.tv, ha.same⟩
  apply edge_weight_sum_set_tv
  intro q hq
  rw [ha.sense_edges] at hq
  exact ha.off _ (hatom h hh q hq)

theorem agree_walk_start (Z X : Handle → Prop) (s0 s t : State) (h : Handle)
    (hatom : ∀ a, X a → ∀ p ∈ s0.sense_edges a, ¬ Z p.2)
    (ha : Agree Z X s0 s t) (hh : X h) :
    Agree Z X s0 (walk_start s h) (walk_start t h) := by
  have hsum := agree_edge_weight_sum Z X s0 s t h hatom ha hh
  obtain ⟨f, rfl⟩ : ∃ f, t = set_tv s f := ⟨t.tv, ha.same⟩
  refine ⟨?_, ha.off, ha.sense_edges, ha.word_senses, ha.word_instances, ha.kept⟩
  unfold walk_start
  rw [hsum]
  rfl

/-- A call of `start_sense` on a sense of `X`, in two runs that agree outside
`Z`. -/
theorem start_sense_agree (Z X : Handle → Prop) (s0 : State)
    (hXZ : ∀ x, X x → ¬ Z x)
    (hclosed : ∀ a, X a → ∀ p ∈ s0.sense_edges a, X p.1)
    (hatom : ∀ a, X a → ∀ p ∈ s0.sense_edges a, ¬ Z p.2)
    (fuel : Nat) (s t : State) (ws h : Handle) (ha : Agree Z X s0 s t) (hh : X h) :
    (start_sense fuel s ws h = none ∧ start_sense fuel t ws h = none) ∨
    ∃ s' t' b, start_sense fuel s ws h = some (s', b) ∧
      start_sense fuel t ws h = some (t', b) ∧ Agree Z X s0 s' t' := by
  have hsum := agree_edge_weight_sum Z X s0 s t h hatom ha hh
  have hws := agree_walk_start Z X s0 s t h hatom ha hh
  by_cases hconn : edge_weight_sum s h < 1 / 10 ^ 10
  · right
    refine ⟨walk_start s h, walk_start t h, false, ?_, ?_, hws⟩
    · rw [start_sense_eq, if_pos hconn]; rfl
    · rw [start_sense_eq, if_pos (by rw [hsum]; exact hconn)]; rfl
  · have hne : s0.sense_edges h ≠ [] := by
      intro hnil
      apply hconn
      rw [edge_weight_sum_nil s h (by rw [ha.sense_edges]; exact hnil)]
      norm_num
    rw [start_sense_connected _ _ _ _ hconn,
      start_sense_connected _ _ _ _ (by rw [hsum]; exact hconn)]
    rcases walk_loop_agree Z X s0 hXZ hclosed hatom fuel _ _ h hws hh (Or.inl hne) with
      ⟨h1, h2⟩ | ⟨s', t', h1, h2, ha'⟩
    · left; rw [h1, h2]; exact ⟨rfl, rfl⟩
    · right; rw [h1, h2]; exact ⟨s', t', false, rfl, rfl, ha'⟩

/-- A call of `rank_parse` on a parse whose senses are in `X`, in two runs
that agree outside `Z`: both fail to return within the fuel, or both return,
in states that agree outside `Z`. -/
theorem rank_parse_agree (Z X : Handle → Prop) (s0 : State)
    (hXZ : ∀ x, X x → ¬ Z x)
    (hclosed : ∀ a, X a → ∀ p ∈ s0.sense_edges a, X p.1)
    (hatom : ∀ a, X a → ∀ p ∈ s0.sense_edges a, ¬ Z p.2)
    (P : Handle) (hP : ∀ h ∈ parse_sense_links s0 P, X h)
    (fuel : Nat) (s t : State) (ha : Agree Z X s0 s t) :
    (rank_parse fuel s P = none ∧ rank_parse fuel t P = none) ∨
    ∃ s' t', rank_parse fuel s P = some s' ∧ rank_parse fuel t P = some t' ∧
      Agree Z X s0 s' t' := by
  have hword : ∀ w ∈ s0.word_instances P, ∀ s t, Agree Z X s0 s t →
      (start_word fuel s w = none ∧ start_word fuel t w = none) ∨
      ∃ s' t' b, start_word fuel s w = some (s', b) ∧ start_word fuel t w = some (t', b) ∧
        Agree Z X s0 s' t' := by
    intro w hw s t ha
    have hwt : t.word_senses = s0.word_senses := by
      rw [ha.same]; exact ha.word_senses
    have key := foreach_visit_fuel_rel (fun st p => start_sense fuel st p.1 p.2)
      (Agree Z X s0) (s0.word_senses w)
      (by
        intro p hp s t ha
        exact start_sense_agree Z X s0 hXZ hclosed hatom fuel s t p.1 p.2 ha
          (hP p.2 ((mem_parse_sense_links s0 P p.2).mpr ⟨w, hw, p, hp, rfl⟩)))
      s t ha
    unfold start_word
    rw [ha.word_senses, hwt]
    rcases key with ⟨h1, h2⟩ | ⟨s', t', b, h1, h2, ha'⟩
    · left; rw [h1, h2]; exact ⟨rfl, rfl⟩
    · right; rw [h1, h2]; exact ⟨s', t', false, rfl, rfl, ha'⟩
  have hwt : t.word_instances = s0.word_instances := by
    rw [ha.same]; exact ha.word_instances
  have key := foreach_visit_fuel_rel (start_word fuel) (Agree Z X s0) (s0.word_instances P)
    hword s t ha
  unfold rank_parse
  rw [ha.word_instances, hwt]
  rcases key with ⟨h1, h2⟩ | ⟨s', t', b, h1, h2, ha'⟩
  · left; rw [h1, h2]; exact ⟨rfl, rfl⟩
  · right; rw [h1, h2]; exact ⟨s', t', rfl, rfl, ha'⟩

/-! ## Two parses in one document -/

theorem agree_self (X : Handle → Prop) (s0 : State) :
    Agree (fun _ => False) X s0 s0 s0 :=
  ⟨rfl, fun _ _ => rfl, rfl, rfl, rfl, fun _ _ => rfl⟩

/-- The walks over a parse whose senses lie in a set `X` closed under edges
change no truth value outside `X`. -/
theorem rank_parse_writes_inside (X : Handle → Prop) (s0 : State)
    (hclosed : ∀ a, X a → ∀ p ∈ s0.sense_edges a, X p.1)
    (P : Handle) (hP : ∀ h ∈ parse_sense_links s0 P, X h)
    (fuel : Nat) (s' : State) (hr : rank_parse fuel s0 P = some s') :
    ∀ x, ¬ X x → s'.tv x = s0.tv x := by
  rcases rank_parse_agree (fun _ => False) X s0 (fun _ _ h => h) hclosed
    (fun _ _ _ _ h => h) P hP fuel s0 s0 (agree_self X s0) with ⟨h1, -⟩ | ⟨s1, t1, h1, -, ha⟩
  · rw [hr] at h1; cases h1
  · rw [hr] at h1; cases h1
    exact ha.kept

theorem init_parse_frame (s : State) (P : Handle) :
    (init_parse s P).sense_edges = s.sense_edges ∧
      (init_parse s P).word_senses = s.word_senses ∧
      (init_parse s P).word_instances = s.word_instances ∧
      (init_parse s P).converge = 1 := by
  obtain ⟨tv', he, -, -⟩ := init_parse_eq s P
  rw [he]
  exact ⟨rfl, rfl, rfl, rfl⟩

theorem parse_sense_links_congr (s t : State) (P : Handle)
    (hwi : t.word_instances = s.word_instances) (hws : t.word_senses = s.word_senses) :
    parse_sense_links t P = parse_sense_links s P := by
  simp [parse_sense_links, hwi, hws]

/-- After `init_parse P1`, a further `init_parse P2` changes only truth values
of senses of `P2`. -/
theorem agree_init_parse (X : Handle → Prop) (s : State) (P1 P2 : Handle) :
    Agree (fun x => x ∈ parse_sense_links s P2) X (init_parse s P1) (init_parse s P1)
      (init_parse (init_parse s P1) P2) := by
  obtain ⟨tv1, he1, -, -⟩ := init_parse_eq s P1
  obtain ⟨tv2, he2, -, hout⟩ := init_parse_eq (init_parse s P1) P2
  have hl : parse_sense_links (init_parse s P1) P2 = parse_sense_links s P2 :=
    init_parse_sense_links s P1 P2
  refine ⟨?_, ?_, rfl, rfl, rfl, fun _ _ => rfl⟩
  · rw [he2, he1]; rfl
  · intro x hx
    rw [he2]
    exact hout x (by rw [hl]; exact hx)

/-- C14 (amended): two parses in one document.  Let `P1` and `P2` share no
sense and no edge: the senses of `P1` lie in a set `X` and those of `P2` in a
set `Y`, the sets are disjoint and closed under edges, and no edge atom of `X`
is in `Y`.  When `rank_document [P1, P2]` returns: no rank value leaks (the
walks over `P1` change no score in `Y`, the walks over `P2` change no score in
`X`), and the final scores of `P1` equal those obtained by ranking `P1` alone
(`init_parse` then `rank_parse`) from the same state with the same random
draws.  The accumulator is shared: the walks over `P2` begin with the
accumulator (and the position in the random sequence) that the walks over `P1`
have left, which is the one `P1` alone ends with, not 1. -/
theorem rank_document_isolation (s : State) (P1 P2 : Handle) (X Y : Handle → Prop)
    (hX : ∀ h ∈ parse_sense_links s P1, X h) (hY : ∀ h ∈ parse_sense_links s P2, Y h)
    (hXY : ∀ x, X x → ¬ Y x)
    (hXc : ∀ a, X a → ∀ p ∈ s.sense_edges a, X p.1 ∧ ¬ Y p.2)
    (hYc : ∀ a, Y a → ∀ p ∈ s.sense_edges a, Y p.1)
    (fuel : Nat) (s_doc : State) (hdoc : rank_document fuel s [P1, P2] = some s_doc) :
    ∃ s1 s_alone,
      rank_parse fuel (init_parse (init_parse s P1) P2) P1 = some s1 ∧
      rank_parse fuel s1 P2 = some s_doc ∧
      rank_parse fuel (init_parse s P1) P1 = some s_alone ∧
      (∀ x, X x → s_doc.tv x = s_alone.tv x) ∧
      (∀ x, X x → s_doc.tv x = s1.tv x) ∧
      (∀ x, Y x → s1.tv x = (init_parse (init_parse s P1) P2).tv x) ∧
      s1.converge = s_alone.converge ∧ s1.rand_pos = s_alone.rand_pos := by
  obtain ⟨he1, hw1, hi1, -⟩ := init_parse_frame s P1
  obtain ⟨he2, hw2, hi2, -⟩ := init_parse_frame (init_parse s P1) P2
  -- the two loops of the document run
  rw [rank_document_cons] at hdoc
  simp only [List.foldl_cons, List.foldl_nil] at hdoc
  cases hr1 : rank_parse fuel (init_parse (init_parse s P1) P2) P1 with
  | none => rw [hr1] at hdoc; cases hdoc
  | some s1 =>
    rw [hr1] at hdoc
    have hr2 : rank_parse fuel s1 P2 = some s_doc := by
      simp only [Option.some_bind, rank_document_rank] at hdoc
      cases hr2 : rank_parse fuel s1 P2 with
      | none => rw [hr2] at hdoc; cases hdoc
      | some s2 => rw [hr2] at hdoc; exact hdoc
    obtain ⟨hf1, -⟩ := rank_parse_props fuel _ P1 s1 hr1
    -- the run of `P1` alone agrees with the run of `P1` in the document
    have hP1 : ∀ h ∈ parse_sense_links (init_parse s P1) P1, X h := by
      intro h hh
      rw [init_parse_sense_links] at hh
      exact hX h hh
    rcases rank_parse_agree (fun x => x ∈ parse_sense_links s P2) X (init_parse s P1)
      (fun x hx hm => hXY x hx (hY x hm))
      (fun a ha p hp => (hXc a ha p (he1 ▸ hp)).1)
      (fun a ha p hp hm => (hXc a ha p (he1 ▸ hp)).2 (hY _ hm))
      P1 hP1 fuel _ _ (agree_init_parse X s P1 P2) with ⟨-, h2⟩ | ⟨sa, t1, h1, h2, ha⟩
    · rw [hr1] at h2; cases h2
    · rw [hr1] at h2; cases h2
      -- the walks over `P2` write inside `Y`, those over `P1` inside `X`
      have hin2 := rank_parse_writes_inside Y s1
        (fun a ha p hp => hYc a ha p (by rw [← he1, ← he2, ← hf1.sense_edges]; exact hp))
        P2 (by
          intro h hh
          rw [parse_sense_links_congr _ s1 P2 hf1.word_instances hf1.word_senses,
            init_parse_sense_links, init_parse_sense_links] at hh
          exact hY h hh)
        fuel s_doc hr2
      have hin1 := rank_parse_writes_inside X (init_parse (init_parse s P1) P2)
        (fun a ha p hp => (hXc a ha p (by rw [← he1, ← he2]; exact hp)).1)
        P1 (by
          intro h hh
          rw [init_parse_sense_links, init_parse_sense_links] at hh
          exact hX h hh)
        fuel s1 hr1
      have hx1 : ∀ x, X x → s_doc.tv x = s1.tv x :=
        fun x hx => hin2 x (hXY x hx)
      refine ⟨s1, sa, rfl, hr2, h1, ?_, hx1, ?_, ?_, ?_⟩
      · intro x hx
        rw [hx1 x hx]
        exact ha.off x (fun hm => hXY x hx (hY x hm))
      · intro x hx
        exact hin1 x (fun hxx => hXY x hxx hx)
      · rw [ha.same]; rfl
      · rw [ha.same]; rfl

/-- Witness for C14 (amended): the document `[30, 31]` on the two-component
graph returns, and the scores of the senses `1` and `2` of parse `30` are
those of ranking parse `30` alone. -/
theorem rank_document_isolation_witness :
    ∃ s_doc s_alone, rank_document 104 (two_parses 1 1) [30, 31] = some s_doc ∧
      rank_parse 104 (init_parse (two_parses 1 1) 30) 30 = some s_alone ∧
      s_doc.tv 1 = s_alone.tv 1 ∧ s_doc.tv 2 = s_alone.tv 2 := by
  obtain ⟨s1, s2, -, -, hd, -, -, -, -⟩ := two_parses_document_run
  obtain ⟨h30, h31, -⟩ := two_parses_sense_links (two_parses 1 1) (Frame.refl _)
  obtain ⟨t1, sa, -, -, hra, hx, -, -, -, -⟩ :=
    rank_document_isolation (two_parses 1 1) 30 31 (fun x => x = 1 ∨ x = 2)
      (fun x => x = 4 ∨ x = 5 ∨ x = 6)
      (by intro h hh; rw [h30] at hh; simpa using hh)
      (by intro h hh; rw [h31] at hh; simpa using hh)
      (by intro x hx hy; rcases hx with rfl | rfl <;> simp at hy)
      (by
        intro a ha p hp
        rcases ha with rfl | rfl <;> simp [two_parses, SenseRank] at hp <;> simp [hp])
      (by
        intro a ha p hp
        rcases ha with rfl | rfl | rfl <;> simp [two_parses, SenseRank] at hp
        · simp [hp]
        · rcases hp with hp | hp <;> simp [hp]
        · simp [hp])
      104 s2 hd
  exact ⟨s2, sa, hd, hra, hx 1 (Or.inl rfl), hx 2 (Or.inr rfl)⟩

/-- C14 (as stated, refuted): the accumulator leaks from the first parse into
the second.  On the two-component graph the parses `30` (senses `1`, `2`) and
`31` (senses `4`, `5`, `6`) share no sense and no edge, and the sequence of
`rand()` has period 105, so that the walks over parse `31` see the same draws
from position 105 on as from position 0.  In `rank_document [30, 31]` the
walks over parse `31` begin with the accumulator `(29/30)^105`, below the
limit, and leave the means 1 and 134/125 on the senses `4` and `5`; ranking
parse `31` alone leaves the means 1331/1250 and 27529/25000. -/
theorem document_accumulator_leaks :
    (parse_sense_links (two_parses 1 1) 30 = [1, 2] ∧
      parse_sense_links (two_parses 1 1) 31 = [4, 5, 6] ∧
      (∀ a ∈ [1, 2], ∀ p ∈ (two_parses 1 1).sense_edges a, p.1 ∈ [1, 2] ∧ p.2 = 3) ∧
      (∀ a ∈ [4, 5, 6], ∀ p ∈ (two_parses 1 1).sense_edges a,
        p.1 ∈ [4, 5, 6] ∧ p.2 ∈ [7, 8, 9, 10])) ∧
    ∃ s1 s_doc s_alone,
      rank_parse 104 (init_parse (init_parse (two_parses 1 1) 30) 31) 30 = some s1 ∧
      rank_parse 104 s1 31 = some s_doc ∧
      rank_document 104 (two_parses 1 1) [30, 31] = some s_doc ∧
      rank_parse 104 (init_parse (two_parses 1 1) 31) 31 = some s_alone ∧
      s1.converge = (29 / 30) ^ 105 ∧ s1.converge < s1.convergence_limit ∧
      (init_parse (two_parses 1 1) 31).converge = 1 ∧
      s1.rand_pos = 105 ∧ (init_parse (two_parses 1 1) 31).rand_pos = 0 ∧
      (∀ k, s1.rand_seq (105 + k) = (init_parse (two_parses 1 1) 31).rand_seq k) ∧
      (s_doc.tv 4).mean = 1 ∧ (s_alone.tv 4).mean = 1331 / 1250 ∧
      (s_doc.tv 5).mean = 134 / 125 ∧ (s_alone.tv 5).mean = 27529 / 25000 := by
  obtain ⟨h30, h31, -⟩ := two_parses_sense_links (two_parses 1 1) (Frame.refl _)
  refine ⟨⟨h30, h31, ?_, ?_⟩, ?_⟩
  · intro a ha p hp
    simp at ha
    rcases ha with rfl | rfl <;> simp [two_parses, SenseRank] at hp <;> simp [hp]
  · intro a ha p hp
    simp at ha
    rcases ha with rfl | rfl | rfl <;> simp [two_parses, SenseRank] at hp
    · simp [hp]
    · rcases hp with hp | hp <;> simp [hp]
    · simp [hp]
  · obtain ⟨s1, s2, hr1, hr2, hd, hs1, hc1, hs2, hp1⟩ := two_parses_document_run
    obtain ⟨hs0, hc0, hp0, -⟩ := two_parses_init (two_parses 1 1) 31 (two_parses_like_self 1 1)
      (Or.inr (Or.inl rfl))
    obtain ⟨sa, hra, hsa⟩ := two_parses_alone_run _ hs0 hc0 (by rw [hp0]; rfl) 104 (le_refl _)
    refine ⟨s1, s2, sa, hr1, hr2, hd, hra, hc1, ?_, hc0, hp1, by rw [hp0]; rfl, ?_,
      ?_, ?_, ?_, ?_⟩
    · rw [(two_parses_like_limit _ _ _ hs1).1, hc1]; norm_num
    · intro k
      rw [hs1.frame.rand_seq, hs0.frame.rand_seq]
      simp [two_parses, SenseRank]
    · rw [hs2.tv]; simp [two_parses, SenseRank]
    · rw [hsa.tv]; simp [two_parses, SenseRank]
    · rw [hs2.tv]; simp [two_parses, SenseRank]
    · rw [hsa.tv]; simp [two_parses, SenseRank]

/-! ## The draw at the top of its range -/

/-- When no running sum exceeds `randy`, the `random_sum` traversal visits
every edge, never asks to stop, and leaves the target of the last edge in
`next_sense`. -/
theorem foreach_random_sum_no_cross (l : List (Handle × Handle)) :
    ∀ (s : State) (t : Handle), (l.map Prod.fst).getLast? = some t →
      (∀ j, j < l.length → s.edge_sum + cum_list s l (j + 1) ≤ s.randy) →
      (foreach_visit (fun st p => random_sum st p.1 p.2) l s).2 = false ∧
      (foreach_visit (fun st p => random_sum st p.1 p.2) l s).1.next_sense = t := by
  induction l with
  | nil => intro s t ht; simp at ht
  | cons x xs ih =>
    intro s t ht hbelow
    have hgo : (random_sum s x.1 x.2).2 = false := by
      rw [random_sum_snd]
      have h0 := hbelow 0 (by simp)
      simpa [cum_list] using h0
    rw [foreach_visit_cons_false _ _ _ _ hgo, random_sum_fst]
    cases xs with
    | nil =>
      rw [foreach_visit_nil]
      have hx : x.1 = t := by simpa using ht
      exact ⟨rfl, hx⟩
    | cons y ys =>
      have ht2 : (((y :: ys).map Prod.fst)).getLast? = some t := by
        simpa [List.getLast?_cons_cons] using ht
      apply ih { s with next_sense := x.1, edge_sum := s.edge_sum + s.weight x.2 } t ht2
      intro j hj
      have := hbelow (j + 1) (by simpa using hj)
      rw [cum_list_cons_succ] at this
      simpa [cum_list, State.weight, add_assoc] using this

/-- With an edge list on which no running sum exceeds the draw,
`pick_random_edge` returns the target of the last edge. -/
theorem pick_random_edge_no_cross (s : State) (h : Handle) (hne : s.sense_edges h ≠ [])
    (hbelow : ∀ k, k < (s.sense_edges h).length → cum_weight s h (k + 1) ≤ random_draw s h) :
    (pick_random_edge s h).2 = ((s.sense_edges h).getLast hne).1 := by
  rw [pick_random_edge_eq]
  have ht : ((s.sense_edges h).map Prod.fst).getLast? =
      some ((s.sense_edges h).getLast hne).1 := by
    rw [List.getLast?_map, List.getLast?_eq_getLast _ hne]
    rfl
  refine (foreach_random_sum_no_cross (s.sense_edges h) (selection_state s h) _ ht ?_).2
  intro j hj
  have := hbelow j hj
  simpa [selection_state, cum_weight, cum_list, State.weight] using this

/-- C21: the draw range of `pick_random_edge` is closed at the top, and at
the top the last edge is returned.  The draw is
`rand() / RAND_MAX * T` with `T` the total edge weight: for `rand()` in
`0..RAND_MAX` and `T ≥ 0` it lies in `[0, T]`, and for `rand() = RAND_MAX` it
equals `T`.  For every non-empty edge list, when no running sum exceeds the
draw, `pick_random_edge` returns the target of the last edge in iteration
order, whatever the weight of that edge; with non-negative weights this is
the case of every draw `r ≥ T`. -/
theorem pick_random_edge_draw_at_top (s : State) (h : Handle)
    (hne : s.sense_edges h ≠ []) :
    (0 < s.RAND_MAX → s.rand_seq s.rand_pos ≤ s.RAND_MAX → 0 ≤ edge_weight_sum s h →
      0 ≤ random_draw s h ∧ random_draw s h ≤ edge_weight_sum s h) ∧
    (0 < s.RAND_MAX → s.rand_seq s.rand_pos = s.RAND_MAX →
      random_draw s h = edge_weight_sum s h) ∧
    ((∀ k, k < (s.sense_edges h).length → cum_weight s h (k + 1) ≤ random_draw s h) →
      (pick_random_edge s h).2 = ((s.sense_edges h).getLast hne).1) ∧
    ((∀ p ∈ s.sense_edges h, 0 ≤ s.weight p.2) →
      edge_weight_sum s h ≤ random_draw s h →
      (pick_random_edge s h).2 = ((s.sense_edges h).getLast hne).1) := by
  refine ⟨?_, ?_, pick_random_edge_no_cross s h hne, ?_⟩
  · intro hmax hle hT
    have hM : (0 : ℚ) < (s.RAND_MAX : ℚ) := by exact_mod_cast hmax
    have hr : ((s.rand_seq s.rand_pos : ℕ) : ℚ) ≤ (s.RAND_MAX : ℚ) := by exact_mod_cast hle
    have hr0 : (0 : ℚ) ≤ ((s.rand_seq s.rand_pos : ℕ) : ℚ) := Nat.cast_nonneg _
    have hq0 : 0 ≤ ((s.rand_seq s.rand_pos : ℕ) : ℚ) / (s.RAND_MAX : ℚ) :=
      div_nonneg hr0 hM.le
    have hq1 : ((s.rand_seq s.rand_pos : ℕ) : ℚ) / (s.RAND_MAX : ℚ) ≤ 1 :=
      (div_le_one hM).mpr hr
    unfold random_draw
    exact ⟨mul_nonneg hq0 hT, mul_le_of_le_one_left hT hq1⟩
  · intro hmax heq
    have hM : (s.RAND_MAX : ℚ) ≠ 0 := by
      have : (0 : ℚ) < (s.RAND_MAX : ℚ) := by exact_mod_cast hmax
      exact this.ne'
    unfold random_draw
    rw [heq, div_self hM, one_mul]
  · intro hw hge
    apply pick_random_edge_no_cross s h hne
    intro k hk
    have hmono := cum_list_mono (s.sense_edges h) s hw (k + 1) (s.sense_edges h).length hk
    have hlen := cum_list_length s (s.sense_edges h)
    have hT : cum_weight s h (k + 1) ≤ edge_weight_sum s h := by
      unfold cum_weight edge_weight_sum
      rw [← hlen]
      exact hmono
    exact hT.trans hge

/-- Witness for C21: weights 1 and 0 and `rand() = RAND_MAX`: the draw equals
the total weight 1, and the target `3` of the last edge, of weight zero, is
returned. -/
theorem pick_random_edge_draw_at_top_witness :
    (last_zero 2147483647).rand_seq (last_zero 2147483647).rand_pos =
      (last_zero 2147483647).RAND_MAX ∧
    random_draw (last_zero 2147483647) 1 = edge_weight_sum (last_zero 2147483647) 1 ∧
    (∀ p ∈ (last_zero 2147483647).sense_edges 1, 0 ≤ (last_zero 2147483647).weight p.2) ∧
    (last_zero 2147483647).weight 6 = 0 ∧
    (pick_random_edge (last_zero 2147483647) 1).2 = 3 := by
  have hed : (last_zero 2147483647).sense_edges 1 = [(2, 5), (3, 6)] := rfl
  have hne : (last_zero 2147483647).sense_edges 1 ≠ [] := by rw [hed]; simp
  have hmax : 0 < (last_zero 2147483647).RAND_MAX := by
    show 0 < 2147483647
    decide
  have hw : ∀ p ∈ (last_zero 2147483647).sense_edges 1,
      0 ≤ (last_zero 2147483647).weight p.2 := by
    intro p hp
    rw [hed] at hp
    simp at hp
    rcases hp with rfl | rfl <;> simp [State.weight, last_zero, SenseRank]
  have key := pick_random_edge_draw_at_top (last_zero 2147483647) 1 hne
  have hdraw := key.2.1 hmax rfl
  refine ⟨rfl, hdraw, hw, by simp [State.weight, last_zero, SenseRank], ?_⟩
  rw [key.2.2.2 hw hdraw.ge]
  simp [hed]

end Wsd
